import Mathlib

/-!
Verification of the Mastic VDAF proof-of-concept implementation
(`poc/vidpf.py` and `poc/mastic.py`).

The Python sources are shallowly embedded below.  Byte strings are
modelled as `List Nat` (one `Nat` per byte), finite-field elements as an
abstract commutative ring, GF(2) elements as `Bool` (addition is `xor`,
multiplication is `and`), and the external primitives (the XOF used by
`extend`/`convert`, SHA3-256, and the field's `encode_vec`) as abstract
function parameters collected in a structure, together with the length
contracts they satisfy.  Fallible Python code (raising `ValueError`,
`KeyError`, `IndexError`, failed `assert`) is embedded with `Except`.
-/

/-! ## Byte strings -/

/-- A byte string: one `Nat` per byte. -/
abbrev Bytes := List Nat

/-- `common.xor`: bytewise xor, truncating to the shorter argument
(Python `zip` semantics). -/
def xorB (a b : Bytes) : Bytes := List.zipWith (fun x y => x ^^^ y) a b

/-- `Field2.conditional_select(inp)`: returns `inp` when the bit is set and a
zero string of the same length otherwise. -/
def condSelect (c : Bool) (k : Bytes) : Bytes :=
  if c then k else k.map (fun _ => 0)

/-- `vidpf.correct` on byte strings: `xor(k_0, ctrl.conditional_select(k_1))`. -/
def correctBytes (k0 k1 : Bytes) (c : Bool) : Bytes := xorB k0 (condSelect c k1)

/-- `vidpf.correct` on GF(2) elements: `k_0 + ctrl * k_1`. -/
def correctF2 (k0 k1 : Bool) (c : Bool) : Bool := xor k0 (c && k1)

/-! ## Field vectors -/

/-- `common.vec_add`: componentwise addition (Python `zip` semantics). -/
def vecAdd {F : Type} [Add F] (a b : List F) : List F := List.zipWith (· + ·) a b

/-- `common.vec_sub`: componentwise subtraction. -/
def vecSub {F : Type} [Sub F] (a b : List F) : List F := List.zipWith (· - ·) a b

/-- `common.vec_neg`: componentwise negation. -/
def vecNeg {F : Type} [Neg F] (a : List F) : List F := a.map (fun x => -x)

/-! ## VIDPF: parameters and external primitives

The field, the XOF behind `extend`/`convert`, SHA3-256 and
`Field.encode_vec` are external components; they are abstracted as
function parameters together with the output-length contracts they
satisfy. -/

structure VidpfParams (F : Type) where
  BITS : Nat
  VALUE_LEN : Nat
  seedSize : Nat
  hashLen : Nat
  extendF : Bytes → Bytes → (Bytes × Bytes) × (Bool × Bool)
  convertF : Bytes → Nat → Bytes → Bytes × List F
  hashF : Bytes → Bytes
  encodeVec : List F → Bytes
  extend_len_l : ∀ s b, ((extendF s b).1.1).length = seedSize
  extend_len_r : ∀ s b, ((extendF s b).1.2).length = seedSize
  convert_seed_len : ∀ s i b, ((convertF s i b).1).length = seedSize
  convert_vec_len : ∀ s i b, ((convertF s i b).2).length = VALUE_LEN
  hash_len : ∀ x, (hashF x).length = hashLen

/-- A correction word `(seed_cw, ctrl_cw, w_cw)`. -/
abbrev CW (F : Type) := Bytes × (Bool × Bool) × List F

/-- Error kinds raised by the Python code (`ValueError` at the argument
checks, `IndexError` on list indexing, `KeyError` on a missing memo key). -/
inductive VErr where
  | alphaTooLong
  | randLen
  | invalidAgg
  | levelTooDeep
  | nonUnique
  | prefixTooLong
  | indexErr
  | missingKey
  deriving DecidableEq

/-- `common.to_le_bytes(n, k)`: `k` little-endian bytes of `n`. -/
def toLeBytes (n k : Nat) : Bytes := (List.range k).map (fun j => n / 256 ^ j % 256)

/-- `str(node).encode('ascii')`: decimal ASCII rendering of a natural. -/
def asciiDec (n : Nat) : Bytes := (Nat.toDigits 10 n).map Char.toNat

/-- Input to the per-node SHA3 hash: `str(node) || to_le_bytes(level, 2) || seed`. -/
def hashInput (node lvl : Nat) (seed : Bytes) : Bytes :=
  asciiDec node ++ toLeBytes lvl 2 ++ seed

/-- Select component `0` (left) or `1` (right) of a seed pair, mirroring the
Python two-element lists returned by `extend`. -/
def pick2 (p : Bytes × Bytes) (j : Nat) : Bytes := if j = 0 then p.1 else p.2

/-- Select component `0` or `1` of a control-bit pair. -/
def pickB (p : Bool × Bool) (j : Nat) : Bool := if j = 0 then p.1 else p.2

/-! ## VIDPF key generation (`Vidpf.gen`)

The Python loop carries `(seed[0], seed[1], ctrl[0], ctrl[1])` across levels
and emits one correction word and one `cs_proof` per level.  `genStep` is the
loop body at level `i`; `genStates` iterates it from the initial state. -/

/-- One iteration of the `Vidpf.gen` level loop: from the state before level
`i`, produce the state after level `i`, the correction word and the
`cs_proof` emitted at level `i`. -/
def genStep {F : Type} [CommRing F] (P : VidpfParams F) (alpha : Nat) (beta : List F)
    (binder : Bytes) (i : Nat) (st : (Bytes × Bytes) × (Bool × Bool)) :
    ((Bytes × Bytes) × (Bool × Bool)) × CW F × Bytes :=
  let node := alpha >>> (P.BITS - i - 1)
  let bit : Nat := node % 2
  let bitB : Bool := node % 2 == 1
  let keep : Nat := bit
  let lose : Nat := 1 - bit
  let e0 := P.extendF st.1.1 binder
  let e1 := P.extendF st.1.2 binder
  let seedCw := xorB (pick2 e0.1 lose) (pick2 e1.1 lose)
  let ctrlCw : Bool × Bool :=
    (xor (xor e0.2.1 e1.2.1) (xor true bitB), xor (xor e0.2.2 e1.2.2) bitB)
  let conv0 := P.convertF (correctBytes (pick2 e0.1 keep) seedCw st.2.1) i binder
  let conv1 := P.convertF (correctBytes (pick2 e1.1 keep) seedCw st.2.2) i binder
  let c0n := correctF2 (pickB e0.2 keep) (pickB ctrlCw keep) st.2.1
  let c1n := correctF2 (pickB e1.2 keep) (pickB ctrlCw keep) st.2.2
  let wCw0 := vecAdd (vecSub beta conv0.2) conv1.2
  let mask : F := 1 - 2 * (if c1n then 1 else 0)
  let wCw := wCw0.map (fun x => x * mask)
  let proof0 := P.hashF (hashInput node i conv0.1)
  let proof1 := P.hashF (hashInput node i conv1.1)
  (((conv0.1, conv1.1), (c0n, c1n)), (seedCw, ctrlCw, wCw), xorB proof0 proof1)

/-- The `(seed[0], seed[1], ctrl[0], ctrl[1])` state of `Vidpf.gen` after
processing `i` levels.  The initial seeds are the two halves of `rand`;
initial control bits are `(0, 1)`. -/
def genStates {F : Type} [CommRing F] (P : VidpfParams F) (alpha : Nat) (beta : List F)
    (binder : Bytes) (rand : Bytes) : Nat → (Bytes × Bytes) × (Bool × Bool)
  | 0 => ((rand.take P.seedSize, rand.drop P.seedSize), (false, true))
  | i + 1 => (genStep P alpha beta binder i (genStates P alpha beta binder rand i)).1

/-- The correction word emitted by `Vidpf.gen` at level `i`. -/
def genCW {F : Type} [CommRing F] (P : VidpfParams F) (alpha : Nat) (beta : List F)
    (binder rand : Bytes) (i : Nat) : CW F :=
  (genStep P alpha beta binder i (genStates P alpha beta binder rand i)).2.1

/-- The `cs_proof` emitted by `Vidpf.gen` at level `i`. -/
def genCsp {F : Type} [CommRing F] (P : VidpfParams F) (alpha : Nat) (beta : List F)
    (binder rand : Bytes) (i : Nat) : Bytes :=
  (genStep P alpha beta binder i (genStates P alpha beta binder rand i)).2.2

/-- `Vidpf.gen(alpha, beta, binder, rand)`: returns
`(init_seed, correction_words, cs_proofs)` or raises `ValueError`. -/
def vidpfGen {F : Type} [CommRing F] (P : VidpfParams F) (alpha : Nat) (beta : List F)
    (binder rand : Bytes) :
    Except VErr ((Bytes × Bytes) × List (CW F) × List Bytes) :=
  if 2 ^ P.BITS ≤ alpha then .error .alphaTooLong
  else if rand.length ≠ 2 * P.seedSize then .error .randLen
  else .ok ((rand.take P.seedSize, rand.drop P.seedSize),
    (List.range P.BITS).map (genCW P alpha beta binder rand),
    (List.range P.BITS).map (genCsp P alpha beta binder rand))

/-! ## VIDPF evaluation (`Vidpf.eval`) -/

/-- A memoized prefix-tree node: `(seed, ctrl, y, pi_proof)`. -/
abbrev Entry (F : Type) := Bytes × Bool × List F × Bytes

/-- The `prefix_tree_share` dictionary, keyed by `(node, level)`. -/
abbrev Memo (F : Type) := Nat × Nat → Option (Entry F)

/-- Dictionary update. -/
def memoInsert {F : Type} (m : Memo F) (k : Nat × Nat) (v : Entry F) : Memo F :=
  fun q => if q = k then some v else m q

/-- Dictionary lookup that raises `KeyError` when absent. -/
def getMemo {F : Type} (m : Memo F) (k : Nat × Nat) : Except VErr (Entry F) :=
  match m k with
  | some e => .ok e
  | none => .error .missingKey

/-- List indexing that raises `IndexError` when out of range. -/
def getIdx {α : Type} (l : List α) (i : Nat) : Except VErr α :=
  match l[i]? with
  | some x => .ok x
  | none => .error .indexErr

/-- The `pi_proof`-independent part of `Vidpf.eval_next`: the next seed,
control bit and output vector of the child `node` of the node with state
`(prevSeed, prevCtrl)`. -/
def evalNextCore {F : Type} [CommRing F] (P : VidpfParams F) (prevSeed : Bytes)
    (prevCtrl : Bool) (cw : CW F) (currentLevel node : Nat) (binder : Bytes) :
    Bytes × Bool × List F :=
  let e := P.extendF prevSeed binder
  let sL := xorB e.1.1 (condSelect prevCtrl cw.1)
  let sR := xorB e.1.2 (condSelect prevCtrl cw.1)
  let tL := xor e.2.1 (cw.2.1.1 && prevCtrl)
  let tR := xor e.2.2 (cw.2.1.2 && prevCtrl)
  let bitB : Bool := node % 2 == 1
  let nextCtrl := if bitB then tR else tL
  let conv := P.convertF (if bitB then sR else sL) currentLevel binder
  let mask : F := if nextCtrl then 1 else 0
  let y := List.zipWith (fun wi ci => wi + ci * mask) conv.2 cw.2.2
  (conv.1, nextCtrl, y)

/-- `Vidpf.eval_next`: `evalNextCore` plus the one-hot proof update. -/
def evalNextFull {F : Type} [CommRing F] (P : VidpfParams F) (prevSeed : Bytes)
    (prevCtrl : Bool) (cw : CW F) (csp : Bytes) (currentLevel node : Nat)
    (piProof binder : Bytes) : Entry F :=
  let core := evalNextCore P prevSeed prevCtrl cw currentLevel node binder
  let piPrime := P.hashF (hashInput node currentLevel core.1)
  let h2 := if core.2.1 then xorB piProof (xorB piPrime csp) else xorB piProof piPrime
  (core.1, core.2.1, core.2.2, xorB piProof (P.hashF h2))

/-- The body of the `for s in [0, 1]` loop in `Vidpf.eval`: memoize the node
`k` at `currentLevel` if it is not already present. -/
def evalTouch {F : Type} [CommRing F] (P : VidpfParams F) (binder : Bytes) (cw : CW F)
    (csp : Bytes) (currentLevel : Nat) (seed : Bytes) (ctrl : Bool) (piProof : Bytes)
    (m : Memo F) (k : Nat) : Memo F :=
  if (m (k, currentLevel)).isSome then m
  else memoInsert m (k, currentLevel) (evalNextFull P seed ctrl cw csp currentLevel k piProof binder)

/-- The body of the `for current_level in range(level+1)` loop of
`Vidpf.eval`: memoize both children of the current path node, then continue
from the on-path child.  The state is `(memo, seed, ctrl, pi_proof)`. -/
def evalStep {F : Type} [CommRing F] (P : VidpfParams F) (binder : Bytes)
    (cws : List (CW F)) (csps : List Bytes) (level pfx currentLevel : Nat)
    (st : Memo F × Bytes × Bool × Bytes) : Except VErr (Memo F × Bytes × Bool × Bytes) := do
  let node := pfx >>> (level - currentLevel)
  let cw ← getIdx cws currentLevel
  let csp ← getIdx csps currentLevel
  let m1 := evalTouch P binder cw csp currentLevel st.2.1 st.2.2.1 st.2.2.2 st.1 node
  let m2 := evalTouch P binder cw csp currentLevel st.2.1 st.2.2.1 st.2.2.2 m1 (node ^^^ 1)
  let e ← getMemo m2 (node, currentLevel)
  .ok (m2, e.1, e.2.1, e.2.2.2)

/-- Iterate `evalStep` for `cnt` further levels starting at `currentLevel`. -/
def walkLevels {F : Type} [CommRing F] (P : VidpfParams F) (binder : Bytes)
    (cws : List (CW F)) (csps : List Bytes) (level pfx : Nat) :
    Nat → Nat → (Memo F × Bytes × Bool × Bytes) → Except VErr (Memo F × Bytes × Bool × Bytes)
  | 0, _, st => .ok st
  | cnt + 1, currentLevel, st => do
    let st1 ← evalStep P binder cws csps level pfx currentLevel st
    walkLevels P binder cws csps level pfx cnt (currentLevel + 1) st1

/-- The `for prefix in prefixes` loop of `Vidpf.eval`: check the prefix
length, walk the path, and thread `(memo, pi_proof)` to the next prefix. -/
def evalPrefixLoop {F : Type} [CommRing F] (P : VidpfParams F) (binder : Bytes)
    (cws : List (CW F)) (csps : List Bytes) (level : Nat) (initSeed : Bytes)
    (initCtrl : Bool) : List Nat → Memo F × Bytes → Except VErr (Memo F × Bytes)
  | [], st => .ok st
  | pfx :: rest, st =>
    if 2 ^ (level + 1) ≤ pfx then .error .prefixTooLong
    else do
      let r ← walkLevels P binder cws csps level pfx (level + 1) 0
        (st.1, initSeed, initCtrl, st.2)
      evalPrefixLoop P binder cws csps level initSeed initCtrl rest (r.1, r.2.2.2)

/-- The bytes hashed for the path proof along one prefix: for each
`current_level < level`, `encode_vec(y_parent - (y_left + y_right))`. -/
def pathSegment {F : Type} [CommRing F] (P : VidpfParams F) (m : Memo F)
    (level pfx : Nat) : Nat → Nat → Except VErr Bytes
  | 0, _ => .ok []
  | cnt + 1, currentLevel => do
    let node := pfx >>> (level - currentLevel)
    let ep ← getMemo m (node, currentLevel)
    let el ← getMemo m (node <<< 1, currentLevel + 1)
    let er ← getMemo m ((node <<< 1) ||| 1, currentLevel + 1)
    let rest ← pathSegment P m level pfx cnt (currentLevel + 1)
    .ok (P.encodeVec (vecSub ep.2.2.1 (vecAdd el.2.2.1 er.2.2.1)) ++ rest)

/-- All bytes hashed for the path proof, over all prefixes in order. -/
def pathBytesLoop {F : Type} [CommRing F] (P : VidpfParams F) (m : Memo F)
    (level : Nat) : List Nat → Except VErr Bytes
  | [] => .ok []
  | pfx :: rest => do
    let seg ← pathSegment P m level pfx level 0
    let others ← pathBytesLoop P m level rest
    .ok (seg ++ others)

/-- The output-share loop of `Vidpf.eval`: `y` for Aggregator 0, `-y` for
Aggregator 1, per prefix. -/
def outShareLoop {F : Type} [CommRing F] (P : VidpfParams F) (m : Memo F)
    (level aggId : Nat) : List Nat → Except VErr (List (List F))
  | [] => .ok []
  | pfx :: rest => do
    let e ← getMemo m (pfx, level)
    let others ← outShareLoop P m level aggId rest
    .ok ((if aggId == 0 then e.2.2.1 else vecNeg e.2.2.1) :: others)

/-- `Vidpf.eval(agg_id, correction_words, cs_proofs, init_seed, level,
prefixes, binder)`: returns `(beta_share, out_share, pi_proof + path_proof)`
or raises. -/
def vidpfEval {F : Type} [CommRing F] (P : VidpfParams F) (aggId : Nat)
    (cws : List (CW F)) (csps : List Bytes) (initSeed : Bytes) (level : Nat)
    (prefixes : List Nat) (binder : Bytes) :
    Except VErr (List F × List (List F) × Bytes) :=
  if 2 ≤ aggId then .error .invalidAgg
  else if P.BITS ≤ level then .error .levelTooDeep
  else if ¬ prefixes.Nodup then .error .nonUnique
  else do
    let r ← evalPrefixLoop P binder cws csps level initSeed (aggId == 1) prefixes
      ((fun _ => none), P.hashF [])
    let pb ← pathBytesLoop P r.1 level prefixes
    let outShare ← outShareLoop P r.1 level aggId prefixes
    let e0 ← getMemo r.1 (0, 0)
    let e1 ← getMemo r.1 (1, 0)
    let bs := vecAdd e0.2.2.1 e1.2.2.1
    let betaShare := if aggId == 1 then vecNeg bs else bs
    .ok (betaShare, outShare, r.2 ++ P.hashF pb)

/-- `Vidpf.verify(proof_0, proof_1)`. -/
def vidpfVerify (proof0 proof1 : Bytes) : Bool := proof0 == proof1

/-! ## Mastic: data model

`mastic.py` instantiates a newer VIDPF (its `vidpf.py` revision is not part
of the sources here) and an FLP; both are abstracted as parameters.  `C` is
the type of the newer VIDPF's correction words. -/

/-- An aggregation parameter `(level, prefixes, do_weight_check)`; prefixes
are bit-tuples. -/
structure AggParam where
  level : Nat
  prefixes : List (List Bool)
  doWeightCheck : Bool
  deriving DecidableEq

/-- Error kinds raised by the Mastic preparation code (`ValueError`,
`Exception`, failed `assert`, VIDPF evaluation failure, `IndexError`). -/
inductive MErr where
  | cardinality
  | vidpfMismatch
  | missingVerifier
  | flpReject
  | missingJointRandPart
  | missingShardInput
  | evalFail
  | outShareEmpty
  deriving DecidableEq

/-- Modelled from the spec: the XOF usage codes of `dst.py` (§4.6), which is
not among the sources; only their identity matters here, not their values. -/
def USAGE_PROOF_SHARE : Nat := 1

/-- Modelled from the spec: usage code for prove randomness (§4.6). -/
def USAGE_PROVE_RAND : Nat := 2

/-- Modelled from the spec: usage code for query randomness (§4.6). -/
def USAGE_QUERY_RAND : Nat := 3

/-- Modelled from the spec: usage code for joint-randomness parts (§4.6). -/
def USAGE_JOINT_RAND_PART : Nat := 4

/-- Modelled from the spec: usage code for the joint-randomness seed (§4.6). -/
def USAGE_JOINT_RAND_SEED : Nat := 5

/-- Modelled from the spec: usage code for joint-randomness expansion (§4.6). -/
def USAGE_JOINT_RAND : Nat := 6

/-- The Mastic operational parameters: sizes, the abstract FLP, XOF and
newer-VIDPF interfaces consumed by `mastic.py`. -/
structure MasticParams (F C : Type) where
  seedSize : Nat
  vidpfRandSize : Nat
  MEAS_LEN : Nat
  JOINT_RAND_LEN : Nat
  OUTPUT_LEN : Nat
  PROOF_LEN : Nat
  QUERY_RAND_LEN : Nat
  flpDecide : List F → Bool
  flpTruncate : List F → List F
  flpQuery : List F → List F → List F → List F → Nat → List F
  deriveSeed : Bytes → Bytes → Bytes → Bytes
  expandVec : Bytes → Bytes → Bytes → Nat → List F
  dstF : Bytes → Nat → Bytes
  encodePublicShare : List C → Bytes
  vidpfEvalM : Nat → List C → Bytes → Nat → List (List Bool) → Bytes → Bytes →
    Except MErr (List F × List (List F) × Bytes)

/-- `Mastic.RAND_SIZE` as set in `Mastic.__init__`. -/
def masticRandSize {F C : Type} (P : MasticParams F C) : Nat :=
  P.vidpfRandSize + 2 * P.seedSize + P.MEAS_LEN +
    (if 0 < P.JOINT_RAND_LEN then P.seedSize else 0)

/-- `common.front(length, vec)`: split off the first `length` items. -/
def front {α : Type} (n : Nat) (xs : List α) : List α × List α := (xs.take n, xs.drop n)

/-- The `rand` split performed by `Mastic.shard_without_joint_rand`:
`(vidpf_rand, prove_rand_seed, helper_seed, beta_helper_seed)` and the
leftover bytes (which the code asserts to be empty). -/
def shardSplitNoJR {F C : Type} (P : MasticParams F C) (rand : Bytes) :
    (Bytes × Bytes × Bytes × Bytes) × Bytes :=
  let f1 := front P.vidpfRandSize rand
  let f2 := front P.seedSize f1.2
  let f3 := front P.seedSize f2.2
  let f4 := front P.seedSize f3.2
  ((f1.1, f2.1, f3.1, f4.1), f4.2)

/-- The `rand` split performed by `Mastic.shard_with_joint_rand`:
`(vidpf_rand, prove_rand_seed, leader_seed, helper_seed, beta_helper_seed)`
and the leftover bytes. -/
def shardSplitJR {F C : Type} (P : MasticParams F C) (rand : Bytes) :
    (Bytes × Bytes × Bytes × Bytes × Bytes) × Bytes :=
  let f1 := front P.vidpfRandSize rand
  let f2 := front P.seedSize f1.2
  let f3 := front P.seedSize f2.2
  let f4 := front P.seedSize f3.2
  let f5 := front P.seedSize f4.2
  ((f1.1, f2.1, f3.1, f4.1, f5.1), f5.2)

/-- Exact consumption of `rand` by `Mastic.shard`: nothing left over (the
`assert len(rand) == 0`) and every piece received its full length (no
shortfall). -/
def shardRandExact {F C : Type} (P : MasticParams F C) (rand : Bytes) : Bool :=
  if 0 < P.JOINT_RAND_LEN then
    let s := shardSplitJR P rand
    s.2 == [] && s.1.1.length == P.vidpfRandSize && s.1.2.1.length == P.seedSize &&
      s.1.2.2.1.length == P.seedSize && s.1.2.2.2.1.length == P.seedSize &&
      s.1.2.2.2.2.length == P.seedSize
  else
    let s := shardSplitNoJR P rand
    s.2 == [] && s.1.1.length == P.vidpfRandSize && s.1.2.1.length == P.seedSize &&
      s.1.2.2.1.length == P.seedSize && s.1.2.2.2.length == P.seedSize

/-- `Mastic.is_valid(agg_param, previous_agg_params)`. -/
def isValid (p : AggParam) (prev : List AggParam) : Bool :=
  let weightChecked :=
    (p.doWeightCheck && prev.length == 0) ||
    (!p.doWeightCheck && prev.any (fun q => q.doWeightCheck))
  let levelIncreased :=
    prev.length == 0 || decide (((prev.getLast?).getD p).level < p.level)
  weightChecked && levelIncreased

/-! ## Mastic: joint randomness and preparation -/

/-- `Mastic.joint_rand_seed(ctx, parts)`. -/
def jointRandSeed {F C : Type} (P : MasticParams F C) (ctx : Bytes)
    (parts : List Bytes) : Bytes :=
  P.deriveSeed (List.replicate P.seedSize 0) (P.dstF ctx USAGE_JOINT_RAND_SEED) parts.flatten

/-- `Mastic.joint_rand_part(ctx, agg_id, seed, key, correction_words, nonce)`. -/
def jointRandPart {F C : Type} (P : MasticParams F C) (ctx : Bytes) (aggId : Nat)
    (seed key : Bytes) (cws : List C) (nonce : Bytes) : Bytes :=
  P.deriveSeed seed (P.dstF ctx USAGE_JOINT_RAND_PART)
    ([aggId % 256] ++ nonce ++ key ++ P.encodePublicShare cws)

/-- `Mastic.joint_rand(ctx, seed)`. -/
def jointRandVec {F C : Type} (P : MasticParams F C) (ctx seed : Bytes) : List F :=
  P.expandVec seed (P.dstF ctx USAGE_JOINT_RAND) [] P.JOINT_RAND_LEN

/-- `Mastic.helper_proof_share(ctx, seed)`. -/
def helperProofShare {F C : Type} (P : MasticParams F C) (ctx seed : Bytes) : List F :=
  P.expandVec seed (P.dstF ctx USAGE_PROOF_SHARE) [] P.PROOF_LEN

/-- `Mastic.query_rand(verify_key, ctx, nonce, level)`. -/
def queryRandF {F C : Type} (P : MasticParams F C) (verifyKey ctx nonce : Bytes)
    (level : Nat) : List F :=
  P.expandVec verifyKey (P.dstF ctx USAGE_QUERY_RAND) (nonce ++ toLeBytes level 2)
    P.QUERY_RAND_LEN

/-- A Mastic prep share `(eval_proof, verifier_share?, joint_rand_part?)`. -/
structure PrepShare (F : Type) where
  evalProof : Bytes
  verifier : Option (List F)
  jrPart : Option Bytes
  deriving DecidableEq

/-- `Mastic.prep_shares_to_prep(ctx, agg_param, prep_shares)`. -/
def prepSharesToPrep {F C : Type} [CommRing F] (P : MasticParams F C) (ctx : Bytes)
    (ap : AggParam) (prepShares : List (PrepShare F)) : Except MErr (Option Bytes) :=
  match prepShares with
  | [s0, s1] =>
    if s0.evalProof ≠ s1.evalProof then .error .vidpfMismatch
    else if !ap.doWeightCheck then .ok none
    else
      match s0.verifier, s1.verifier with
      | some v0, some v1 =>
        if !P.flpDecide (vecAdd v0 v1) then .error .flpReject
        else if P.JOINT_RAND_LEN = 0 then .ok none
        else
          match s0.jrPart, s1.jrPart with
          | some p0, some p1 => .ok (some (jointRandSeed P ctx [p0, p1]))
          | _, _ => .error .missingJointRandPart
      | _, _ => .error .missingVerifier
  | _ => .error .cardinality

/-- `Mastic.expand_input_share(ctx, agg_id, input_share)`: the input share is
`(key, proof_share?, seed?, beta_share)`; the helper expands its proof share
from its seed.  The Python `assert`s on absent fields are errors. -/
def expandInputShare {F C : Type} (P : MasticParams F C) (ctx : Bytes) (aggId : Nat)
    (inp : Bytes × Option (List F) × Option Bytes × List F) :
    Except MErr (Bytes × List F × Option Bytes × List F) :=
  if aggId = 0 then
    match inp.2.1 with
    | some ps => .ok (inp.1, ps, inp.2.2.1, inp.2.2.2)
    | none => .error .missingShardInput
  else
    match inp.2.2.1 with
    | some seed => .ok (inp.1, helperProofShare P ctx seed, some seed, inp.2.2.2)
    | none => .error .missingShardInput

/-- The truncated-output-share loop of `Mastic.prep_init`:
`[val_share[0]] + FLP.truncate(val_share[1:])` per prefix, concatenated
(`val_share[0]` raises on an empty share). -/
def truncOutShare {F C : Type} (P : MasticParams F C) :
    List (List F) → Except MErr (List F)
  | [] => .ok []
  | v :: rest =>
    match v with
    | [] => .error .outShareEmpty
    | h :: t => do
      let r ← truncOutShare P rest
      .ok ((h :: P.flpTruncate t) ++ r)

/-- `Mastic.prep_init(verify_key, ctx, agg_id, agg_param, nonce, public_share,
input_share)`.  Because the Python code writes
`joint_rand_parts[agg_id] = joint_rand_part` into the list object shared with
the caller's `public_share`, the embedding additionally returns the value of
`public_share` as of the end of the call. -/
def prepInit {F C : Type} [CommRing F] (P : MasticParams F C) (verifyKey ctx : Bytes)
    (aggId : Nat) (ap : AggParam) (nonce : Bytes)
    (pub : List C × Option (List Bytes))
    (inp : Bytes × Option (List F) × Option Bytes × List F) :
    Except MErr (((List F × Option Bytes) × PrepShare F) × (List C × Option (List Bytes))) := do
  let x ← expandInputShare P ctx aggId inp
  let key := x.1
  let proofShare := x.2.1
  let seed := x.2.2.1
  let betaShare := x.2.2.2
  let cws := pub.1
  let jrParts := pub.2
  let ev ← P.vidpfEvalM aggId cws key ap.level ap.prefixes ctx nonce
  let outShare := ev.2.1
  let evalProof := ev.2.2
  let q : Option Bytes × Option Bytes × Option (List F) × Option (List Bytes) ←
    if ap.doWeightCheck then
      let queryRand := queryRandF P verifyKey ctx nonce ap.level
      if 0 < P.JOINT_RAND_LEN then
        match seed, jrParts with
        | some sd, some parts =>
          let part := jointRandPart P ctx aggId sd key cws nonce
          let parts2 := parts.set aggId part
          let jrs := jointRandSeed P ctx parts2
          let jr := jointRandVec P ctx (jointRandSeed P ctx parts2)
          .ok (some part, some jrs, some (P.flpQuery betaShare proofShare queryRand jr 2),
            some parts2)
        | _, _ => .error .missingShardInput
      else
        .ok (none, none, some (P.flpQuery betaShare proofShare queryRand [] 2), jrParts)
    else
      .ok (none, none, none, jrParts)
  let tos ← truncOutShare P outShare
  .ok (((tos, q.2.1), ⟨evalProof, q.2.2.1, q.1⟩), (cws, q.2.2.2))

/-! ## Mastic: aggregation -/

/-- `Mastic.agg_init(agg_param)`. -/
def aggInit {F C : Type} [CommRing F] (P : MasticParams F C) (ap : AggParam) : List F :=
  List.replicate (ap.prefixes.length * (1 + P.OUTPUT_LEN)) 0

/-- `Mastic.agg_update(agg_param, agg_share, out_share)`. -/
def aggUpdate {F C : Type} [CommRing F] (P : MasticParams F C) (ap : AggParam)
    (aggShare outShare : List F) : List F :=
  vecAdd aggShare outShare

/-- `Mastic.merge(agg_param, agg_shares)`. -/
def masticMerge {F C : Type} [CommRing F] (P : MasticParams F C) (ap : AggParam)
    (aggShares : List (List F)) : List F :=
  aggShares.foldl (fun agg s => vecAdd agg s) (aggInit P ap)

/-! ## Mastic: aggregation-parameter encoding -/

/-- `common.to_be_bytes(n, k)`: `k` big-endian bytes of `n`. -/
def toBeBytes (n : Nat) : Nat → Bytes
  | 0 => []
  | k + 1 => toBeBytes (n / 256) k ++ [n % 256]

/-- `itertools.batched(prefix, 8)`: split a bit-tuple into chunks of eight. -/
def batched : List Bool → List (List Bool)
  | [] => []
  | b :: t => (b :: t.take 7) :: batched (t.drop 7)
termination_by l => l.length
decreasing_by simp [List.length_drop]; omega

/-- The inner byte-packing loop of `Mastic.encode_agg_param`:
`byte_out |= bit << (7 - bit_position)` over an enumerated chunk. -/
def packByte (chunk : List Bool) : Nat :=
  chunk.enum.foldl (fun acc p => acc ||| ((if p.2 then 1 else 0) <<< (7 - p.1))) 0

/-- Error kinds of `Mastic.encode_agg_param` (`ValueError`s and the length
`assert`). -/
inductive EErr where
  | levelRange
  | countRange
  | lenAssert
  deriving DecidableEq

/-- `Mastic.encode_agg_param(agg_param)`. -/
def encodeAggParam (p : AggParam) : Except EErr Bytes :=
  if 2 ^ 16 ≤ p.level then .error .levelRange
  else if 2 ^ 32 ≤ p.prefixes.length then .error .countRange
  else
    let encodedPrefixes := (p.prefixes.map (fun pre => (batched pre).map packByte)).flatten
    if encodedPrefixes.length ≠ (p.level + 1 + 7) / 8 * p.prefixes.length then
      .error .lenAssert
    else .ok (toBeBytes p.level 2 ++ toBeBytes p.prefixes.length 4 ++
      toBeBytes (if p.doWeightCheck then 1 else 0) 1 ++ encodedPrefixes)

/-! ## Concrete instances used to exercise the definitions -/

/-- A small concrete Mastic parameter set (joint randomness active). -/
def MC : MasticParams (ZMod 5) Nat where
  seedSize := 1
  vidpfRandSize := 1
  MEAS_LEN := 1
  JOINT_RAND_LEN := 1
  OUTPUT_LEN := 1
  PROOF_LEN := 1
  QUERY_RAND_LEN := 1
  flpDecide := fun v => v == []
  flpTruncate := fun v => v
  flpQuery := fun _ _ _ _ _ => []
  deriveSeed := fun _ _ _ => [7]
  expandVec := fun _ _ _ n => List.replicate n 0
  dstF := fun c u => c ++ [u]
  encodePublicShare := fun _ => []
  vidpfEvalM := fun _ _ _ _ _ _ _ => .ok ([], [], [])

/-- A small concrete Mastic parameter set (no joint randomness). -/
def MC0 : MasticParams (ZMod 5) Nat where
  seedSize := 1
  vidpfRandSize := 1
  MEAS_LEN := 1
  JOINT_RAND_LEN := 0
  OUTPUT_LEN := 1
  PROOF_LEN := 1
  QUERY_RAND_LEN := 1
  flpDecide := fun v => v == []
  flpTruncate := fun v => v
  flpQuery := fun _ _ _ _ _ => []
  deriveSeed := fun _ _ _ => [7]
  expandVec := fun _ _ _ n => List.replicate n 0
  dstF := fun c u => c ++ [u]
  encodePublicShare := fun _ => []
  vidpfEvalM := fun _ _ _ _ _ _ _ => .ok ([], [], [])

/-- A Mastic parameter set with the realistic XOF seed size (32) and an FLP
measurement length of 33, as for a histogram-shaped FLP. -/
def MH : MasticParams (ZMod 5) Nat where
  seedSize := 32
  vidpfRandSize := 32
  MEAS_LEN := 33
  JOINT_RAND_LEN := 0
  OUTPUT_LEN := 1
  PROOF_LEN := 1
  QUERY_RAND_LEN := 1
  flpDecide := fun v => v == []
  flpTruncate := fun v => v
  flpQuery := fun _ _ _ _ _ => []
  deriveSeed := fun _ _ _ => [7]
  expandVec := fun _ _ _ n => List.replicate n 0
  dstF := fun c u => c ++ [u]
  encodePublicShare := fun _ => []
  vidpfEvalM := fun _ _ _ _ _ _ _ => .ok ([], [], [])

/-- Big-endian byte decoding, the inverse of `toBeBytes` (verification
helper, not part of the source). -/
def fromBe (bs : Bytes) : Nat := bs.foldl (fun a b => a * 256 + b) 0

/-- Value of a packed bit chunk, bit `i` carrying weight `2 ^ (p - i)`
(verification helper, not part of the source). -/
def packVal : List Bool → Nat → Nat
  | [], _ => 0
  | b :: t, p => (if b then 2 ^ p else 0) + packVal t (p - 1)

/-- The pure value `(seed, ctrl, y)` of the prefix-tree node `n` at depth
`cl`, computed from the key share alone (verification helper: the memo of
`Vidpf.eval` caches exactly these values). -/
def nodeValC {F : Type} [CommRing F] (P : VidpfParams F) (binder : Bytes)
    (cws : List (CW F)) (initSeed : Bytes) (initCtrl : Bool) :
    Nat → Nat → Bytes × Bool × List F
  | 0, n => evalNextCore P initSeed initCtrl (cws[0]?.getD default) 0 n binder
  | cl + 1, n =>
    evalNextCore P (nodeValC P binder cws initSeed initCtrl cl (n >>> 1)).1
      (nodeValC P binder cws initSeed initCtrl cl (n >>> 1)).2.1
      (cws[cl + 1]?.getD default) (cl + 1) n binder

/-- The running `(seed, ctrl)` of `Vidpf.eval` at the start of step `cl`
while walking prefix `pfx` at depth `level` (verification helper). -/
def runState {F : Type} [CommRing F] (P : VidpfParams F) (binder : Bytes)
    (cws : List (CW F)) (initSeed : Bytes) (initCtrl : Bool) (level pfx : Nat) :
    Nat → Bytes × Bool
  | 0 => (initSeed, initCtrl)
  | cl + 1 =>
    ((nodeValC P binder cws initSeed initCtrl cl (pfx >>> (level - cl))).1,
      (nodeValC P binder cws initSeed initCtrl cl (pfx >>> (level - cl))).2.1)

/-- Invariant: every memo entry agrees with the pure node value
(verification helper). -/
def memoPure {F : Type} [CommRing F] (P : VidpfParams F) (binder : Bytes)
    (cws : List (CW F)) (initSeed : Bytes) (initCtrl : Bool) (m : Memo F) : Prop :=
  ∀ n cl e, m (n, cl) = some e →
    (e.1, e.2.1, e.2.2.1) = nodeValC P binder cws initSeed initCtrl cl n

/-- Memo extension: every stored entry is preserved (verification helper). -/
def memoLe {F : Type} (m m2 : Memo F) : Prop := ∀ k e, m k = some e → m2 k = some e

/-- A small concrete VIDPF parameter set over `ZMod 5`, used to exercise
the definitions. -/
def VP : VidpfParams (ZMod 5) where
  BITS := 2
  VALUE_LEN := 1
  seedSize := 1
  hashLen := 1
  extendF := fun s b =>
    (([(s.headD 0 * 3 + b.headD 0 + 1) % 11], [(s.headD 0 * 7 + 2) % 11]),
      (s.headD 0 % 2 == 1, s.headD 0 % 3 == 1))
  convertF := fun s i b => ([(s.headD 0 * 5 + i + b.headD 0 + 2) % 11],
    [((s.headD 0 * 13 + i : Nat) : ZMod 5)])
  hashF := fun x => [(x.sum * 2 + x.length + 17) % 11]
  encodeVec := fun v => v.map (fun z => z.val)
  extend_len_l := fun s b => rfl
  extend_len_r := fun s b => rfl
  convert_seed_len := fun s i b => rfl
  convert_vec_len := fun s i b => rfl
  hash_len := fun x => rfl

/-- The full correction-word list returned by `Vidpf.gen` (verification
helper naming the second component of `vidpfGen`). -/
def genCWs {F : Type} [CommRing F] (P : VidpfParams F) (alpha : Nat) (beta : List F)
    (binder rand : Bytes) : List (CW F) :=
  (List.range P.BITS).map (genCW P alpha beta binder rand)

/-- The full `cs_proofs` list returned by `Vidpf.gen`. -/
def genCsps {F : Type} [CommRing F] (P : VidpfParams F) (alpha : Nat) (beta : List F)
    (binder rand : Bytes) : List Bytes :=
  (List.range P.BITS).map (genCsp P alpha beta binder rand)

/-- The `(seed, ctrl)` pair of the parent of node `k` at depth `cl` (the
initial state for `cl = 0`); `Vidpf.eval` feeds exactly this state into
`eval_next` when it memoizes `k` (verification helper). -/
def evalParentV {F : Type} [CommRing F] (P : VidpfParams F) (binder : Bytes)
    (cws : List (CW F)) (initSeed : Bytes) (initCtrl : Bool) :
    Nat → Nat → Bytes × Bool
  | 0, _ => (initSeed, initCtrl)
  | cl + 1, k =>
    ((nodeValC P binder cws initSeed initCtrl cl (k >>> 1)).1,
      (nodeValC P binder cws initSeed initCtrl cl (k >>> 1)).2.1)

/-- Pairing invariant between the two aggregators' memo dictionaries: the
same keys are present, and stored `pi_proof` components agree
(verification helper). -/
def pairMemo {F : Type} (m0 m1 : Memo F) : Prop :=
  (∀ k, (m0 k).isSome = (m1 k).isSome) ∧
  (∀ k e0 e1, m0 k = some e0 → m1 k = some e1 → e0.2.2.2 = e1.2.2.2)

/-! ## THEOREMS -/

@[simp] theorem xorB_length (a b : Bytes) :
    (xorB a b).length = min a.length b.length := by
  simp [xorB]

theorem xorB_map_zero (a k : Bytes) (h : a.length ≤ k.length) :
    xorB a (k.map (fun _ => 0)) = a := by
  induction a generalizing k with
  | nil => simp [xorB]
  | cons x xs ih =>
    cases k with
    | nil => simp at h
    | cons y ys =>
      simp only [List.map_cons, xorB, List.zipWith_cons_cons, Nat.xor_zero]
      exact congrArg (x :: ·) (ih ys (by simpa using h))

theorem xorB_condSelect_false (a k : Bytes) (h : a.length ≤ k.length) :
    xorB a (condSelect false k) = a := by
  simpa [condSelect] using xorB_map_zero a k h

@[simp] theorem condSelect_true (k : Bytes) : condSelect true k = k := rfl

/-- Cancellation: `b ⊕ (a ⊕ b) = a` for byte strings of equal length. -/
theorem xorB_xorB_cancel_right (a b : Bytes) (h : a.length = b.length) :
    xorB b (xorB a b) = a := by
  induction a generalizing b with
  | nil => cases b <;> simp_all [xorB]
  | cons x xs ih =>
    cases b with
    | nil => simp at h
    | cons y ys =>
      simp only [xorB, List.zipWith_cons_cons]
      refine congrArg₂ (· :: ·) ?_ (ih ys (by simpa using h))
      rw [Nat.xor_comm x y, ← Nat.xor_assoc, Nat.xor_self, Nat.zero_xor]

/-- Cancellation: `a ⊕ (a ⊕ b) = b` for byte strings of equal length. -/
theorem xorB_xorB_cancel_left (a b : Bytes) (h : a.length = b.length) :
    xorB a (xorB a b) = b := by
  induction a generalizing b with
  | nil => cases b <;> simp_all [xorB]
  | cons x xs ih =>
    cases b with
    | nil => simp at h
    | cons y ys =>
      simp only [xorB, List.zipWith_cons_cons]
      refine congrArg₂ (· :: ·) ?_ (ih ys (by simpa using h))
      rw [← Nat.xor_assoc, Nat.xor_self, Nat.zero_xor]

@[simp] theorem vecAdd_length {F : Type} [Add F] (a b : List F) :
    (vecAdd a b).length = min a.length b.length := by simp [vecAdd]

@[simp] theorem vecSub_length {F : Type} [Sub F] (a b : List F) :
    (vecSub a b).length = min a.length b.length := by simp [vecSub]

@[simp] theorem vecNeg_length {F : Type} [Neg F] (a : List F) :
    (vecNeg a).length = a.length := by simp [vecNeg]

theorem vecAdd_comm {F : Type} [AddCommMonoid F] (a b : List F) :
    vecAdd a b = vecAdd b a := by
  induction a generalizing b with
  | nil => cases b <;> simp [vecAdd]
  | cons x xs ih =>
    cases b with
    | nil => simp [vecAdd]
    | cons y ys => simp only [vecAdd, List.zipWith_cons_cons] at *
                   rw [add_comm]; exact congrArg _ (ih ys)

theorem vecAdd_assoc {F : Type} [AddCommMonoid F] (a b c : List F) :
    vecAdd (vecAdd a b) c = vecAdd a (vecAdd b c) := by
  induction a generalizing b c with
  | nil => simp [vecAdd]
  | cons x xs ih =>
    cases b with
    | nil => simp [vecAdd]
    | cons y ys =>
      cases c with
      | nil => simp [vecAdd]
      | cons z zs => simp only [vecAdd, List.zipWith_cons_cons] at *
                     rw [add_assoc]; exact congrArg _ (ih ys zs)

/-- C3 (divergence witness): `Mastic.__init__` declares
`RAND_SIZE = vidpf.RAND_SIZE + 2 * SEED_SIZE + MEAS_LEN`, but
`shard_without_joint_rand` consumes `vidpf.RAND_SIZE + 3 * SEED_SIZE` bytes.
With `SEED_SIZE = 32`, `vidpf.RAND_SIZE = 32` and `MEAS_LEN = 33`:
`RAND_SIZE = 129`, yet feeding `shard` exactly `RAND_SIZE` random bytes leaves
one byte unconsumed, so the code's own `assert len(rand) == 0` fails; the
split consumes exactly the whole of `rand` only at length `128 ≠ RAND_SIZE`. -/
theorem mastic_shard_rand_size_bug :
    masticRandSize MH = 129 ∧
    (shardSplitNoJR MH (List.replicate (masticRandSize MH) 0)).2 = [0] ∧
    shardRandExact MH (List.replicate (masticRandSize MH) 0) = false ∧
    shardRandExact MH (List.replicate 128 0) = true := by
  decide

/-- C4 (counterexample): with `prev = [(level 0, no weight check)]` and
`p = (level 1, weight check)`, the weight check occurs exactly once across
`prev ++ [p]` and the level strictly increases, yet `is_valid` returns
`false` (it demands the weight check on the very first parameter). -/
theorem mastic_isValid_counterexample :
    ¬ (isValid ⟨1, [], true⟩ [⟨0, [], false⟩] = true ↔
      (List.countP (fun q : AggParam => q.doWeightCheck)
          (([⟨0, [], false⟩] : List AggParam) ++ [⟨1, [], true⟩]) = 1 ∧
        ∀ q ∈ [(⟨0, [], false⟩ : AggParam)], q.level < 1)) := by
  decide

/-- C4 (amended): `Mastic.is_valid(p, prev)` returns true iff (a) either
`p.do_weight_check` holds and `prev` is empty, or `p.do_weight_check` fails
and some earlier parameter set it; and (b) `prev` is empty or `p.level` is
strictly greater than the level of the *last* previous parameter. -/
theorem mastic_isValid_characterization (p : AggParam) (prev : List AggParam) :
    isValid p prev = true ↔
      ((p.doWeightCheck = true ∧ prev = []) ∨
        (p.doWeightCheck = false ∧ ∃ q ∈ prev, q.doWeightCheck = true)) ∧
      (prev = [] ∨ ((prev.getLast?).getD p).level < p.level) := by
  unfold isValid
  simp only [Bool.and_eq_true, Bool.or_eq_true, beq_iff_eq, List.length_eq_zero,
    Bool.not_eq_true', List.any_eq_true, decide_eq_true_eq, Bool.not_eq_true]

/-- C9: `agg_update` is commutative and associative, `merge` is invariant
under permutation of the aggregate shares, and both only perform
componentwise addition starting from the `agg_init` zero vector. -/
theorem mastic_agg_comm_assoc {F C : Type} [CommRing F] (P : MasticParams F C)
    (ap : AggParam) :
    (∀ a b : List F, aggUpdate P ap a b = aggUpdate P ap b a) ∧
    (∀ a b c : List F,
      aggUpdate P ap (aggUpdate P ap a b) c = aggUpdate P ap a (aggUpdate P ap b c)) ∧
    (∀ sh1 sh2 : List (List F), sh1.Perm sh2 →
      masticMerge P ap sh1 = masticMerge P ap sh2) ∧
    (∀ a b : List F, aggUpdate P ap a b = List.zipWith (· + ·) a b) ∧
    (aggInit P ap = List.replicate (ap.prefixes.length * (1 + P.OUTPUT_LEN)) (0 : F)) ∧
    (∀ shares : List (List F),
      masticMerge P ap shares = shares.foldl (aggUpdate P ap) (aggInit P ap)) := by
  refine ⟨fun a b => vecAdd_comm a b,
    fun a b c => vecAdd_assoc a b c, ?_, fun a b => rfl, rfl, fun shares => rfl⟩
  intro sh1 sh2 hperm
  exact hperm.foldl_eq' (fun x _ y _ z => by
    show vecAdd (vecAdd z x) y = vecAdd (vecAdd z y) x
    rw [vecAdd_assoc, vecAdd_assoc, vecAdd_comm x y]) _

/-- C9 (witness): permutation invariance of `merge` at a concrete input. -/
theorem mastic_agg_comm_assoc_witness :
    ([[(1 : ZMod 5)], [2]] : List (List (ZMod 5))).Perm [[2], [1]] ∧
    masticMerge MC ⟨0, [], false⟩ [[(1 : ZMod 5)], [2]] =
      masticMerge MC ⟨0, [], false⟩ [[2], [1]] :=
  ⟨by decide, (mastic_agg_comm_assoc MC ⟨0, [], false⟩).2.2.1 _ _ (by decide)⟩

/-- C5: `Mastic.prep_shares_to_prep` fails unless given exactly two prep
shares; fails when the two `eval_proof` byte strings differ; returns `None`
without examining the verifier shares or joint-rand parts when
`do_weight_check` is false; otherwise fails when a verifier share is absent,
fails when `FLP.decide` of the verifier sum is false, returns `None` when
`JOINT_RAND_LEN = 0`, fails when a joint-rand part is absent, and otherwise
returns the joint-rand seed derived over the two concatenated parts. -/
theorem mastic_prep_shares_to_prep_spec {F C : Type} [CommRing F]
    (P : MasticParams F C) (ctx : Bytes) (ap : AggParam) :
    (∀ shares : List (PrepShare F), shares.length ≠ 2 →
      prepSharesToPrep P ctx ap shares = .error .cardinality) ∧
    (∀ s0 s1 : PrepShare F, s0.evalProof ≠ s1.evalProof →
      prepSharesToPrep P ctx ap [s0, s1] = .error .vidpfMismatch) ∧
    (∀ s0 s1 : PrepShare F, s0.evalProof = s1.evalProof →
      ap.doWeightCheck = false → prepSharesToPrep P ctx ap [s0, s1] = .ok none) ∧
    (∀ s0 s1 : PrepShare F, s0.evalProof = s1.evalProof → ap.doWeightCheck = true →
      s0.verifier = none ∨ s1.verifier = none →
      prepSharesToPrep P ctx ap [s0, s1] = .error .missingVerifier) ∧
    (∀ s0 s1 : PrepShare F, ∀ v0 v1 : List F, s0.evalProof = s1.evalProof →
      ap.doWeightCheck = true → s0.verifier = some v0 → s1.verifier = some v1 →
      P.flpDecide (vecAdd v0 v1) = false →
      prepSharesToPrep P ctx ap [s0, s1] = .error .flpReject) ∧
    (∀ s0 s1 : PrepShare F, ∀ v0 v1 : List F, s0.evalProof = s1.evalProof →
      ap.doWeightCheck = true → s0.verifier = some v0 → s1.verifier = some v1 →
      P.flpDecide (vecAdd v0 v1) = true → P.JOINT_RAND_LEN = 0 →
      prepSharesToPrep P ctx ap [s0, s1] = .ok none) ∧
    (∀ s0 s1 : PrepShare F, ∀ v0 v1 : List F, s0.evalProof = s1.evalProof →
      ap.doWeightCheck = true → s0.verifier = some v0 → s1.verifier = some v1 →
      P.flpDecide (vecAdd v0 v1) = true → P.JOINT_RAND_LEN ≠ 0 →
      s0.jrPart = none ∨ s1.jrPart = none →
      prepSharesToPrep P ctx ap [s0, s1] = .error .missingJointRandPart) ∧
    (∀ s0 s1 : PrepShare F, ∀ v0 v1 : List F, ∀ p0 p1 : Bytes,
      s0.evalProof = s1.evalProof → ap.doWeightCheck = true →
      s0.verifier = some v0 → s1.verifier = some v1 →
      P.flpDecide (vecAdd v0 v1) = true → P.JOINT_RAND_LEN ≠ 0 →
      s0.jrPart = some p0 → s1.jrPart = some p1 →
      prepSharesToPrep P ctx ap [s0, s1] =
        .ok (some (P.deriveSeed (List.replicate P.seedSize 0)
          (P.dstF ctx USAGE_JOINT_RAND_SEED) ([p0, p1] : List Bytes).flatten))) := by
  refine ⟨?_, ?_, ?_, ?_, ?_, ?_, ?_, ?_⟩
  · intro shares h
    match shares with
    | [] => rfl
    | [_] => rfl
    | [_, _] => exact absurd rfl h
    | _ :: _ :: _ :: _ => rfl
  · intro s0 s1 h
    simp [prepSharesToPrep, h]
  · intro s0 s1 h1 h2
    simp [prepSharesToPrep, h1, h2]
  · intro s0 s1 h1 h2 hv
    rcases hv with hv | hv <;>
      rcases hs0 : s0.verifier with _ | v0 <;> rcases hs1 : s1.verifier with _ | v1 <;>
      simp_all [prepSharesToPrep]
  · intro s0 s1 v0 v1 h1 h2 hv0 hv1 hd
    simp [prepSharesToPrep, h1, h2, hv0, hv1, hd]
  · intro s0 s1 v0 v1 h1 h2 hv0 hv1 hd hj
    simp [prepSharesToPrep, h1, h2, hv0, hv1, hd, hj]
  · intro s0 s1 v0 v1 h1 h2 hv0 hv1 hd hj hp
    rcases hp with hp | hp <;>
      rcases hp0 : s0.jrPart with _ | p0 <;> rcases hp1 : s1.jrPart with _ | p1 <;>
      simp_all [prepSharesToPrep]
  · intro s0 s1 v0 v1 p0 p1 h1 h2 hv0 hv1 hd hj hp0 hp1
    simp [prepSharesToPrep, jointRandSeed, h1, h2, hv0, hv1, hd, hj, hp0, hp1]

/-- C5 (witness): the cardinality error, the no-weight-check short circuit
and the joint-rand-seed success case of `prep_shares_to_prep`, each at a
concrete input. -/
theorem mastic_prep_shares_to_prep_witness :
    (([] : List (PrepShare (ZMod 5))).length ≠ 2 ∧
      prepSharesToPrep MC [] ⟨0, [], true⟩ [] = .error .cardinality) ∧
    (prepSharesToPrep MC [] ⟨0, [], false⟩
      [⟨[1], none, none⟩, ⟨[1], none, none⟩] = .ok none) ∧
    (prepSharesToPrep MC [] ⟨0, [], true⟩
      [⟨[1], some [], some [2]⟩, ⟨[1], some [], some [3]⟩] =
        .ok (some (MC.deriveSeed (List.replicate MC.seedSize 0)
          (MC.dstF [] USAGE_JOINT_RAND_SEED) ([[2], [3]] : List Bytes).flatten))) :=
  ⟨⟨by decide, (mastic_prep_shares_to_prep_spec MC [] ⟨0, [], true⟩).1 [] (by decide)⟩,
    (mastic_prep_shares_to_prep_spec MC [] ⟨0, [], false⟩).2.2.1 _ _ rfl rfl,
    (mastic_prep_shares_to_prep_spec MC [] ⟨0, [], true⟩).2.2.2.2.2.2.2 _ _ [] []
      [2] [3] rfl rfl rfl rfl (by decide) (by decide) rfl rfl⟩

/-- Reduction of an `Except` bind on a success value. -/
theorem exceptBind_ok {ε α β : Type} (a : α) (f : α → Except ε β) :
    (Except.ok a >>= f : Except ε β) = f a := rfl

/-- Reduction of an `Except` bind on an error value. -/
theorem exceptBind_error {ε α β : Type} (e : ε) (f : α → Except ε β) :
    (Except.error e >>= f : Except ε β) = Except.error e := rfl

/-- C6 (counterexample): `Mastic.prep_init` writes
`joint_rand_parts[agg_id] = joint_rand_part` into the very list object held
by the caller's `public_share`.  At a concrete input with stored parts
`[[9], [9]]` and a recomputed part `[7]`, the public share after the call
holds `[[7], [9]] ≠ [[9], [9]]`. -/
theorem mastic_prep_init_mutates_public_share :
    prepInit MC [] [] 0 ⟨0, [], true⟩ []
        (([] : List Nat), some [[9], [9]])
        (([] : Bytes), some ([] : List (ZMod 5)), some ([] : Bytes), ([] : List (ZMod 5)))
      = .ok ((([], some [7]), ⟨[], some [], some [7]⟩), ([], some [[7], [9]])) ∧
    (some [[7], [9]] : Option (List Bytes)) ≠ some [[9], [9]] := by
  constructor
  · rfl
  · decide

/-- C6 (amended): when `prep_init` returns, the caller's public share still
holds the same correction words; it is entirely unchanged when
`do_weight_check` is false or `JOINT_RAND_LEN = 0`, and otherwise its
`joint_rand_parts` list has entry `agg_id` overwritten with this
Aggregator's recomputed joint-rand part. -/
theorem mastic_prep_init_public_share_update {F C : Type} [CommRing F]
    (P : MasticParams F C) (vk ctx : Bytes) (aggId : Nat) (ap : AggParam)
    (nonce : Bytes) (pub : List C × Option (List Bytes))
    (inp : Bytes × Option (List F) × Option Bytes × List F)
    (r : (List F × Option Bytes) × PrepShare F) (pub2 : List C × Option (List Bytes))
    (h : prepInit P vk ctx aggId ap nonce pub inp = .ok (r, pub2)) :
    pub2.1 = pub.1 ∧
    ((ap.doWeightCheck = false ∨ P.JOINT_RAND_LEN = 0) → pub2 = pub) ∧
    (ap.doWeightCheck = true → 0 < P.JOINT_RAND_LEN →
      ∃ x, expandInputShare P ctx aggId inp = .ok x ∧
        ∃ sd, x.2.2.1 = some sd ∧ ∃ parts, pub.2 = some parts ∧
          pub2.2 = some (parts.set aggId
            (jointRandPart P ctx aggId sd x.1 pub.1 nonce))) := by
  obtain ⟨cws, jrp⟩ := pub
  unfold prepInit at h
  cases hx : expandInputShare P ctx aggId inp with
  | error e =>
    rw [hx] at h
    simp only [exceptBind_error] at h
    exact Except.noConfusion h
  | ok x =>
    rw [hx] at h
    simp only [exceptBind_ok] at h
    cases hev : P.vidpfEvalM aggId cws x.1 ap.level ap.prefixes ctx nonce with
    | error e =>
      rw [hev] at h
      simp only [exceptBind_error] at h
      exact Except.noConfusion h
    | ok ev =>
      rw [hev] at h
      simp only [exceptBind_ok] at h
      by_cases hdw : ap.doWeightCheck = true
      · rw [if_pos hdw] at h
        by_cases hj : 0 < P.JOINT_RAND_LEN
        · rw [if_pos hj] at h
          cases hsd : x.2.2.1 with
          | none =>
            rw [hsd] at h
            cases hpt : jrp with
            | none =>
              rw [hpt] at h
              simp only [exceptBind_error] at h
              exact Except.noConfusion h
            | some parts =>
              rw [hpt] at h
              simp only [exceptBind_error] at h
              exact Except.noConfusion h
          | some sd =>
            rw [hsd] at h
            cases hpt : jrp with
            | none =>
              rw [hpt] at h
              simp only [exceptBind_error] at h
              exact Except.noConfusion h
            | some parts =>
              rw [hpt] at h
              simp only [exceptBind_ok] at h
              cases hts : truncOutShare P ev.2.1 with
              | error e =>
                rw [hts] at h
                simp only [exceptBind_error] at h
                exact Except.noConfusion h
              | ok tos =>
                rw [hts] at h
                simp only [exceptBind_ok, Except.ok.injEq, Prod.mk.injEq] at h
                obtain ⟨-, h2⟩ := h
                subst h2
                refine ⟨rfl, ?_, ?_⟩
                · rintro (hc | hc)
                  · rw [hc] at hdw; cases hdw
                  · omega
                · intro _ _
                  exact ⟨x, rfl, sd, hsd, parts, rfl, rfl⟩
        · rw [if_neg hj] at h
          cases hts : truncOutShare P ev.2.1 with
          | error e =>
            rw [hts] at h
            simp only [exceptBind_error] at h
            exact Except.noConfusion h
          | ok tos =>
            rw [hts] at h
            simp only [exceptBind_ok, Except.ok.injEq, Prod.mk.injEq] at h
            obtain ⟨-, h2⟩ := h
            subst h2
            exact ⟨rfl, fun _ => rfl, fun _ hc => absurd hc hj⟩
      · rw [if_neg hdw] at h
        cases hts : truncOutShare P ev.2.1 with
        | error e =>
          rw [hts] at h
          simp only [exceptBind_error] at h
          exact Except.noConfusion h
        | ok tos =>
          rw [hts] at h
          simp only [exceptBind_ok, Except.ok.injEq, Prod.mk.injEq] at h
          obtain ⟨-, h2⟩ := h
          subst h2
          exact ⟨rfl, fun _ => rfl, fun hc => absurd hc hdw⟩

/-- C6 (amended, witness): the public-share update law at a concrete input. -/
theorem mastic_prep_init_public_share_update_witness :
    prepInit MC [] [] 0 ⟨0, [], true⟩ []
        (([] : List Nat), some [[9], [9]])
        (([] : Bytes), some ([] : List (ZMod 5)), some ([] : Bytes), ([] : List (ZMod 5)))
      = .ok ((([], some [7]), ⟨[], some [], some [7]⟩), ([], some [[7], [9]])) ∧
    (([], some [[7], [9]]) : List Nat × Option (List Bytes)).1 =
      (([], some [[9], [9]]) : List Nat × Option (List Bytes)).1 := by
  have h : prepInit MC [] [] 0 ⟨0, [], true⟩ []
      (([] : List Nat), some [[9], [9]])
      (([] : Bytes), some ([] : List (ZMod 5)), some ([] : Bytes), ([] : List (ZMod 5)))
      = .ok ((([], some [7]), ⟨[], some [], some [7]⟩), ([], some [[7], [9]])) := by rfl
  exact ⟨h, (mastic_prep_init_public_share_update MC [] [] 0 ⟨0, [], true⟩ []
    _ _ _ _ h).1⟩

/-- Disjoint bitwise or is addition: if the low `k` bits of `x` are clear
and `y < 2 ^ k`, then `x ||| y = x + y`. -/
theorem or_eq_add_of_lt : ∀ (k x y : Nat), x % 2 ^ k = 0 → y < 2 ^ k → x ||| y = x + y
  | 0, x, y, _, hy => by
    have : y = 0 := by omega
    subst this
    simp
  | k + 1, x, y, hx, hy => by
    have hd : 2 ^ (k + 1) ∣ x := Nat.dvd_of_mod_eq_zero hx
    have hx2 : x % 2 = 0 := by
      have h2 : (2 : Nat) ∣ x := dvd_trans (dvd_pow_self 2 (Nat.succ_ne_zero k)) hd
      omega
    have hdiv : x / 2 % 2 ^ k = 0 := by
      obtain ⟨m, rfl⟩ := hd
      have : 2 ^ (k + 1) * m / 2 = 2 ^ k * m := by
        rw [pow_succ, mul_comm (2 ^ k) 2, mul_assoc]
        omega
      rw [this]
      exact Nat.mul_mod_right _ _
    have hydiv : y / 2 < 2 ^ k := by
      have hp : (2 : Nat) ^ (k + 1) = 2 * 2 ^ k := by rw [pow_succ]; ring
      omega
    have ih := or_eq_add_of_lt k (x / 2) (y / 2) hdiv hydiv
    have h1 : (x ||| y) / 2 = x / 2 ||| y / 2 := Nat.or_div_two
    have h2 : (x ||| y) % 2 = y % 2 := by
      rcases Nat.mod_two_eq_zero_or_one y with hy2 | hy2
      · rcases Nat.mod_two_eq_zero_or_one (x ||| y) with ho | ho
        · omega
        · rcases (Nat.or_mod_two_eq_one (a := x) (b := y)).mp ho with hc | hc <;> omega
      · have : (x ||| y) % 2 = 1 := Nat.or_mod_two_eq_one.mpr (Or.inr hy2)
        omega
    omega

theorem toBeBytes_length : ∀ (k n : Nat), (toBeBytes n k).length = k
  | 0, _ => rfl
  | k + 1, n => by simp [toBeBytes, toBeBytes_length k]

theorem fromBe_toBeBytes : ∀ (k n : Nat), n < 256 ^ k → fromBe (toBeBytes n k) = n
  | 0, n, h => by
    have : n = 0 := by simpa using h
    simp [this, fromBe, toBeBytes]
  | k + 1, n, h => by
    have hdivlt : n / 256 < 256 ^ k := by
      have hp : (256 : Nat) ^ (k + 1) = 256 ^ k * 256 := pow_succ 256 k
      omega
    have ih := fromBe_toBeBytes k (n / 256) hdivlt
    show fromBe (toBeBytes (n / 256) k ++ [n % 256]) = n
    unfold fromBe
    rw [List.foldl_append]
    show fromBe (toBeBytes (n / 256) k) * 256 + n % 256 = n
    rw [ih]
    omega

theorem packByte_nil : packByte [] = 0 := rfl

theorem packFold : ∀ (t : List Bool) (i acc : Nat), i + t.length ≤ 8 →
    acc % 2 ^ (8 - i) = 0 →
    (List.enumFrom i t).foldl
        (fun a p => a ||| ((if p.2 then 1 else 0) <<< (7 - p.1))) acc
      = acc + packVal t (7 - i)
  | [], i, acc, _, _ => by simp [List.enumFrom, packVal]
  | b :: t, i, acc, hlen, hacc => by
    have hi : i ≤ 7 := by simp at hlen; omega
    have hshift : ((if b then 1 else 0) <<< (7 - i)) = (if b then 2 ^ (7 - i) else 0) := by
      cases b <;> simp [Nat.shiftLeft_eq]
    have hlt : (if b then 2 ^ (7 - i) else 0) < 2 ^ (8 - i) := by
      have : (2 : Nat) ^ (7 - i) < 2 ^ (8 - i) :=
        Nat.pow_lt_pow_right (by norm_num) (by omega)
      cases b <;> simp <;> omega
    have hor : acc ||| ((if b then 1 else 0) <<< (7 - i))
        = acc + (if b then 2 ^ (7 - i) else 0) := by
      rw [hshift]
      exact or_eq_add_of_lt (8 - i) acc _ hacc hlt
    have hstep : (acc + (if b then 2 ^ (7 - i) else 0)) % 2 ^ (8 - (i + 1)) = 0 := by
      have h1 : (2 : Nat) ^ (7 - i) ∣ acc := by
        refine dvd_trans (pow_dvd_pow 2 (by omega : 7 - i ≤ 8 - i)) ?_
        exact Nat.dvd_of_mod_eq_zero hacc
      have h2 : (2 : Nat) ^ (7 - i) ∣ (if b then 2 ^ (7 - i) else 0) := by
        cases b <;> simp
      have h4 : 8 - (i + 1) = 7 - i := by omega
      rw [h4]
      exact Nat.mod_eq_zero_of_dvd (dvd_add h1 h2)
    have ihp := packFold t (i + 1) (acc + (if b then 2 ^ (7 - i) else 0))
      (by simp at hlen ⊢; omega) hstep
    show List.foldl _ acc (List.enumFrom i (b :: t)) = _
    rw [show List.enumFrom i (b :: t) = (i, b) :: List.enumFrom (i + 1) t from rfl]
    simp only [List.foldl_cons]
    rw [hor, ihp]
    have h5 : 7 - (i + 1) = 7 - i - 1 := by omega
    simp only [packVal, h5]
    omega

theorem packByte_eq_packVal (c : List Bool) (h : c.length ≤ 8) :
    packByte c = packVal c 7 := by
  have := packFold c 0 0 (by omega) (by simp)
  simpa [packByte, List.enum] using this

theorem packVal_lt : ∀ (t : List Bool) (p : Nat), t.length ≤ p + 1 →
    packVal t p < 2 ^ (p + 1)
  | [], p, _ => by simp [packVal]
  | b :: t, p, h => by
    have ht : t.length ≤ (p - 1) + 1 := by simp at h; omega
    have ih := packVal_lt t (p - 1) ht
    have hp : p - 1 + 1 ≤ p ∨ p = 0 := by omega
    have hle : packVal t (p - 1) < 2 ^ p := by
      rcases hp with hp | hp
      · exact lt_of_lt_of_le ih (Nat.pow_le_pow_right (by norm_num) hp)
      · subst hp
        cases t with
        | nil => simp [packVal]
        | cons c u => simp at h
    have h2 : (2 : Nat) ^ (p + 1) = 2 ^ p + 2 ^ p := by rw [pow_succ]; ring
    simp only [packVal]
    cases b <;> simp <;> omega

theorem packVal_inj : ∀ (t1 t2 : List Bool) (p : Nat), t1.length = t2.length →
    t1.length ≤ p + 1 → packVal t1 p = packVal t2 p → t1 = t2
  | [], [], _, _, _, _ => rfl
  | [], b2 :: t2, _, hl, _, _ => by simp at hl
  | b1 :: t1, [], _, hl, _, _ => by simp at hl
  | b1 :: t1, b2 :: t2, p, hl, hp, he => by
    have hl2 : t1.length = t2.length := by simpa using hl
    have ht1 : t1.length ≤ (p - 1) + 1 := by simp at hp; omega
    have ht2 : t2.length ≤ (p - 1) + 1 := by simp at hp; omega
    have hb1 : packVal t1 (p - 1) < 2 ^ p := by
      rcases Nat.eq_zero_or_pos p with hp0 | hp0
      · subst hp0
        cases t1 with
        | nil => simp [packVal]
        | cons c u => simp at hp
      · exact lt_of_lt_of_le (packVal_lt t1 (p - 1) ht1)
          (Nat.pow_le_pow_right (by norm_num) (by omega))
    have hb2 : packVal t2 (p - 1) < 2 ^ p := by
      rcases Nat.eq_zero_or_pos p with hp0 | hp0
      · subst hp0
        cases t2 with
        | nil => simp [packVal]
        | cons c u =>
          exfalso
          rw [List.length_cons] at hp
          have h1 : t1.length = 0 := by omega
          rw [h1, List.length_cons] at hl2
          omega
      · exact lt_of_lt_of_le (packVal_lt t2 (p - 1) ht2)
          (Nat.pow_le_pow_right (by norm_num) (by omega))
    simp only [packVal] at he
    have hbits : b1 = b2 ∧ packVal t1 (p - 1) = packVal t2 (p - 1) := by
      cases b1 <;> cases b2 <;> simp at he ⊢ <;> omega
    obtain ⟨hb, hv⟩ := hbits
    subst hb
    rw [packVal_inj t1 t2 (p - 1) hl2 ht1 hv]

theorem batched_length : ∀ (l : List Bool), (batched l).length = (l.length + 7) / 8
  | [] => by rw [batched]; rfl
  | b :: t => by
    rw [batched]
    simp only [List.length_cons, batched_length (t.drop 7), List.length_drop]
    omega
termination_by l => l.length
decreasing_by simp [List.length_drop]; omega

theorem packedBlocks_inj : ∀ (p1 p2 : List Bool), p1.length = p2.length →
    (batched p1).map packByte = (batched p2).map packByte → p1 = p2
  | [], [], _, _ => rfl
  | [], b2 :: t2, hl, _ => by simp at hl
  | b1 :: t1, [], hl, _ => by simp at hl
  | b1 :: t1, b2 :: t2, hl, he => by
    have hl2 : t1.length = t2.length := by simpa using hl
    rw [batched, batched] at he
    simp only [List.map_cons, List.cons.injEq] at he
    obtain ⟨hhead, htail⟩ := he
    have hclen : (b1 :: t1.take 7).length = (b2 :: t2.take 7).length := by
      simp [hl2]
    have hchunk : (b1 :: t1.take 7) = (b2 :: t2.take 7) := by
      have e1 : packVal (b1 :: t1.take 7) 7 = packVal (b2 :: t2.take 7) 7 := by
        rw [← packByte_eq_packVal _ (by simp <;> omega),
          ← packByte_eq_packVal _ (by simp <;> omega)]
        exact hhead
      exact packVal_inj _ _ 7 hclen (by simp <;> omega) e1
    have hdrop : t1.drop 7 = t2.drop 7 :=
      packedBlocks_inj (t1.drop 7) (t2.drop 7) (by simp [hl2]) htail
    injection hchunk with hb htake
    subst hb
    have ht : t1 = t2 := by
      rw [← List.take_append_drop 7 t1, ← List.take_append_drop 7 t2, htake, hdrop]
    rw [ht]
termination_by p1 _ _ _ => p1.length
decreasing_by simp [List.length_drop]; omega

theorem blocks_flatten_inj : ∀ (l1 l2 : List (List Nat)) (c : Nat),
    (∀ x ∈ l1, x.length = c) → (∀ x ∈ l2, x.length = c) →
    l1.length = l2.length → l1.flatten = l2.flatten → l1 = l2
  | [], [], _, _, _, _, _ => rfl
  | [], y :: l2, _, _, _, hl, _ => by simp at hl
  | x :: l1, [], _, _, _, hl, _ => by simp at hl
  | x :: l1, y :: l2, c, h1, h2, hl, hf => by
    simp only [List.flatten_cons] at hf
    have hxy : x.length = y.length := by
      rw [h1 x (by simp), h2 y (by simp)]
    obtain ⟨hx, hrest⟩ := List.append_inj hf hxy
    have ht : l1 = l2 := blocks_flatten_inj l1 l2 c
      (fun z hz => h1 z (by simp [hz])) (fun z hz => h2 z (by simp [hz]))
      (by simpa using hl) hrest
    rw [hx, ht]

theorem packed_map_inj : ∀ (l1 l2 : List (List Bool)) (L : Nat),
    (∀ x ∈ l1, x.length = L) → (∀ x ∈ l2, x.length = L) →
    l1.map (fun pre => (batched pre).map packByte)
      = l2.map (fun pre => (batched pre).map packByte) → l1 = l2
  | [], [], _, _, _, _ => rfl
  | [], y :: l2, _, _, _, hm => by simp at hm
  | x :: l1, [], _, _, _, hm => by simp at hm
  | x :: l1, y :: l2, L, h1, h2, hm => by
    simp only [List.map_cons, List.cons.injEq] at hm
    obtain ⟨hh, ht⟩ := hm
    have hx : x = y := packedBlocks_inj x y
      (by rw [h1 x (by simp), h2 y (by simp)]) hh
    have hl : l1 = l2 := packed_map_inj l1 l2 L
      (fun z hz => h1 z (by simp [hz])) (fun z hz => h2 z (by simp [hz])) ht
    rw [hx, hl]

theorem packed_flatten_length : ∀ (l : List (List Bool)) (L : Nat),
    (∀ x ∈ l, x.length = L) →
    ((l.map (fun pre => (batched pre).map packByte)).flatten).length
      = (L + 7) / 8 * l.length
  | [], _, _ => by simp
  | x :: l, L, h => by
    simp only [List.map_cons, List.flatten_cons, List.length_append,
      List.length_map, List.length_cons]
    rw [batched_length, h x (by simp),
      packed_flatten_length l L (fun z hz => h z (by simp [hz]))]
    ring

theorem encodeAggParam_ok (p : AggParam) (hp1 : p.level < 2 ^ 16)
    (hp2 : p.prefixes.length < 2 ^ 32)
    (hp3 : ∀ x ∈ p.prefixes, x.length = p.level + 1) :
    encodeAggParam p = .ok (toBeBytes p.level 2 ++ (toBeBytes p.prefixes.length 4 ++
      (toBeBytes (if p.doWeightCheck then 1 else 0) 1 ++
        (p.prefixes.map (fun pre => (batched pre).map packByte)).flatten))) := by
  unfold encodeAggParam
  rw [if_neg (by omega), if_neg (by omega), if_neg ?hlen]
  case hlen =>
    rw [packed_flatten_length p.prefixes (p.level + 1) hp3]
    simp
  simp [List.append_assoc]

/-- C7: `Mastic.encode_agg_param` is injective on its input domain
(`level < 2^16`, fewer than `2^32` prefixes, every prefix a bit-tuple of
length `level + 1`): two aggregation parameters with equal encodings are
equal.  The encoding is the 2-byte big-endian level, the 4-byte big-endian
prefix count, one `do_weight_check` byte, then each prefix packed MSB-first
into `⌈(level+1)/8⌉` bytes with zero padding. -/
theorem mastic_encodeAggParam_injective (p q : AggParam)
    (hp1 : p.level < 2 ^ 16) (hq1 : q.level < 2 ^ 16)
    (hp2 : p.prefixes.length < 2 ^ 32) (hq2 : q.prefixes.length < 2 ^ 32)
    (hp3 : ∀ x ∈ p.prefixes, x.length = p.level + 1)
    (hq3 : ∀ x ∈ q.prefixes, x.length = q.level + 1)
    (henc : encodeAggParam p = encodeAggParam q) : p = q := by
  rw [encodeAggParam_ok p hp1 hp2 hp3, encodeAggParam_ok q hq1 hq2 hq3] at henc
  have hb := Except.ok.inj henc
  obtain ⟨e1, hrest1⟩ := List.append_inj hb
    (by rw [toBeBytes_length, toBeBytes_length])
  have hlevel : p.level = q.level := by
    have hc := congrArg fromBe e1
    have h2 : (256 : Nat) ^ 2 = 2 ^ 16 := by norm_num
    rw [fromBe_toBeBytes 2 _ (by omega), fromBe_toBeBytes 2 _ (by omega)] at hc
    exact hc
  obtain ⟨e2, hrest2⟩ := List.append_inj hrest1
    (by rw [toBeBytes_length, toBeBytes_length])
  have hcount : p.prefixes.length = q.prefixes.length := by
    have hc := congrArg fromBe e2
    have h4 : (256 : Nat) ^ 4 = 2 ^ 32 := by norm_num
    rw [fromBe_toBeBytes 4 _ (by omega), fromBe_toBeBytes 4 _ (by omega)] at hc
    exact hc
  obtain ⟨e3, hrest3⟩ := List.append_inj hrest2
    (by rw [toBeBytes_length, toBeBytes_length])
  have hdw : p.doWeightCheck = q.doWeightCheck := by
    cases hdp : p.doWeightCheck <;> cases hdq : q.doWeightCheck <;>
      rw [hdp, hdq] at e3 <;> simp_all [toBeBytes]
  have hblocks : p.prefixes.map (fun pre => (batched pre).map packByte)
      = q.prefixes.map (fun pre => (batched pre).map packByte) := by
    refine blocks_flatten_inj _ _ ((p.level + 1 + 7) / 8) ?_ ?_ ?_ hrest3
    · intro x hx
      obtain ⟨pre, hpre, rfl⟩ := List.mem_map.mp hx
      rw [List.length_map, batched_length, hp3 pre hpre]
    · intro x hx
      obtain ⟨pre, hpre, rfl⟩ := List.mem_map.mp hx
      rw [List.length_map, batched_length, hq3 pre hpre, hlevel]
    · rw [List.length_map, List.length_map, hcount]
  have hprefixes : p.prefixes = q.prefixes := by
    refine packed_map_inj _ _ (p.level + 1) hp3 ?_ hblocks
    intro x hx
    rw [hq3 x hx, hlevel]
  cases p
  cases q
  simp_all

/-- C7 (witness): the injectivity theorem applied at a concrete in-domain
aggregation parameter. -/
theorem mastic_encodeAggParam_injective_witness :
    ((0 : Nat) < 2 ^ 16 ∧ (1 : Nat) < 2 ^ 32 ∧
      (∀ x ∈ [[true]], List.length x = 0 + 1) ∧
      encodeAggParam ⟨0, [[true]], false⟩ = encodeAggParam ⟨0, [[true]], false⟩) ∧
    (⟨0, [[true]], false⟩ : AggParam) = ⟨0, [[true]], false⟩ :=
  ⟨⟨by decide, by decide, by decide, rfl⟩,
    mastic_encodeAggParam_injective ⟨0, [[true]], false⟩ ⟨0, [[true]], false⟩
      (by decide) (by decide) (by decide) (by decide) (by decide) (by decide) rfl⟩

theorem shiftRight_one_div (n : Nat) : n >>> 1 = n / 2 := by
  rw [Nat.shiftRight_eq_div_pow]

theorem xor_one_div_two (n : Nat) : (n ^^^ 1) / 2 = n / 2 := by
  rw [Nat.xor_div_two]
  norm_num

theorem xor_one_mod_two (n : Nat) : (n ^^^ 1) % 2 = 1 - n % 2 := by
  rcases Nat.mod_two_eq_zero_or_one n with h | h
  · have h1 : (n ^^^ 1) % 2 = 1 := Nat.xor_mod_two_eq_one.mpr (by simp [h])
    omega
  · rcases Nat.mod_two_eq_zero_or_one (n ^^^ 1) with h2 | h2
    · omega
    · have h3 := Nat.xor_mod_two_eq_one.mp h2
      simp [h] at h3

theorem xor_one_char (n : Nat) : n ^^^ 1 = 2 * (n / 2) + (1 - n % 2) := by
  have h1 := xor_one_div_two n
  have h2 := xor_one_mod_two n
  omega

theorem xor_one_ne (n : Nat) : n ^^^ 1 ≠ n := by
  have h1 := xor_one_char n
  omega

theorem xor_one_shiftRight (n : Nat) : (n ^^^ 1) >>> 1 = n >>> 1 := by
  rw [shiftRight_one_div, shiftRight_one_div, xor_one_div_two]

theorem shiftRight_lt_pow (n a b : Nat) (h : n < 2 ^ a) (hb : b ≤ a) :
    n >>> b < 2 ^ (a - b) := by
  rw [Nat.shiftRight_eq_div_pow]
  refine (Nat.div_lt_iff_lt_mul (by positivity)).mpr ?_
  have hpow : (2 : Nat) ^ (a - b) * 2 ^ b = 2 ^ a := by
    rw [← pow_add]
    congr 1
    omega
  omega

theorem node_parent (level pfx cl : Nat) (h1 : cl + 1 ≤ level) :
    (pfx >>> (level - (cl + 1))) >>> 1 = pfx >>> (level - cl) := by
  rw [← Nat.shiftRight_add]
  congr 1
  omega

theorem children_eq (node x : Nat) (hx : x >>> 1 = node) :
    (node <<< 1 = x ∧ (node <<< 1) ||| 1 = x ^^^ 1) ∨
    (node <<< 1 = x ^^^ 1 ∧ (node <<< 1) ||| 1 = x) := by
  have hs : node <<< 1 = 2 * node := by rw [Nat.shiftLeft_eq]; ring
  have ho : (node <<< 1) ||| 1 = 2 * node + 1 := by
    rw [hs]
    exact or_eq_add_of_lt 1 (2 * node) 1 (by omega) (by omega)
  have hd : x / 2 = node := by rw [← shiftRight_one_div]; exact hx
  have hc := xor_one_char x
  rcases Nat.mod_two_eq_zero_or_one x with h | h
  · left
    constructor <;> omega
  · right
    constructor <;> omega

theorem evalStep_ok {F : Type} [CommRing F] (P : VidpfParams F) (binder : Bytes)
    (cws : List (CW F)) (csps : List Bytes) (initSeed : Bytes) (initCtrl : Bool)
    (level pfx cl : Nat) (m : Memo F) (seed : Bytes) (ctrl : Bool) (pi : Bytes)
    (hcl : cl ≤ level) (hcws : level < cws.length) (hcsps : level < csps.length)
    (hmp : memoPure P binder cws initSeed initCtrl m)
    (hrun : (seed, ctrl) = runState P binder cws initSeed initCtrl level pfx cl) :
    ∃ m2 pi2,
      evalStep P binder cws csps level pfx cl (m, seed, ctrl, pi)
        = .ok (m2, (runState P binder cws initSeed initCtrl level pfx (cl + 1)).1,
            (runState P binder cws initSeed initCtrl level pfx (cl + 1)).2, pi2) ∧
      memoPure P binder cws initSeed initCtrl m2 ∧
      (∀ k, k ≠ (pfx >>> (level - cl), cl) → k ≠ ((pfx >>> (level - cl)) ^^^ 1, cl) →
        m2 k = m k) ∧
      (m2 (pfx >>> (level - cl), cl) =
        if (m (pfx >>> (level - cl), cl)).isSome then m (pfx >>> (level - cl), cl)
        else some (evalNextFull P seed ctrl (cws[cl]?.getD default)
          (csps[cl]?.getD default) cl (pfx >>> (level - cl)) pi binder)) ∧
      (m2 ((pfx >>> (level - cl)) ^^^ 1, cl) =
        if (m ((pfx >>> (level - cl)) ^^^ 1, cl)).isSome then
          m ((pfx >>> (level - cl)) ^^^ 1, cl)
        else some (evalNextFull P seed ctrl (cws[cl]?.getD default)
          (csps[cl]?.getD default) cl ((pfx >>> (level - cl)) ^^^ 1) pi binder)) ∧
      (∃ e, m2 (pfx >>> (level - cl), cl) = some e ∧ pi2 = e.2.2.2) := by
  have hbc : cl < cws.length := by omega
  have hbs : cl < csps.length := by omega
  have hcwq : cws[cl]? = some cws[cl] := List.getElem?_eq_getElem hbc
  have hcspq : csps[cl]? = some csps[cl] := List.getElem?_eq_getElem hbs
  have hcwD : cws[cl]?.getD default = cws[cl] := by rw [hcwq]; rfl
  have hcspD : csps[cl]?.getD default = csps[cl] := by rw [hcspq]; rfl
  have hseed : seed = (runState P binder cws initSeed initCtrl level pfx cl).1 :=
    congrArg Prod.fst hrun
  have hctrl : ctrl = (runState P binder cws initSeed initCtrl level pfx cl).2 :=
    congrArg Prod.snd hrun
  have hnodeval : ∀ k, (k = pfx >>> (level - cl) ∨ k = (pfx >>> (level - cl)) ^^^ 1) →
      evalNextCore P seed ctrl (cws[cl]?.getD default) cl k binder
        = nodeValC P binder cws initSeed initCtrl cl k := by
    intro k hk
    cases cl with
    | zero =>
      rw [nodeValC, hseed, hctrl, runState]
    | succ cn =>
      have hpar : k >>> 1 = pfx >>> (level - cn) := by
        rcases hk with rfl | rfl
        · exact node_parent level pfx cn hcl
        · rw [xor_one_shiftRight]
          exact node_parent level pfx cn hcl
      rw [nodeValC, hpar, hseed, hctrl, runState]
  have hfull : ∀ k, (k = pfx >>> (level - cl) ∨ k = (pfx >>> (level - cl)) ^^^ 1) →
      ∀ q : Bytes,
      ((evalNextFull P seed ctrl (cws[cl]?.getD default) (csps[cl]?.getD default)
          cl k q binder).1,
        (evalNextFull P seed ctrl (cws[cl]?.getD default) (csps[cl]?.getD default)
          cl k q binder).2.1,
        (evalNextFull P seed ctrl (cws[cl]?.getD default) (csps[cl]?.getD default)
          cl k q binder).2.2.1)
        = nodeValC P binder cws initSeed initCtrl cl k := by
    intro k hk q
    rw [← hnodeval k hk]
    rfl
  have hkne : ((pfx >>> (level - cl)) ^^^ 1, cl) ≠ (pfx >>> (level - cl), cl) := by
    intro hcon
    exact xor_one_ne _ (congrArg Prod.fst hcon)
  rw [hcwD, hcspD]
  have touch_spec : ∀ (mm : Memo F) (k : Nat),
      (evalTouch P binder cws[cl] csps[cl] cl seed ctrl pi mm k) (k, cl)
        = (if (mm (k, cl)).isSome then mm (k, cl)
          else some (evalNextFull P seed ctrl cws[cl] csps[cl] cl k pi binder)) ∧
      (∀ q, q ≠ (k, cl) →
        (evalTouch P binder cws[cl] csps[cl] cl seed ctrl pi mm k) q = mm q) := by
    intro mm k
    constructor
    · by_cases h : (mm (k, cl)).isSome = true
      · simp [evalTouch, h]
      · simp [evalTouch, h, memoInsert]
    · intro q hq
      by_cases h : (mm (k, cl)).isSome = true
      · simp [evalTouch, h]
      · simp [evalTouch, h, memoInsert, if_neg hq]
  obtain ⟨ht1a, ht1b⟩ := touch_spec m (pfx >>> (level - cl))
  obtain ⟨ht2a, ht2b⟩ :=
    touch_spec (evalTouch P binder cws[cl] csps[cl] cl seed ctrl pi m
      (pfx >>> (level - cl))) ((pfx >>> (level - cl)) ^^^ 1)
  have hm2node : (evalTouch P binder cws[cl] csps[cl] cl seed ctrl pi
        (evalTouch P binder cws[cl] csps[cl] cl seed ctrl pi m (pfx >>> (level - cl)))
        ((pfx >>> (level - cl)) ^^^ 1)) (pfx >>> (level - cl), cl)
      = (if (m (pfx >>> (level - cl), cl)).isSome then m (pfx >>> (level - cl), cl)
        else some (evalNextFull P seed ctrl cws[cl] csps[cl] cl
          (pfx >>> (level - cl)) pi binder)) := by
    rw [ht2b (pfx >>> (level - cl), cl) hkne.symm, ht1a]
  have hm2sib : (evalTouch P binder cws[cl] csps[cl] cl seed ctrl pi
        (evalTouch P binder cws[cl] csps[cl] cl seed ctrl pi m (pfx >>> (level - cl)))
        ((pfx >>> (level - cl)) ^^^ 1)) ((pfx >>> (level - cl)) ^^^ 1, cl)
      = (if (m ((pfx >>> (level - cl)) ^^^ 1, cl)).isSome then
          m ((pfx >>> (level - cl)) ^^^ 1, cl)
        else some (evalNextFull P seed ctrl cws[cl] csps[cl] cl
          ((pfx >>> (level - cl)) ^^^ 1) pi binder)) := by
    rw [ht2a, ht1b ((pfx >>> (level - cl)) ^^^ 1, cl) hkne]
  have hm2other : ∀ k, k ≠ (pfx >>> (level - cl), cl) →
      k ≠ ((pfx >>> (level - cl)) ^^^ 1, cl) →
      (evalTouch P binder cws[cl] csps[cl] cl seed ctrl pi
        (evalTouch P binder cws[cl] csps[cl] cl seed ctrl pi m (pfx >>> (level - cl)))
        ((pfx >>> (level - cl)) ^^^ 1)) k = m k := by
    intro k hk1 hk2
    rw [ht2b k hk2, ht1b k hk1]
  have hread : ∃ e, (evalTouch P binder cws[cl] csps[cl] cl seed ctrl pi
        (evalTouch P binder cws[cl] csps[cl] cl seed ctrl pi m (pfx >>> (level - cl)))
        ((pfx >>> (level - cl)) ^^^ 1)) (pfx >>> (level - cl), cl) = some e ∧
      (e.1, e.2.1, e.2.2.1)
        = nodeValC P binder cws initSeed initCtrl cl (pfx >>> (level - cl)) := by
    rw [hm2node]
    by_cases h1 : (m (pfx >>> (level - cl), cl)).isSome = true
    · rw [if_pos h1]
      obtain ⟨e, he⟩ := Option.isSome_iff_exists.mp h1
      exact ⟨e, he, hmp _ _ _ he⟩
    · rw [if_neg h1]
      refine ⟨_, rfl, ?_⟩
      have := hfull (pfx >>> (level - cl)) (Or.inl rfl) pi
      rw [hcwD, hcspD] at this
      exact this
  obtain ⟨e0, he0, hecomp⟩ := hread
  have hx1 : e0.1 = (nodeValC P binder cws initSeed initCtrl cl
      (pfx >>> (level - cl))).1 := congrArg Prod.fst hecomp
  have hx2 : e0.2.1 = (nodeValC P binder cws initSeed initCtrl cl
      (pfx >>> (level - cl))).2.1 := congrArg (fun z => z.2.1) hecomp
  refine ⟨_, e0.2.2.2, ?_, ?_, hm2other, hm2node, hm2sib, ⟨e0, he0, rfl⟩⟩
  · unfold evalStep getIdx getMemo
    rw [hcwq, hcspq]
    simp only [exceptBind_ok]
    rw [he0]
    simp only [exceptBind_ok]
    rw [runState, ← hx1, ← hx2]
  · intro n cl2 e he
    by_cases hk1 : ((n : Nat), cl2) = (pfx >>> (level - cl), cl)
    · injection hk1 with hka hkb
      subst hka
      subst hkb
      rw [he0] at he
      injection he with hee
      subst hee
      exact hecomp
    · by_cases hk2 : ((n : Nat), cl2) = ((pfx >>> (level - cl)) ^^^ 1, cl)
      · injection hk2 with hka hkb
        subst hka
        rw [hkb] at he ⊢
        rw [hm2sib] at he
        by_cases h2 : (m ((pfx >>> (level - cl)) ^^^ 1, cl)).isSome = true
        · rw [if_pos h2] at he
          exact hmp _ _ _ he
        · rw [if_neg h2] at he
          injection he with hee
          subst hee
          have := hfull ((pfx >>> (level - cl)) ^^^ 1) (Or.inr rfl) pi
          rw [hcwD, hcspD] at this
          exact this
      · rw [hm2other _ hk1 hk2] at he
        exact hmp _ _ _ he

theorem walkLevels_ok {F : Type} [CommRing F] (P : VidpfParams F) (binder : Bytes)
    (cws : List (CW F)) (csps : List Bytes) (initSeed : Bytes) (initCtrl : Bool)
    (level pfx : Nat) (hcws : level < cws.length) (hcsps : level < csps.length) :
    ∀ (cnt cl : Nat) (m : Memo F) (seed : Bytes) (ctrl : Bool) (pi : Bytes),
    cl + cnt = level + 1 →
    memoPure P binder cws initSeed initCtrl m →
    (seed, ctrl) = runState P binder cws initSeed initCtrl level pfx cl →
    ∃ m2 s2 c2 pi2,
      walkLevels P binder cws csps level pfx cnt cl (m, seed, ctrl, pi)
        = .ok (m2, s2, c2, pi2) ∧
      memoPure P binder cws initSeed initCtrl m2 ∧
      memoLe m m2 ∧
      (∀ j, cl ≤ j → j ≤ level →
        (m2 (pfx >>> (level - j), j)).isSome = true ∧
        (m2 ((pfx >>> (level - j)) ^^^ 1, j)).isSome = true)
  | 0, cl, m, seed, ctrl, pi, hcnt, hmp, hrun => by
    refine ⟨m, seed, ctrl, pi, rfl, hmp, fun k e h => h, ?_⟩
    intro j hj1 hj2
    exfalso
    omega
  | cnt + 1, cl, m, seed, ctrl, pi, hcnt, hmp, hrun => by
    have hcl : cl ≤ level := by omega
    obtain ⟨m1, pi1, hstep, hmp1, hother, hnode, hsib, e0, he0, hpieq⟩ :=
      evalStep_ok P binder cws csps initSeed initCtrl level pfx cl m seed ctrl pi
        hcl hcws hcsps hmp hrun
    obtain ⟨m2, s2, c2, pi2, hwalk, hmp2, hle2, hcov2⟩ :=
      walkLevels_ok P binder cws csps initSeed initCtrl level pfx hcws hcsps
        cnt (cl + 1) m1 _ _ pi1 (by omega) hmp1 Prod.mk.eta.symm
    have hm1node : (m1 (pfx >>> (level - cl), cl)).isSome = true := by
      rw [hnode]
      by_cases h : (m (pfx >>> (level - cl), cl)).isSome = true
      · rw [if_pos h]
        exact h
      · rw [if_neg h]
        rfl
    have hm1sib : (m1 ((pfx >>> (level - cl)) ^^^ 1, cl)).isSome = true := by
      rw [hsib]
      by_cases h : (m ((pfx >>> (level - cl)) ^^^ 1, cl)).isSome = true
      · rw [if_pos h]
        exact h
      · rw [if_neg h]
        rfl
    refine ⟨m2, s2, c2, pi2, ?_, hmp2, ?_, ?_⟩
    · rw [walkLevels, hstep]
      simp only [exceptBind_ok]
      exact hwalk
    · intro k e hk
      refine hle2 k e ?_
      by_cases hk1 : k = (pfx >>> (level - cl), cl)
      · rw [hk1] at hk ⊢
        rw [hnode, if_pos (by rw [hk]; rfl)]
        exact hk
      · by_cases hk2 : k = ((pfx >>> (level - cl)) ^^^ 1, cl)
        · rw [hk2] at hk ⊢
          rw [hsib, if_pos (by rw [hk]; rfl)]
          exact hk
        · rw [hother k hk1 hk2]
          exact hk
    · intro j hj1 hj2
      by_cases hj : j = cl
      · subst hj
        constructor
        · obtain ⟨e1, he1⟩ := Option.isSome_iff_exists.mp hm1node
          rw [hle2 _ _ he1]
          rfl
        · obtain ⟨e1, he1⟩ := Option.isSome_iff_exists.mp hm1sib
          rw [hle2 _ _ he1]
          rfl
      · exact hcov2 j (by omega) hj2

theorem evalPrefixLoop_ok {F : Type} [CommRing F] (P : VidpfParams F) (binder : Bytes)
    (cws : List (CW F)) (csps : List Bytes) (initSeed : Bytes) (initCtrl : Bool)
    (level : Nat) (hcws : level < cws.length) (hcsps : level < csps.length) :
    ∀ (prefixes : List Nat) (m : Memo F) (pi : Bytes),
    (∀ x ∈ prefixes, x < 2 ^ (level + 1)) →
    memoPure P binder cws initSeed initCtrl m →
    ∃ m2 pi2,
      evalPrefixLoop P binder cws csps level initSeed initCtrl prefixes (m, pi)
        = .ok (m2, pi2) ∧
      memoPure P binder cws initSeed initCtrl m2 ∧
      memoLe m m2 ∧
      (∀ x ∈ prefixes, ∀ j, j ≤ level →
        (m2 (x >>> (level - j), j)).isSome = true ∧
        (m2 ((x >>> (level - j)) ^^^ 1, j)).isSome = true)
  | [], m, pi, _, hmp => ⟨m, pi, rfl, hmp, fun k e h => h, by simp⟩
  | pfx :: rest, m, pi, hbound, hmp => by
    have hb : pfx < 2 ^ (level + 1) := hbound pfx (by simp)
    obtain ⟨m1, s1, c1, pi1, hwalk, hmp1, hle1, hcov1⟩ :=
      walkLevels_ok P binder cws csps initSeed initCtrl level pfx hcws hcsps
        (level + 1) 0 m initSeed initCtrl pi (by omega) hmp rfl
    obtain ⟨m2, pi2, hloop, hmp2, hle2, hcov2⟩ :=
      evalPrefixLoop_ok P binder cws csps initSeed initCtrl level hcws hcsps
        rest m1 pi1 (fun x hx => hbound x (by simp [hx])) hmp1
    refine ⟨m2, pi2, ?_, hmp2, fun k e hk => hle2 k e (hle1 k e hk), ?_⟩
    · rw [evalPrefixLoop, if_neg (by omega)]
      rw [hwalk]
      simp only [exceptBind_ok]
      exact hloop
    · intro x hx j hj
      rcases List.mem_cons.mp hx with rfl | hx
      · obtain ⟨ha, hb2⟩ := hcov1 j (by omega) hj
        constructor
        · obtain ⟨e, he⟩ := Option.isSome_iff_exists.mp ha
          rw [hle2 _ _ he]
          rfl
        · obtain ⟨e, he⟩ := Option.isSome_iff_exists.mp hb2
          rw [hle2 _ _ he]
          rfl
      · exact hcov2 x hx j hj

theorem evalPrefixLoop_bad {F : Type} [CommRing F] (P : VidpfParams F) (binder : Bytes)
    (cws : List (CW F)) (csps : List Bytes) (initSeed : Bytes) (initCtrl : Bool)
    (level : Nat) (hcws : level < cws.length) (hcsps : level < csps.length) :
    ∀ (prefixes : List Nat) (m : Memo F) (pi : Bytes),
    memoPure P binder cws initSeed initCtrl m →
    (∃ x ∈ prefixes, 2 ^ (level + 1) ≤ x) →
    evalPrefixLoop P binder cws csps level initSeed initCtrl prefixes (m, pi)
      = .error .prefixTooLong
  | [], m, pi, _, hbad => by
    obtain ⟨x, hx, _⟩ := hbad
    exact absurd hx (List.not_mem_nil x)
  | pfx :: rest, m, pi, hmp, hbad => by
    by_cases hb : 2 ^ (level + 1) ≤ pfx
    · rw [evalPrefixLoop, if_pos hb]
    · obtain ⟨m1, s1, c1, pi1, hwalk, hmp1, hle1, hcov1⟩ :=
        walkLevels_ok P binder cws csps initSeed initCtrl level pfx hcws hcsps
          (level + 1) 0 m initSeed initCtrl pi (by omega) hmp rfl
      have hbad2 : ∃ x ∈ rest, 2 ^ (level + 1) ≤ x := by
        obtain ⟨x, hx, hxb⟩ := hbad
        rcases List.mem_cons.mp hx with rfl | hx
        · omega
        · exact ⟨x, hx, hxb⟩
      rw [evalPrefixLoop, if_neg hb, hwalk]
      simp only [exceptBind_ok]
      exact evalPrefixLoop_bad P binder cws csps initSeed initCtrl level hcws hcsps
        rest m1 pi1 hmp1 hbad2

theorem pathSegment_ok {F : Type} [CommRing F] (P : VidpfParams F) (m : Memo F)
    (level pfx : Nat)
    (hcov : ∀ j, j ≤ level → (m (pfx >>> (level - j), j)).isSome = true ∧
      (m ((pfx >>> (level - j)) ^^^ 1, j)).isSome = true) :
    ∀ (cnt cl : Nat), cl + cnt = level →
    ∃ bs, pathSegment P m level pfx cnt cl = .ok bs
  | 0, cl, _ => ⟨[], rfl⟩
  | cnt + 1, cl, hsum => by
    have hcl : cl ≤ level := by omega
    obtain ⟨hpnode, _⟩ := hcov cl hcl
    have hpar : (pfx >>> (level - (cl + 1))) >>> 1 = pfx >>> (level - cl) :=
      node_parent level pfx cl (by omega)
    obtain ⟨hc1, hc2⟩ := hcov (cl + 1) (by omega)
    obtain ⟨bs, hbs⟩ := pathSegment_ok P m level pfx hcov cnt (cl + 1) (by omega)
    obtain ⟨ep, hep⟩ := Option.isSome_iff_exists.mp hpnode
    rcases children_eq (pfx >>> (level - cl)) (pfx >>> (level - (cl + 1))) hpar with
      ⟨hl, hr⟩ | ⟨hl, hr⟩
    · obtain ⟨el, hel⟩ := Option.isSome_iff_exists.mp hc1
      obtain ⟨er, her⟩ := Option.isSome_iff_exists.mp hc2
      refine ⟨P.encodeVec (vecSub ep.2.2.1 (vecAdd el.2.2.1 er.2.2.1)) ++ bs, ?_⟩
      rw [pathSegment]
      unfold getMemo
      rw [hr, hl, hep, hel, her]
      simp only [exceptBind_ok]
      rw [hbs]
      simp only [exceptBind_ok]
    · obtain ⟨el, hel⟩ := Option.isSome_iff_exists.mp hc2
      obtain ⟨er, her⟩ := Option.isSome_iff_exists.mp hc1
      refine ⟨P.encodeVec (vecSub ep.2.2.1 (vecAdd el.2.2.1 er.2.2.1)) ++ bs, ?_⟩
      rw [pathSegment]
      unfold getMemo
      rw [hr, hl, hep, hel, her]
      simp only [exceptBind_ok]
      rw [hbs]
      simp only [exceptBind_ok]

theorem pathBytesLoop_ok {F : Type} [CommRing F] (P : VidpfParams F) (m : Memo F)
    (level : Nat) :
    ∀ (prefixes : List Nat),
    (∀ x ∈ prefixes, ∀ j, j ≤ level →
      (m (x >>> (level - j), j)).isSome = true ∧
      (m ((x >>> (level - j)) ^^^ 1, j)).isSome = true) →
    ∃ bs, pathBytesLoop P m level prefixes = .ok bs
  | [], _ => ⟨[], rfl⟩
  | pfx :: rest, hcov => by
    obtain ⟨seg, hseg⟩ := pathSegment_ok P m level pfx
      (fun j hj => hcov pfx (by simp) j hj) level 0 (by omega)
    obtain ⟨bs, hbs⟩ := pathBytesLoop_ok P m level rest
      (fun x hx => hcov x (by simp [hx]))
    refine ⟨seg ++ bs, ?_⟩
    rw [pathBytesLoop, hseg]
    simp only [exceptBind_ok]
    rw [hbs]
    simp only [exceptBind_ok]

theorem outShareLoop_ok {F : Type} [CommRing F] (P : VidpfParams F) (m : Memo F)
    (level aggId : Nat) :
    ∀ (prefixes : List Nat),
    (∀ x ∈ prefixes, (m (x, level)).isSome = true) →
    ∃ os, outShareLoop P m level aggId prefixes = .ok os ∧
      os.length = prefixes.length ∧
      (∀ i, i < prefixes.length → ∃ e, m (prefixes.getD i 0, level) = some e ∧
        os.getD i [] = (if aggId == 0 then e.2.2.1 else vecNeg e.2.2.1))
  | [], _ => ⟨[], rfl, rfl, by intro i hi; simp at hi⟩
  | pfx :: rest, hcov => by
    obtain ⟨e, he⟩ := Option.isSome_iff_exists.mp (hcov pfx (by simp))
    obtain ⟨os, hos, hlen, hval⟩ := outShareLoop_ok P m level aggId rest
      (fun x hx => hcov x (by simp [hx]))
    refine ⟨(if aggId == 0 then e.2.2.1 else vecNeg e.2.2.1) :: os, ?_, ?_, ?_⟩
    · rw [outShareLoop]
      unfold getMemo
      rw [he]
      simp only [exceptBind_ok]
      rw [hos]
      simp only [exceptBind_ok]
    · simp [hlen]
    · intro i hi
      cases i with
      | zero => exact ⟨e, he, rfl⟩
      | succ i2 =>
        obtain ⟨e2, he2, hv2⟩ := hval i2 (by simpa using hi)
        exact ⟨e2, he2, hv2⟩

theorem memoPure_empty {F : Type} [CommRing F] (P : VidpfParams F) (binder : Bytes)
    (cws : List (CW F)) (initSeed : Bytes) (initCtrl : Bool) :
    memoPure P binder cws initSeed initCtrl (fun _ => none) :=
  fun _ _ _ h => Option.noConfusion h

/-- Success of `Vidpf.eval` on valid arguments and a well-formed public
share: correction-word and `cs_proof` lists of length `BITS`.  Within this
domain every memo lookup performed by `eval` succeeds and `eval` returns a
result (used by the C8 and C10 theorems, whose statements additionally
require every `w_cw` to have length `VALUE_LEN`: that interior bound is
what rules out the `IndexError` Python raises at `w_cw[i]` inside
`eval_next`, an error path the truncating `zipWith` embedding of the
`y`-loop does not model). -/
theorem vidpfEval_ok_of_valid {F : Type} [CommRing F] (P : VidpfParams F)
    (aggId : Nat) (cws : List (CW F)) (csps : List Bytes) (initSeed : Bytes)
    (level : Nat) (prefixes : List Nat) (binder : Bytes)
    (hagg : aggId < 2) (hlev : level < P.BITS)
    (hcws : cws.length = P.BITS) (hcsps : csps.length = P.BITS)
    (hne : prefixes ≠ []) (hnodup : prefixes.Nodup)
    (hbound : ∀ x ∈ prefixes, x < 2 ^ (level + 1)) :
    ∃ r, vidpfEval P aggId cws csps initSeed level prefixes binder = .ok r := by
  have hcws2 : level < cws.length := by omega
  have hcsps2 : level < csps.length := by omega
  obtain ⟨m2, pi2, hloop, hmp2, hle2, hcov2⟩ :=
    evalPrefixLoop_ok P binder cws csps initSeed (aggId == 1) level hcws2 hcsps2
      prefixes (fun _ => none) (P.hashF []) hbound (memoPure_empty P binder cws initSeed _)
  obtain ⟨pb, hpb⟩ := pathBytesLoop_ok P m2 level prefixes hcov2
  obtain ⟨os, hos, hoslen, hosval⟩ := outShareLoop_ok P m2 level aggId prefixes
    (fun x hx => by
      have h := (hcov2 x hx level (le_refl level)).1
      rwa [Nat.sub_self, Nat.shiftRight_zero] at h)
  obtain ⟨p0, rest, rfl⟩ := List.exists_cons_of_ne_nil hne
  have hfirstcov := hcov2 p0 (by simp) 0 (by omega)
  have hn0 : p0 >>> (level - 0) < 2 := by
    have h := shiftRight_lt_pow p0 (level + 1) (level - 0)
      (hbound p0 (by simp)) (by omega)
    have h2 : level + 1 - (level - 0) = 1 := by omega
    rw [h2] at h
    omega
  have hboth : (m2 (0, 0)).isSome = true ∧ (m2 (1, 0)).isSome = true := by
    obtain ⟨ha, hb⟩ := hfirstcov
    have h01 : p0 >>> (level - 0) = 0 ∨ p0 >>> (level - 0) = 1 := by
      rcases Nat.eq_zero_or_pos (p0 >>> (level - 0)) with h | h
      · exact Or.inl h
      · right
        have h2 := hn0
        omega
    rcases h01 with h | h <;> rw [h] at ha hb
    · rw [(by decide : (0 : Nat) ^^^ 1 = 1)] at hb
      exact ⟨ha, hb⟩
    · rw [(by decide : (1 : Nat) ^^^ 1 = 0)] at hb
      exact ⟨hb, ha⟩
  obtain ⟨e0, he0⟩ := Option.isSome_iff_exists.mp hboth.1
  obtain ⟨e1, he1⟩ := Option.isSome_iff_exists.mp hboth.2
  refine ⟨((if aggId == 1 then vecNeg (vecAdd e0.2.2.1 e1.2.2.1)
    else vecAdd e0.2.2.1 e1.2.2.1), os, pi2 ++ P.hashF pb), ?_⟩
  rw [vidpfEval, if_neg (by omega), if_neg (by omega),
    if_neg (not_not_intro hnodup)]
  rw [hloop]
  simp only [exceptBind_ok]
  rw [hpb]
  simp only [exceptBind_ok]
  rw [hos]
  simp only [exceptBind_ok]
  unfold getMemo
  rw [he0, he1]
  simp only [exceptBind_ok]

/-- C10: `Vidpf.eval` with an empty prefix list reaches the `beta_share`
lookups at nodes `(0, 0)` and `(1, 0)` with an empty memo and fails with a
missing-key error (no `eval_next` call happens first); with a well-formed
public share (correction-word and `cs_proof` lists of length `BITS` and
every `w_cw` of length `VALUE_LEN`, as `Vidpf.gen` produces) and a
non-empty list of valid, unique prefixes every memo lookup succeeds and
`eval` returns a result.  The `w_cw` length bound is required for
faithfulness: without it Python raises `IndexError` at `w_cw[i]` inside
`eval_next`, an error the truncating `zipWith` embedding does not model. -/
theorem vidpf_eval_memo_lookups {F : Type} [CommRing F] (P : VidpfParams F)
    (aggId : Nat) (cws : List (CW F)) (csps : List Bytes) (initSeed : Bytes)
    (level : Nat) (prefixes : List Nat) (binder : Bytes)
    (hagg : aggId < 2) (hlev : level < P.BITS) :
    (prefixes = [] → vidpfEval P aggId cws csps initSeed level prefixes binder
        = .error .missingKey) ∧
    (cws.length = P.BITS → csps.length = P.BITS →
      (∀ cw ∈ cws, cw.2.2.length = P.VALUE_LEN) → prefixes ≠ [] →
      prefixes.Nodup → (∀ x ∈ prefixes, x < 2 ^ (level + 1)) →
      ∃ r, vidpfEval P aggId cws csps initSeed level prefixes binder = .ok r) := by
  constructor
  · rintro rfl
    rw [vidpfEval, if_neg (by omega), if_neg (by omega),
      if_neg (not_not_intro List.nodup_nil)]
    rfl
  · intro hcws hcsps hwcw hne hnodup hbound
    exact vidpfEval_ok_of_valid P aggId cws csps initSeed level prefixes binder
      hagg hlev hcws hcsps hne hnodup hbound

/-- C10 (witness): empty-prefix failure and non-empty success at a concrete
instance with well-formed correction words. -/
theorem vidpf_eval_memo_lookups_witness :
    ((0 : Nat) < 2 ∧ 0 < VP.BITS ∧
      vidpfEval VP 0 [([2], (false, true), [3]), ([4], (true, false), [1])] [[5], [6]]
        [9] 0 [] [7] = .error .missingKey) ∧
    (∃ r, vidpfEval VP 0 [([2], (false, true), [3]), ([4], (true, false), [1])] [[5], [6]]
        [9] 0 [0, 1] [7] = .ok r) :=
  ⟨⟨by decide, by decide,
    (vidpf_eval_memo_lookups VP 0 _ _ [9] 0 [] [7] (by decide) (by decide)).1 rfl⟩,
    (vidpf_eval_memo_lookups VP 0 _ _ [9] 0 [0, 1] [7] (by decide) (by decide)).2
      (by decide) (by decide) (by decide) (by decide) (by decide) (by decide)⟩

/-- C8: given a well-formed public share (correction-word and `cs_proof`
lists of length `BITS` and every `w_cw` of length `VALUE_LEN`, as
`Vidpf.gen` produces), `Vidpf.eval` raises a `ValueError` argument error
whenever `agg_id ≥ 2`, or `level ≥ BITS`, or the prefix list has
duplicates, or some prefix is at least `2 ^ (level + 1)`; and when none of
these hold and the prefix list is non-empty it raises no error at all.
The `w_cw` length bound is required for faithfulness: without it Python
raises `IndexError` at `w_cw[i]` inside `eval_next` while walking a valid
prefix, preempting both conclusions. -/
theorem vidpf_eval_invalid_args {F : Type} [CommRing F] (P : VidpfParams F)
    (aggId : Nat) (cws : List (CW F)) (csps : List Bytes) (initSeed : Bytes)
    (level : Nat) (prefixes : List Nat) (binder : Bytes)
    (hcws : cws.length = P.BITS) (hcsps : csps.length = P.BITS)
    (hwcw : ∀ cw ∈ cws, cw.2.2.length = P.VALUE_LEN) :
    ((2 ≤ aggId ∨ P.BITS ≤ level ∨ ¬ prefixes.Nodup ∨
        ∃ x ∈ prefixes, 2 ^ (level + 1) ≤ x) →
      ∃ e, vidpfEval P aggId cws csps initSeed level prefixes binder = .error e ∧
        (e = .invalidAgg ∨ e = .levelTooDeep ∨ e = .nonUnique ∨ e = .prefixTooLong)) ∧
    (aggId < 2 → level < P.BITS → prefixes.Nodup →
      (∀ x ∈ prefixes, x < 2 ^ (level + 1)) → prefixes ≠ [] →
      ∀ e, vidpfEval P aggId cws csps initSeed level prefixes binder ≠ .error e) := by
  constructor
  · intro hbad
    by_cases h1 : 2 ≤ aggId
    · exact ⟨.invalidAgg, by rw [vidpfEval, if_pos h1], Or.inl rfl⟩
    · by_cases h2 : P.BITS ≤ level
      · exact ⟨.levelTooDeep, by rw [vidpfEval, if_neg h1, if_pos h2],
          Or.inr (Or.inl rfl)⟩
      · by_cases h3 : prefixes.Nodup
        · have h4 : ∃ x ∈ prefixes, 2 ^ (level + 1) ≤ x := by
            rcases hbad with h | h | h | h
            · exact absurd h h1
            · exact absurd h h2
            · exact absurd h3 h
            · exact h
          refine ⟨.prefixTooLong, ?_, Or.inr (Or.inr (Or.inr rfl))⟩
          rw [vidpfEval, if_neg h1, if_neg h2, if_neg (not_not_intro h3)]
          rw [evalPrefixLoop_bad P binder cws csps initSeed (aggId == 1) level
            (by omega) (by omega) prefixes (fun _ => none) (P.hashF [])
            (memoPure_empty P binder cws initSeed _) h4]
          rfl
        · exact ⟨.nonUnique, by rw [vidpfEval, if_neg h1, if_neg h2, if_pos h3],
            Or.inr (Or.inr (Or.inl rfl))⟩
  · intro h1 h2 h3 h4 h5
    obtain ⟨r, hr⟩ := vidpfEval_ok_of_valid P aggId cws csps initSeed level
      prefixes binder h1 h2 hcws hcsps h5 h3 h4
    intro e he
    rw [hr] at he
    exact Except.noConfusion he

/-- C8 (witness): the `agg_id ≥ 2` error and the error-free run at concrete
inputs with well-formed correction words. -/
theorem vidpf_eval_invalid_args_witness :
    (∃ e, vidpfEval VP 5 [([2], (false, true), [3]), ([4], (true, false), [1])]
        [[5], [6]] [9] 0 [0] [7] = .error e ∧
      (e = .invalidAgg ∨ e = .levelTooDeep ∨ e = .nonUnique ∨ e = .prefixTooLong)) ∧
    (∀ e, vidpfEval VP 1 [([2], (false, true), [3]), ([4], (true, false), [1])]
        [[5], [6]] [9] 0 [0, 1] [7] ≠ .error e) :=
  ⟨(vidpf_eval_invalid_args VP 5 _ _ [9] 0 [0] [7] (by decide) (by decide)
        (by decide)).1
      (Or.inl (by decide)),
    (vidpf_eval_invalid_args VP 1 _ _ [9] 0 [0, 1] [7] (by decide) (by decide)
        (by decide)).2
      (by decide) (by decide) (by decide) (by decide) (by decide)⟩

theorem genStates_seed_len {F : Type} [CommRing F] (P : VidpfParams F) (alpha : Nat)
    (beta : List F) (binder rand : Bytes) (hr : rand.length = 2 * P.seedSize) :
    ∀ i, ((genStates P alpha beta binder rand i).1.1).length = P.seedSize ∧
      ((genStates P alpha beta binder rand i).1.2).length = P.seedSize
  | 0 => by
    constructor
    · show (rand.take P.seedSize).length = P.seedSize
      rw [List.length_take]
      omega
    · show (rand.drop P.seedSize).length = P.seedSize
      rw [List.length_drop]
      omega
  | i + 1 => by
    constructor
    · exact P.convert_seed_len _ _ _
    · exact P.convert_seed_len _ _ _

theorem genStep_ctrl_xor {F : Type} [CommRing F] (P : VidpfParams F) (alpha : Nat)
    (beta : List F) (binder : Bytes) (i : Nat) (st : (Bytes × Bytes) × Bool × Bool)
    (h : xor st.2.1 st.2.2 = true) :
    xor ((genStep P alpha beta binder i st).1).2.1
      ((genStep P alpha beta binder i st).1).2.2 = true := by
  unfold genStep
  rcases Nat.mod_two_eq_zero_or_one (alpha >>> (P.BITS - i - 1)) with hb | hb <;>
    simp only [hb, pick2, pickB, correctF2]
  · simp only [if_true, show ((0 : Nat) == 1) = false from rfl, Bool.xor_false]
    revert h
    generalize (P.extendF st.1.1 binder).2.1 = a
    generalize (P.extendF st.1.2 binder).2.1 = b
    generalize st.2.1 = c0
    generalize st.2.2 = c1
    revert a b c0 c1
    decide
  · simp only [if_neg (show ¬(1 = 0) by decide),
      show ((1 : Nat) == 1) = true from rfl]
    revert h
    generalize (P.extendF st.1.1 binder).2.2 = a
    generalize (P.extendF st.1.2 binder).2.2 = b
    generalize st.2.1 = c0
    generalize st.2.2 = c1
    revert a b c0 c1
    decide

theorem genStates_ctrl_xor {F : Type} [CommRing F] (P : VidpfParams F) (alpha : Nat)
    (beta : List F) (binder rand : Bytes) :
    ∀ i, xor (genStates P alpha beta binder rand i).2.1
      (genStates P alpha beta binder rand i).2.2 = true
  | 0 => rfl
  | i + 1 =>
    genStep_ctrl_xor P alpha beta binder i (genStates P alpha beta binder rand i)
      (genStates_ctrl_xor P alpha beta binder rand i)

theorem genCWs_length {F : Type} [CommRing F] (P : VidpfParams F) (alpha : Nat)
    (beta : List F) (binder rand : Bytes) :
    (genCWs P alpha beta binder rand).length = P.BITS := by
  simp [genCWs]

theorem genCsps_length {F : Type} [CommRing F] (P : VidpfParams F) (alpha : Nat)
    (beta : List F) (binder rand : Bytes) :
    (genCsps P alpha beta binder rand).length = P.BITS := by
  simp [genCsps]

theorem genCWs_getD {F : Type} [CommRing F] (P : VidpfParams F) (alpha : Nat)
    (beta : List F) (binder rand : Bytes) (cl : Nat) (hcl : cl < P.BITS) :
    (genCWs P alpha beta binder rand)[cl]?.getD default
      = genCW P alpha beta binder rand cl := by
  have h1 : (genCWs P alpha beta binder rand)[cl]?
      = some (genCW P alpha beta binder rand cl) := by
    rw [genCWs, List.getElem?_map, List.getElem?_range hcl]
    rfl
  rw [h1]
  rfl

theorem genCsps_getD {F : Type} [CommRing F] (P : VidpfParams F) (alpha : Nat)
    (beta : List F) (binder rand : Bytes) (cl : Nat) (hcl : cl < P.BITS) :
    (genCsps P alpha beta binder rand)[cl]?.getD default
      = genCsp P alpha beta binder rand cl := by
  have h1 : (genCsps P alpha beta binder rand)[cl]?
      = some (genCsp P alpha beta binder rand cl) := by
    rw [genCsps, List.getElem?_map, List.getElem?_range hcl]
    rfl
  rw [h1]
  rfl

theorem vidpfGen_eq {F : Type} [CommRing F] (P : VidpfParams F) (alpha : Nat)
    (beta : List F) (binder rand : Bytes) (ha : alpha < 2 ^ P.BITS)
    (hr : rand.length = 2 * P.seedSize) :
    vidpfGen P alpha beta binder rand
      = .ok ((rand.take P.seedSize, rand.drop P.seedSize),
          genCWs P alpha beta binder rand, genCsps P alpha beta binder rand) := by
  rw [vidpfGen, if_neg (by omega), if_neg (not_not_intro hr)]
  rfl

theorem bool_eq_not_of_xor (a b : Bool) (h : xor a b = true) : a = !b := by
  revert h
  revert a b
  decide

theorem vecAdd_vecNeg {F : Type} [CommRing F] (a b : List F) :
    vecAdd a (vecNeg b) = vecSub a b := by
  induction a generalizing b with
  | nil => simp [vecAdd, vecNeg, vecSub]
  | cons x xs ih =>
    cases b with
    | nil => simp [vecAdd, vecNeg, vecSub]
    | cons y ys =>
      simp only [vecAdd, vecNeg, vecSub, List.map_cons, List.zipWith_cons_cons]
      refine congrArg₂ (· :: ·) ?_ (ih ys)
      rw [sub_eq_add_neg]

theorem vecSub_self_eq {F : Type} [CommRing F] (a : List F) :
    vecSub a a = List.replicate a.length 0 := by
  induction a with
  | nil => rfl
  | cons x xs ih =>
    simp only [vecSub, List.zipWith_cons_cons, List.length_cons, List.replicate_succ]
    rw [sub_self]
    exact congrArg _ ih

theorem eq_vecAdd_of_vecSub {F : Type} [CommRing F] (a b c : List F)
    (hl : a.length = b.length) (h : vecSub a b = c) : a = vecAdd b c := by
  induction a generalizing b c with
  | nil =>
    cases b with
    | nil => subst h; rfl
    | cons y ys => simp at hl
  | cons x xs ih =>
    cases b with
    | nil => simp at hl
    | cons y ys =>
      subst h
      simp only [vecSub, vecAdd, List.zipWith_cons_cons]
      refine congrArg₂ (· :: ·) ?_ (ih ys _ (by simpa using hl) rfl)
      ring

theorem vec_shift_cancel_left {F : Type} [CommRing F] :
    ∀ (p l r b : List F), p.length = l.length → l.length = r.length →
    r.length = b.length →
    vecSub (vecAdd p b) (vecAdd (vecAdd l b) r) = vecSub p (vecAdd l r)
  | [], [], [], [], _, _, _ => rfl
  | p :: ps, l :: ls, r :: rs, b :: bs, hp, hl, hr => by
    simp only [vecAdd, vecSub, List.zipWith_cons_cons]
    refine congrArg₂ (· :: ·) (by ring) ?_
    exact vec_shift_cancel_left ps ls rs bs (by simpa using hp) (by simpa using hl)
      (by simpa using hr)
  | [], _ :: _, _, _, hp, hl, hr => by simp at hp
  | _ :: _, [], _, _, hp, hl, hr => by simp at hp
  | _ :: _, _ :: _, [], _, hp, hl, hr => by simp at hl
  | _ :: _, _ :: _, _ :: _, [], hp, hl, hr => by simp at hr

theorem vec_shift_cancel_right {F : Type} [CommRing F] :
    ∀ (p l r b : List F), p.length = l.length → l.length = r.length →
    r.length = b.length →
    vecSub (vecAdd p b) (vecAdd l (vecAdd r b)) = vecSub p (vecAdd l r)
  | [], [], [], [], _, _, _ => rfl
  | p :: ps, l :: ls, r :: rs, b :: bs, hp, hl, hr => by
    simp only [vecAdd, vecSub, List.zipWith_cons_cons]
    refine congrArg₂ (· :: ·) (by ring) ?_
    exact vec_shift_cancel_right ps ls rs bs (by simpa using hp) (by simpa using hl)
      (by simpa using hr)
  | [], _ :: _, _, _, hp, hl, hr => by simp at hp
  | _ :: _, [], _, _, hp, hl, hr => by simp at hp
  | _ :: _, _ :: _, [], _, hp, hl, hr => by simp at hl
  | _ :: _, _ :: _, _ :: _, [], hp, hl, hr => by simp at hr

theorem ydiff_list {F : Type} [CommRing F] :
    ∀ (b w0 w1 : List F) (c : Bool), b.length = w0.length → w0.length = w1.length →
    vecSub
      (List.zipWith (fun wi ci => wi + ci * (if !c then (1 : F) else 0)) w0
        ((vecAdd (vecSub b w0) w1).map
          (fun x => x * (1 - 2 * (if c then (1 : F) else 0)))))
      (List.zipWith (fun wi ci => wi + ci * (if c then (1 : F) else 0)) w1
        ((vecAdd (vecSub b w0) w1).map
          (fun x => x * (1 - 2 * (if c then (1 : F) else 0)))))
      = b
  | [], [], [], c, _, _ => rfl
  | b :: bs, w0 :: w0s, w1 :: w1s, c, h0, h1 => by
    simp only [vecSub, vecAdd, List.zipWith_cons_cons, List.map_cons]
    refine congrArg₂ (· :: ·) ?_
      (ydiff_list bs w0s w1s c (by simpa using h0) (by simpa using h1))
    cases c <;>
      simp only [Bool.not_true, Bool.not_false, if_pos rfl,
        if_neg Bool.false_ne_true, if_true] <;> ring
  | [], _ :: _, _, c, h0, h1 => by simp at h0
  | _ :: _, [], _, c, h0, h1 => by simp at h0
  | _ :: _, _ :: _, [], c, h0, h1 => by simp at h1

theorem list_eq_of_getD {α : Type} (u v : List α) (d : α) (hl : u.length = v.length)
    (h : ∀ i, i < u.length → u.getD i d = v.getD i d) : u = v := by
  apply List.ext_getElem hl
  intro i h1 h2
  have := h i h1
  rwa [List.getD_eq_getElem u d h1, List.getD_eq_getElem v d h2] at this

theorem ydiff_core {F : Type} [CommRing F] (beta w0 w1 : List F) (a b c0 c1 : Bool)
    (h : xor (xor a (c0 && ((a ^^ b) ^^ true))) (xor b (c1 && ((a ^^ b) ^^ true)))
      = true)
    (h0 : beta.length = w0.length) (h1 : w0.length = w1.length) :
    vecSub
      (List.zipWith
        (fun wi ci => wi + ci * if (a ^^ (((a ^^ b) ^^ true) && c0)) then (1 : F) else 0)
        w0
        ((vecAdd (vecSub beta w0) w1).map
          (fun x => x * (1 - 2 * if (b ^^ (c1 && ((a ^^ b) ^^ true))) then (1 : F) else 0))))
      (List.zipWith
        (fun wi ci => wi + ci * if (b ^^ (((a ^^ b) ^^ true) && c1)) then (1 : F) else 0)
        w1
        ((vecAdd (vecSub beta w0) w1).map
          (fun x => x * (1 - 2 * if (b ^^ (c1 && ((a ^^ b) ^^ true))) then (1 : F) else 0))))
      = beta := by
  have e1 : (a ^^ (((a ^^ b) ^^ true) && c0)) = !(b ^^ (c1 && ((a ^^ b) ^^ true))) := by
    revert h
    revert a b c0 c1
    decide
  have e2 : (b ^^ (((a ^^ b) ^^ true) && c1)) = (b ^^ (c1 && ((a ^^ b) ^^ true))) := by
    cases b <;> cases c1 <;> cases a <;> rfl
  rw [e1, e2]
  exact ydiff_list beta w0 w1 (b ^^ (c1 && ((a ^^ b) ^^ true))) h0 h1

theorem xor_and_comm_right (x y z : Bool) : (x ^^ (y && z)) = (x ^^ (z && y)) := by
  revert x y z
  decide

theorem lose_seed_eq (x0 x1 : Bytes) (hl : x0.length = x1.length) (c0 c1 : Bool)
    (h : xor c0 c1 = true) :
    xorB x0 (condSelect c0 (xorB x0 x1)) = xorB x1 (condSelect c1 (xorB x0 x1)) := by
  cases c0 <;> cases c1
  · simp at h
  · rw [xorB_condSelect_false x0 (xorB x0 x1) (by rw [xorB_length]; omega),
      condSelect_true, xorB_xorB_cancel_right x0 x1 hl]
  · rw [condSelect_true, xorB_xorB_cancel_left x0 x1 hl,
      xorB_condSelect_false x1 (xorB x0 x1) (by rw [xorB_length]; omega)]
  · simp at h

theorem lose_ctrl_eq (a b c0 c1 : Bool) (h : xor c0 c1 = true) :
    (a ^^ ((a ^^ b) && c0)) = (b ^^ ((a ^^ b) && c1)) := by
  revert h
  revert a b c0 c1
  decide

theorem genStep_eval_agree {F : Type} [CommRing F] (P : VidpfParams F) (alpha : Nat)
    (beta : List F) (binder : Bytes) (i : Nat) (st : (Bytes × Bytes) × Bool × Bool)
    (h : xor st.2.1 st.2.2 = true) (hb2 : beta.length = P.VALUE_LEN) :
    (evalNextCore P st.1.1 st.2.1 (genStep P alpha beta binder i st).2.1 i
        (alpha >>> (P.BITS - i - 1)) binder).1
      = (genStep P alpha beta binder i st).1.1.1 ∧
    (evalNextCore P st.1.1 st.2.1 (genStep P alpha beta binder i st).2.1 i
        (alpha >>> (P.BITS - i - 1)) binder).2.1
      = (genStep P alpha beta binder i st).1.2.1 ∧
    (evalNextCore P st.1.2 st.2.2 (genStep P alpha beta binder i st).2.1 i
        (alpha >>> (P.BITS - i - 1)) binder).1
      = (genStep P alpha beta binder i st).1.1.2 ∧
    (evalNextCore P st.1.2 st.2.2 (genStep P alpha beta binder i st).2.1 i
        (alpha >>> (P.BITS - i - 1)) binder).2.1
      = (genStep P alpha beta binder i st).1.2.2 ∧
    vecSub
      (evalNextCore P st.1.1 st.2.1 (genStep P alpha beta binder i st).2.1 i
        (alpha >>> (P.BITS - i - 1)) binder).2.2
      (evalNextCore P st.1.2 st.2.2 (genStep P alpha beta binder i st).2.1 i
        (alpha >>> (P.BITS - i - 1)) binder).2.2
      = beta := by
  have hx := genStep_ctrl_xor P alpha beta binder i st h
  unfold genStep at hx ⊢
  unfold evalNextCore
  rcases Nat.mod_two_eq_zero_or_one (alpha >>> (P.BITS - i - 1)) with hb | hb <;>
    simp only [hb, pick2, pickB, correctF2, correctBytes,
      show ((0 : Nat) == 1) = false from rfl, show ((1 : Nat) == 1) = true from rfl,
      show (xor true true) = false from rfl, if_true, if_pos rfl,
      if_neg Bool.false_ne_true, if_neg (show ¬(1 = 0) by decide),
      Bool.xor_false] at hx ⊢
  · exact ⟨trivial, xor_and_comm_right _ _ _, trivial, xor_and_comm_right _ _ _,
      ydiff_core _ _ _ _ _ _ _ hx
        (by rw [hb2]; exact (P.convert_vec_len _ _ _).symm)
        (by rw [P.convert_vec_len, P.convert_vec_len])⟩
  · exact ⟨trivial, xor_and_comm_right _ _ _, trivial, xor_and_comm_right _ _ _,
      ydiff_core _ _ _ _ _ _ _ hx
        (by rw [hb2]; exact (P.convert_vec_len _ _ _).symm)
        (by rw [P.convert_vec_len, P.convert_vec_len])⟩

theorem genStep_eval_lose {F : Type} [CommRing F] (P : VidpfParams F) (alpha : Nat)
    (beta : List F) (binder : Bytes) (i : Nat) (st : (Bytes × Bytes) × Bool × Bool)
    (h : xor st.2.1 st.2.2 = true) (k : Nat)
    (hk : k % 2 ≠ (alpha >>> (P.BITS - i - 1)) % 2) :
    evalNextCore P st.1.1 st.2.1 (genStep P alpha beta binder i st).2.1 i k binder
      = evalNextCore P st.1.2 st.2.2 (genStep P alpha beta binder i st).2.1 i k
          binder := by
  have hlen : ((P.extendF st.1.1 binder).1.1).length
      = ((P.extendF st.1.2 binder).1.1).length := by
    rw [P.extend_len_l, P.extend_len_l]
  have hlen2 : ((P.extendF st.1.1 binder).1.2).length
      = ((P.extendF st.1.2 binder).1.2).length := by
    rw [P.extend_len_r, P.extend_len_r]
  unfold genStep evalNextCore
  rcases Nat.mod_two_eq_zero_or_one (alpha >>> (P.BITS - i - 1)) with hb | hb
  · have hk2 : k % 2 = 1 := by
      rcases Nat.mod_two_eq_zero_or_one k with h2 | h2 <;> omega
    simp only [hb, hk2, pick2, pickB, correctF2, correctBytes,
      show ((0 : Nat) == 1) = false from rfl, show ((1 : Nat) == 1) = true from rfl,
      show (xor true true) = false from rfl, if_true, if_pos rfl,
      if_neg Bool.false_ne_true, if_neg (show ¬(1 = 0) by decide),
      Bool.xor_false]
    rw [lose_seed_eq ((P.extendF st.1.1 binder).1.2) ((P.extendF st.1.2 binder).1.2)
        hlen2 st.2.1 st.2.2 h,
      lose_ctrl_eq ((P.extendF st.1.1 binder).2.2) ((P.extendF st.1.2 binder).2.2)
        st.2.1 st.2.2 h]
  · have hk2 : k % 2 = 0 := by
      rcases Nat.mod_two_eq_zero_or_one k with h2 | h2 <;> omega
    simp only [hb, hk2, pick2, pickB, correctF2, correctBytes,
      show ((0 : Nat) == 1) = false from rfl, show ((1 : Nat) == 1) = true from rfl,
      show (xor true true) = false from rfl, if_true, if_pos rfl,
      if_neg Bool.false_ne_true, if_neg (show ¬(1 = 0) by decide),
      Bool.xor_false]
    rw [lose_seed_eq ((P.extendF st.1.1 binder).1.1) ((P.extendF st.1.2 binder).1.1)
        hlen st.2.1 st.2.2 h,
      lose_ctrl_eq ((P.extendF st.1.1 binder).2.1) ((P.extendF st.1.2 binder).2.1)
        st.2.1 st.2.2 h]

theorem nodeValC_zero {F : Type} [CommRing F] (P : VidpfParams F) (binder : Bytes)
    (cws : List (CW F)) (initSeed : Bytes) (initCtrl : Bool) (n : Nat) :
    nodeValC P binder cws initSeed initCtrl 0 n
      = evalNextCore P initSeed initCtrl (cws[0]?.getD default) 0 n binder := rfl

theorem nodeValC_succ {F : Type} [CommRing F] (P : VidpfParams F) (binder : Bytes)
    (cws : List (CW F)) (initSeed : Bytes) (initCtrl : Bool) (cl n : Nat) :
    nodeValC P binder cws initSeed initCtrl (cl + 1) n
      = evalNextCore P (nodeValC P binder cws initSeed initCtrl cl (n >>> 1)).1
          (nodeValC P binder cws initSeed initCtrl cl (n >>> 1)).2.1
          (cws[cl + 1]?.getD default) (cl + 1) n binder := rfl

theorem nodeValC_onpath {F : Type} [CommRing F] (P : VidpfParams F) (alpha : Nat)
    (beta : List F) (binder rand : Bytes) (hb2 : beta.length = P.VALUE_LEN) :
    ∀ cl, cl < P.BITS →
    (nodeValC P binder (genCWs P alpha beta binder rand) (rand.take P.seedSize) false
        cl (alpha >>> (P.BITS - cl - 1))).1
      = (genStates P alpha beta binder rand (cl + 1)).1.1 ∧
    (nodeValC P binder (genCWs P alpha beta binder rand) (rand.take P.seedSize) false
        cl (alpha >>> (P.BITS - cl - 1))).2.1
      = (genStates P alpha beta binder rand (cl + 1)).2.1 ∧
    (nodeValC P binder (genCWs P alpha beta binder rand) (rand.drop P.seedSize) true
        cl (alpha >>> (P.BITS - cl - 1))).1
      = (genStates P alpha beta binder rand (cl + 1)).1.2 ∧
    (nodeValC P binder (genCWs P alpha beta binder rand) (rand.drop P.seedSize) true
        cl (alpha >>> (P.BITS - cl - 1))).2.1
      = (genStates P alpha beta binder rand (cl + 1)).2.2 ∧
    vecSub
      (nodeValC P binder (genCWs P alpha beta binder rand) (rand.take P.seedSize) false
        cl (alpha >>> (P.BITS - cl - 1))).2.2
      (nodeValC P binder (genCWs P alpha beta binder rand) (rand.drop P.seedSize) true
        cl (alpha >>> (P.BITS - cl - 1))).2.2
      = beta
  | 0, hcl => by
    have hcw := genCWs_getD P alpha beta binder rand 0 hcl
    obtain ⟨h1, h2, h3, h4, h5⟩ := genStep_eval_agree P alpha beta binder 0
      (genStates P alpha beta binder rand 0) rfl hb2
    refine ⟨?_, ?_, ?_, ?_, ?_⟩
    · rw [nodeValC_zero, hcw]; exact h1
    · rw [nodeValC_zero, hcw]; exact h2
    · rw [nodeValC_zero, hcw]; exact h3
    · rw [nodeValC_zero, hcw]; exact h4
    · rw [nodeValC_zero, nodeValC_zero, hcw]; exact h5
  | cl + 1, hcl => by
    obtain ⟨ih1, ih2, ih3, ih4, ih5⟩ :=
      nodeValC_onpath P alpha beta binder rand hb2 cl (by omega)
    have hcw := genCWs_getD P alpha beta binder rand (cl + 1) hcl
    have hpar : (alpha >>> (P.BITS - (cl + 1) - 1)) >>> 1
        = alpha >>> (P.BITS - cl - 1) := by
      rw [← Nat.shiftRight_add]
      congr 1
      omega
    obtain ⟨h1, h2, h3, h4, h5⟩ := genStep_eval_agree P alpha beta binder (cl + 1)
      (genStates P alpha beta binder rand (cl + 1))
      (genStates_ctrl_xor P alpha beta binder rand (cl + 1)) hb2
    refine ⟨?_, ?_, ?_, ?_, ?_⟩
    · rw [nodeValC_succ, hpar, ih1, ih2, hcw]; exact h1
    · rw [nodeValC_succ, hpar, ih1, ih2, hcw]; exact h2
    · rw [nodeValC_succ, hpar, ih3, ih4, hcw]; exact h3
    · rw [nodeValC_succ, hpar, ih3, ih4, hcw]; exact h4
    · rw [nodeValC_succ, nodeValC_succ, hpar, ih1, ih2, ih3, ih4, hcw]; exact h5

theorem nodeValC_offpath {F : Type} [CommRing F] (P : VidpfParams F) (alpha : Nat)
    (beta : List F) (binder rand : Bytes) (hb2 : beta.length = P.VALUE_LEN)
    (ha : alpha < 2 ^ P.BITS) :
    ∀ cl, cl < P.BITS → ∀ n, n < 2 ^ (cl + 1) →
    n ≠ alpha >>> (P.BITS - cl - 1) →
    nodeValC P binder (genCWs P alpha beta binder rand) (rand.take P.seedSize) false cl n
      = nodeValC P binder (genCWs P alpha beta binder rand) (rand.drop P.seedSize) true
          cl n
  | 0, hcl, n, hn, hne => by
    have hh : P.BITS - (P.BITS - 0 - 1) = 1 := by omega
    have h0 := shiftRight_lt_pow alpha P.BITS (P.BITS - 0 - 1) ha (by omega)
    rw [hh] at h0
    have honp : alpha >>> (P.BITS - 0 - 1) < 2 := by simpa using h0
    have hn2 : n < 2 := hn
    have hmod : n % 2 ≠ (alpha >>> (P.BITS - 0 - 1)) % 2 := by
      generalize hX : alpha >>> (P.BITS - 0 - 1) = X at honp hne
      omega
    have hcw := genCWs_getD P alpha beta binder rand 0 hcl
    have hl := genStep_eval_lose P alpha beta binder 0
      (genStates P alpha beta binder rand 0) rfl n hmod
    rw [nodeValC_zero, nodeValC_zero, hcw]
    exact hl
  | cl + 1, hcl, n, hn, hne => by
    by_cases hp : n >>> 1 = alpha >>> (P.BITS - cl - 1)
    · have honp1 : (alpha >>> (P.BITS - (cl + 1) - 1)) >>> 1
          = alpha >>> (P.BITS - cl - 1) := by
        rw [← Nat.shiftRight_add]
        congr 1
        omega
      have hmod : n % 2 ≠ (alpha >>> (P.BITS - (cl + 1) - 1)) % 2 := by
        intro hc
        apply hne
        have e1 : n = 2 * (n >>> 1) + n % 2 := by
          rw [shiftRight_one_div]
          omega
        have e2 : alpha >>> (P.BITS - (cl + 1) - 1)
            = 2 * ((alpha >>> (P.BITS - (cl + 1) - 1)) >>> 1)
              + (alpha >>> (P.BITS - (cl + 1) - 1)) % 2 := by
          rw [shiftRight_one_div]
          omega
        rw [e1, e2, honp1, hp, hc]
      obtain ⟨ih1, ih2, ih3, ih4, ih5⟩ :=
        nodeValC_onpath P alpha beta binder rand hb2 cl (by omega)
      have hcw := genCWs_getD P alpha beta binder rand (cl + 1) hcl
      have hl := genStep_eval_lose P alpha beta binder (cl + 1)
        (genStates P alpha beta binder rand (cl + 1))
        (genStates_ctrl_xor P alpha beta binder rand (cl + 1)) n hmod
      rw [nodeValC_succ, nodeValC_succ, hp, ih1, ih2, ih3, ih4, hcw]
      exact hl
    · have hpar2 : n >>> 1 < 2 ^ (cl + 1) :=
        shiftRight_lt_pow n (cl + 2) 1 hn (by omega)
      have ihoff := nodeValC_offpath P alpha beta binder rand hb2 ha cl (by omega)
        (n >>> 1) hpar2 hp
      rw [nodeValC_succ, nodeValC_succ, ihoff]

theorem evalNextCore_y_len {F : Type} [CommRing F] (P : VidpfParams F)
    (prevSeed : Bytes) (prevCtrl : Bool) (cw : CW F) (currentLevel node : Nat)
    (binder : Bytes) (hcw : (cw.2.2).length = P.VALUE_LEN) :
    ((evalNextCore P prevSeed prevCtrl cw currentLevel node binder).2.2).length
      = P.VALUE_LEN := by
  unfold evalNextCore
  simp only [List.length_zipWith, P.convert_vec_len, hcw]
  omega

theorem genCW_w_len {F : Type} [CommRing F] (P : VidpfParams F) (alpha : Nat)
    (beta : List F) (binder rand : Bytes) (i : Nat)
    (hb2 : beta.length = P.VALUE_LEN) :
    ((genCW P alpha beta binder rand i).2.2).length = P.VALUE_LEN := by
  unfold genCW genStep
  simp only [List.length_map, vecAdd_length, vecSub_length, P.convert_vec_len, hb2]
  omega

theorem nodeValC_y_len {F : Type} [CommRing F] (P : VidpfParams F) (binder : Bytes)
    (cws : List (CW F)) (initSeed : Bytes) (initCtrl : Bool) (cl n : Nat)
    (hcw : (((cws[cl]?.getD default) : CW F).2.2).length = P.VALUE_LEN) :
    ((nodeValC P binder cws initSeed initCtrl cl n).2.2).length = P.VALUE_LEN := by
  cases cl with
  | zero => rw [nodeValC_zero]; exact evalNextCore_y_len P _ _ _ _ _ _ hcw
  | succ cn => rw [nodeValC_succ]; exact evalNextCore_y_len P _ _ _ _ _ _ hcw

theorem genCW_def {F : Type} [CommRing F] (P : VidpfParams F) (alpha : Nat)
    (beta : List F) (binder rand : Bytes) (i : Nat) :
    genCW P alpha beta binder rand i
      = (genStep P alpha beta binder i (genStates P alpha beta binder rand i)).2.1 :=
  rfl

theorem evalParentV_zero {F : Type} [CommRing F] (P : VidpfParams F) (binder : Bytes)
    (cws : List (CW F)) (initSeed : Bytes) (initCtrl : Bool) (k : Nat) :
    evalParentV P binder cws initSeed initCtrl 0 k = (initSeed, initCtrl) := rfl

theorem evalParentV_succ {F : Type} [CommRing F] (P : VidpfParams F) (binder : Bytes)
    (cws : List (CW F)) (initSeed : Bytes) (initCtrl : Bool) (cl k : Nat) :
    evalParentV P binder cws initSeed initCtrl (cl + 1) k
      = ((nodeValC P binder cws initSeed initCtrl cl (k >>> 1)).1,
          (nodeValC P binder cws initSeed initCtrl cl (k >>> 1)).2.1) := rfl

theorem evalNextFull_proof {F : Type} [CommRing F] (P : VidpfParams F) (s : Bytes)
    (c : Bool) (cw : CW F) (csp : Bytes) (lvl node : Nat) (pi binder : Bytes) :
    (evalNextFull P s c cw csp lvl node pi binder).2.2.2
      = xorB pi (P.hashF
          (if (evalNextCore P s c cw lvl node binder).2.1 then
            xorB pi (xorB (P.hashF (hashInput node lvl
              (evalNextCore P s c cw lvl node binder).1)) csp)
          else xorB pi (P.hashF (hashInput node lvl
            (evalNextCore P s c cw lvl node binder).1)))) := rfl

theorem genCsp_eq {F : Type} [CommRing F] (P : VidpfParams F) (alpha : Nat)
    (beta : List F) (binder rand : Bytes) (i : Nat) :
    genCsp P alpha beta binder rand i
      = xorB
          (P.hashF (hashInput (alpha >>> (P.BITS - i - 1)) i
            (genStates P alpha beta binder rand (i + 1)).1.1))
          (P.hashF (hashInput (alpha >>> (P.BITS - i - 1)) i
            (genStates P alpha beta binder rand (i + 1)).1.2)) := by
  show (genStep P alpha beta binder i (genStates P alpha beta binder rand i)).2.2 = _
  have hgs : genStates P alpha beta binder rand (i + 1)
      = (genStep P alpha beta binder i (genStates P alpha beta binder rand i)).1 := rfl
  rw [hgs]
  unfold genStep
  rcases Nat.mod_two_eq_zero_or_one (alpha >>> (P.BITS - i - 1)) with hb | hb <;>
    simp only [hb, pick2, pickB, correctF2, correctBytes,
      show ((0 : Nat) == 1) = false from rfl, show ((1 : Nat) == 1) = true from rfl,
      show (xor true true) = false from rfl, if_true, if_pos rfl,
      if_neg Bool.false_ne_true, if_neg (show ¬(1 = 0) by decide), Bool.xor_false]

theorem entry_onpath_core {F : Type} [CommRing F] (P : VidpfParams F) (alpha : Nat)
    (beta : List F) (binder rand : Bytes) (hb2 : beta.length = P.VALUE_LEN) (i : Nat)
    (pi : Bytes) :
    (evalNextFull P (genStates P alpha beta binder rand i).1.1
        (genStates P alpha beta binder rand i).2.1 (genCW P alpha beta binder rand i)
        (genCsp P alpha beta binder rand i) i (alpha >>> (P.BITS - i - 1)) pi
        binder).2.2.2
      = (evalNextFull P (genStates P alpha beta binder rand i).1.2
          (genStates P alpha beta binder rand i).2.2 (genCW P alpha beta binder rand i)
          (genCsp P alpha beta binder rand i) i (alpha >>> (P.BITS - i - 1)) pi
          binder).2.2.2 := by
  obtain ⟨h1, h2, h3, h4, h5⟩ := genStep_eval_agree P alpha beta binder i
    (genStates P alpha beta binder rand i)
    (genStates_ctrl_xor P alpha beta binder rand i) hb2
  have hgs : (genStep P alpha beta binder i (genStates P alpha beta binder rand i)).1
      = genStates P alpha beta binder rand (i + 1) := rfl
  rw [genCsp_eq, genCW_def, evalNextFull_proof, evalNextFull_proof, h1, h2, h3, h4,
    hgs]
  have hxor := genStates_ctrl_xor P alpha beta binder rand (i + 1)
  have hAB : (P.hashF (hashInput (alpha >>> (P.BITS - i - 1)) i
        (genStates P alpha beta binder rand (i + 1)).1.1)).length
      = (P.hashF (hashInput (alpha >>> (P.BITS - i - 1)) i
          (genStates P alpha beta binder rand (i + 1)).1.2)).length := by
    rw [P.hash_len, P.hash_len]
  cases hc1 : (genStates P alpha beta binder rand (i + 1)).2.2
  · have hc0 : (genStates P alpha beta binder rand (i + 1)).2.1 = true := by
      rw [hc1] at hxor
      simpa using hxor
    rw [hc0, if_pos (rfl : true = true), if_neg Bool.false_ne_true,
      xorB_xorB_cancel_left _ _ hAB]
  · have hc0 : (genStates P alpha beta binder rand (i + 1)).2.1 = false := by
      rw [hc1] at hxor
      simpa using hxor
    rw [hc0, if_neg Bool.false_ne_true, if_pos (rfl : true = true),
      xorB_xorB_cancel_right _ _ hAB]

theorem entry_lose_core {F : Type} [CommRing F] (P : VidpfParams F) (alpha : Nat)
    (beta : List F) (binder rand : Bytes) (i k : Nat)
    (hmod : k % 2 ≠ (alpha >>> (P.BITS - i - 1)) % 2) (pi : Bytes) :
    (evalNextFull P (genStates P alpha beta binder rand i).1.1
        (genStates P alpha beta binder rand i).2.1 (genCW P alpha beta binder rand i)
        (genCsp P alpha beta binder rand i) i k pi binder).2.2.2
      = (evalNextFull P (genStates P alpha beta binder rand i).1.2
          (genStates P alpha beta binder rand i).2.2 (genCW P alpha beta binder rand i)
          (genCsp P alpha beta binder rand i) i k pi binder).2.2.2 := by
  have hc := genStep_eval_lose P alpha beta binder i
    (genStates P alpha beta binder rand i)
    (genStates_ctrl_xor P alpha beta binder rand i) k hmod
  rw [genCW_def, evalNextFull_proof, evalNextFull_proof, hc]

theorem entryProof_pair {F : Type} [CommRing F] (P : VidpfParams F) (alpha : Nat)
    (beta : List F) (binder rand : Bytes) (hb2 : beta.length = P.VALUE_LEN)
    (ha : alpha < 2 ^ P.BITS) :
    ∀ cl, cl < P.BITS → ∀ k, k < 2 ^ (cl + 1) → ∀ pi : Bytes,
    (evalNextFull P
        (evalParentV P binder (genCWs P alpha beta binder rand) (rand.take P.seedSize)
          false cl k).1
        (evalParentV P binder (genCWs P alpha beta binder rand) (rand.take P.seedSize)
          false cl k).2
        (genCW P alpha beta binder rand cl) (genCsp P alpha beta binder rand cl) cl k
        pi binder).2.2.2
      = (evalNextFull P
          (evalParentV P binder (genCWs P alpha beta binder rand)
            (rand.drop P.seedSize) true cl k).1
          (evalParentV P binder (genCWs P alpha beta binder rand)
            (rand.drop P.seedSize) true cl k).2
          (genCW P alpha beta binder rand cl) (genCsp P alpha beta binder rand cl) cl k
          pi binder).2.2.2 := by
  intro cl
  cases cl with
  | zero =>
    intro hcl k hk pi
    show (evalNextFull P (genStates P alpha beta binder rand 0).1.1
        (genStates P alpha beta binder rand 0).2.1 (genCW P alpha beta binder rand 0)
        (genCsp P alpha beta binder rand 0) 0 k pi binder).2.2.2
      = (evalNextFull P (genStates P alpha beta binder rand 0).1.2
          (genStates P alpha beta binder rand 0).2.2 (genCW P alpha beta binder rand 0)
          (genCsp P alpha beta binder rand 0) 0 k pi binder).2.2.2
    by_cases hk0 : k = alpha >>> (P.BITS - 0 - 1)
    · rw [hk0]
      exact entry_onpath_core P alpha beta binder rand hb2 0 pi
    · have hh : P.BITS - (P.BITS - 0 - 1) = 1 := by omega
      have h0 := shiftRight_lt_pow alpha P.BITS (P.BITS - 0 - 1) ha (by omega)
      rw [hh] at h0
      have honp : alpha >>> (P.BITS - 0 - 1) < 2 := by simpa using h0
      have hn2 : k < 2 := hk
      have hmod : k % 2 ≠ (alpha >>> (P.BITS - 0 - 1)) % 2 := by
        generalize hX : alpha >>> (P.BITS - 0 - 1) = X at honp hk0
        omega
      exact entry_lose_core P alpha beta binder rand 0 k hmod pi
  | succ cn =>
    intro hcl k hk pi
    rw [evalParentV_succ, evalParentV_succ]
    by_cases hp : k >>> 1 = alpha >>> (P.BITS - cn - 1)
    · obtain ⟨ih1, ih2, ih3, ih4, ih5⟩ :=
        nodeValC_onpath P alpha beta binder rand hb2 cn (by omega)
      rw [hp, ih1, ih2, ih3, ih4]
      by_cases hk0 : k = alpha >>> (P.BITS - (cn + 1) - 1)
      · rw [hk0]
        exact entry_onpath_core P alpha beta binder rand hb2 (cn + 1) pi
      · have honp1 : (alpha >>> (P.BITS - (cn + 1) - 1)) >>> 1
            = alpha >>> (P.BITS - cn - 1) := by
          rw [← Nat.shiftRight_add]
          congr 1
          omega
        have hmod : k % 2 ≠ (alpha >>> (P.BITS - (cn + 1) - 1)) % 2 := by
          intro hc
          apply hk0
          have e1 : k = 2 * (k >>> 1) + k % 2 := by
            rw [shiftRight_one_div]
            omega
          have e2 : alpha >>> (P.BITS - (cn + 1) - 1)
              = 2 * ((alpha >>> (P.BITS - (cn + 1) - 1)) >>> 1)
                + (alpha >>> (P.BITS - (cn + 1) - 1)) % 2 := by
            rw [shiftRight_one_div]
            omega
          rw [e1, e2, honp1, hp, hc]
        exact entry_lose_core P alpha beta binder rand (cn + 1) k hmod pi
    · have hpar2 : k >>> 1 < 2 ^ (cn + 1) :=
        shiftRight_lt_pow k (cn + 2) 1 hk (by omega)
      rw [nodeValC_offpath P alpha beta binder rand hb2 ha cn (by omega) (k >>> 1)
        hpar2 hp]

theorem runState_succ {F : Type} [CommRing F] (P : VidpfParams F) (binder : Bytes)
    (cws : List (CW F)) (initSeed : Bytes) (initCtrl : Bool) (level pfx cl : Nat) :
    runState P binder cws initSeed initCtrl level pfx (cl + 1)
      = ((nodeValC P binder cws initSeed initCtrl cl (pfx >>> (level - cl))).1,
          (nodeValC P binder cws initSeed initCtrl cl (pfx >>> (level - cl))).2.1) :=
  rfl

theorem runState_eq_parentV {F : Type} [CommRing F] (P : VidpfParams F)
    (binder : Bytes) (cws : List (CW F)) (initSeed : Bytes) (initCtrl : Bool)
    (level pfx cl k : Nat) (hcl : cl ≤ level)
    (hk : k = pfx >>> (level - cl) ∨ k = (pfx >>> (level - cl)) ^^^ 1) :
    runState P binder cws initSeed initCtrl level pfx cl
      = evalParentV P binder cws initSeed initCtrl cl k := by
  cases cl with
  | zero => rfl
  | succ cn =>
    have hpar : k >>> 1 = pfx >>> (level - cn) := by
      rcases hk with rfl | rfl
      · exact node_parent level pfx cn hcl
      · rw [xor_one_shiftRight]
        exact node_parent level pfx cn hcl
    rw [runState_succ, evalParentV_succ, hpar]

theorem pairStep {F : Type} [CommRing F] (P : VidpfParams F) (alpha : Nat)
    (beta : List F) (binder rand : Bytes) (hb2 : beta.length = P.VALUE_LEN)
    (ha : alpha < 2 ^ P.BITS) (level pfx cl : Nat) (hcl : cl ≤ level)
    (hlev : level < P.BITS) (hpfx : pfx < 2 ^ (level + 1)) (m0 m1 : Memo F)
    (s0 : Bytes) (c0 : Bool) (s1 : Bytes) (c1 : Bool) (pi : Bytes)
    (hmp0 : memoPure P binder (genCWs P alpha beta binder rand)
      (rand.take P.seedSize) false m0)
    (hmp1 : memoPure P binder (genCWs P alpha beta binder rand)
      (rand.drop P.seedSize) true m1)
    (hpair : pairMemo m0 m1)
    (hr0 : (s0, c0) = runState P binder (genCWs P alpha beta binder rand)
      (rand.take P.seedSize) false level pfx cl)
    (hr1 : (s1, c1) = runState P binder (genCWs P alpha beta binder rand)
      (rand.drop P.seedSize) true level pfx cl) :
    ∃ m0' m1' pi',
      evalStep P binder (genCWs P alpha beta binder rand)
          (genCsps P alpha beta binder rand) level pfx cl (m0, s0, c0, pi)
        = .ok (m0', (runState P binder (genCWs P alpha beta binder rand)
            (rand.take P.seedSize) false level pfx (cl + 1)).1,
            (runState P binder (genCWs P alpha beta binder rand)
              (rand.take P.seedSize) false level pfx (cl + 1)).2, pi') ∧
      evalStep P binder (genCWs P alpha beta binder rand)
          (genCsps P alpha beta binder rand) level pfx cl (m1, s1, c1, pi)
        = .ok (m1', (runState P binder (genCWs P alpha beta binder rand)
            (rand.drop P.seedSize) true level pfx (cl + 1)).1,
            (runState P binder (genCWs P alpha beta binder rand)
              (rand.drop P.seedSize) true level pfx (cl + 1)).2, pi') ∧
      memoPure P binder (genCWs P alpha beta binder rand) (rand.take P.seedSize)
        false m0' ∧
      memoPure P binder (genCWs P alpha beta binder rand) (rand.drop P.seedSize)
        true m1' ∧
      pairMemo m0' m1' := by
  have hlenw : level < (genCWs P alpha beta binder rand).length := by
    rw [genCWs_length]
    omega
  have hlens : level < (genCsps P alpha beta binder rand).length := by
    rw [genCsps_length]
    omega
  obtain ⟨m0', pi0', hok0, hmp0', hfr0, hnode0, hsib0, e0, he0, hpi0⟩ :=
    evalStep_ok P binder (genCWs P alpha beta binder rand)
      (genCsps P alpha beta binder rand) (rand.take P.seedSize) false level pfx cl
      m0 s0 c0 pi hcl hlenw hlens hmp0 hr0
  obtain ⟨m1', pi1', hok1, hmp1', hfr1, hnode1, hsib1, e1, he1, hpi1⟩ :=
    evalStep_ok P binder (genCWs P alpha beta binder rand)
      (genCsps P alpha beta binder rand) (rand.drop P.seedSize) true level pfx cl
      m1 s1 c1 pi hcl hlenw hlens hmp1 hr1
  have hnode_lt : pfx >>> (level - cl) < 2 ^ (cl + 1) := by
    have h1 := shiftRight_lt_pow pfx (level + 1) (level - cl) hpfx (by omega)
    have h2 : level + 1 - (level - cl) = cl + 1 := by omega
    rwa [h2] at h1
  have hsib_lt : (pfx >>> (level - cl)) ^^^ 1 < 2 ^ (cl + 1) := by
    have h2p : (2 : Nat) ^ (cl + 1) = 2 * 2 ^ cl := by
      rw [pow_succ]
      ring
    generalize hg : pfx >>> (level - cl) = nd at hnode_lt ⊢
    have hx := xor_one_char nd
    omega
  have hins : ∀ k, (k = pfx >>> (level - cl) ∨ k = (pfx >>> (level - cl)) ^^^ 1) →
      k < 2 ^ (cl + 1) →
      (evalNextFull P s0 c0 ((genCWs P alpha beta binder rand)[cl]?.getD default)
          ((genCsps P alpha beta binder rand)[cl]?.getD default) cl k pi
          binder).2.2.2
        = (evalNextFull P s1 c1
            ((genCWs P alpha beta binder rand)[cl]?.getD default)
            ((genCsps P alpha beta binder rand)[cl]?.getD default) cl k pi
            binder).2.2.2 := by
    intro k hk hklt
    have hclb : cl < P.BITS := by omega
    have hp0 : (s0, c0) = evalParentV P binder (genCWs P alpha beta binder rand)
        (rand.take P.seedSize) false cl k := by
      rw [hr0]
      exact runState_eq_parentV P binder _ _ _ level pfx cl k hcl hk
    have hp1 : (s1, c1) = evalParentV P binder (genCWs P alpha beta binder rand)
        (rand.drop P.seedSize) true cl k := by
      rw [hr1]
      exact runState_eq_parentV P binder _ _ _ level pfx cl k hcl hk
    have hs0 := congrArg Prod.fst hp0
    have hc0 := congrArg Prod.snd hp0
    have hs1 := congrArg Prod.fst hp1
    have hc1 := congrArg Prod.snd hp1
    simp only at hs0 hc0 hs1 hc1
    rw [hs0, hc0, hs1, hc1, genCWs_getD P alpha beta binder rand cl hclb,
      genCsps_getD P alpha beta binder rand cl hclb]
    exact entryProof_pair P alpha beta binder rand hb2 ha cl hclb k hklt pi
  have hpairnew : pairMemo m0' m1' := by
    constructor
    · intro k
      by_cases hk1 : k = (pfx >>> (level - cl), cl)
      · have ha0 : (m0' k).isSome = true := by
          rw [hk1, hnode0]
          by_cases h : (m0 (pfx >>> (level - cl), cl)).isSome = true
          · rw [if_pos h]
            exact h
          · rw [if_neg h]
            rfl
        have ha1 : (m1' k).isSome = true := by
          rw [hk1, hnode1]
          by_cases h : (m1 (pfx >>> (level - cl), cl)).isSome = true
          · rw [if_pos h]
            exact h
          · rw [if_neg h]
            rfl
        rw [ha0, ha1]
      · by_cases hk2 : k = ((pfx >>> (level - cl)) ^^^ 1, cl)
        · have ha0 : (m0' k).isSome = true := by
            rw [hk2, hsib0]
            by_cases h : (m0 ((pfx >>> (level - cl)) ^^^ 1, cl)).isSome = true
            · rw [if_pos h]
              exact h
            · rw [if_neg h]
              rfl
          have ha1 : (m1' k).isSome = true := by
            rw [hk2, hsib1]
            by_cases h : (m1 ((pfx >>> (level - cl)) ^^^ 1, cl)).isSome = true
            · rw [if_pos h]
              exact h
            · rw [if_neg h]
              rfl
          rw [ha0, ha1]
        · rw [hfr0 k hk1 hk2, hfr1 k hk1 hk2]
          exact hpair.1 k
    · intro k e0' e1' h0' h1'
      by_cases hk1 : k = (pfx >>> (level - cl), cl)
      · rw [hk1] at h0' h1'
        rw [hnode0] at h0'
        rw [hnode1] at h1'
        by_cases h : (m0 (pfx >>> (level - cl), cl)).isSome = true
        · have h' := h
          rw [hpair.1 _] at h'
          rw [if_pos h] at h0'
          rw [if_pos h'] at h1'
          exact hpair.2 _ _ _ h0' h1'
        · have h' := h
          rw [hpair.1 _] at h'
          rw [if_neg h] at h0'
          rw [if_neg h'] at h1'
          injection h0' with hh0
          injection h1' with hh1
          rw [← hh0, ← hh1]
          exact hins _ (Or.inl rfl) hnode_lt
      · by_cases hk2 : k = ((pfx >>> (level - cl)) ^^^ 1, cl)
        · rw [hk2] at h0' h1'
          rw [hsib0] at h0'
          rw [hsib1] at h1'
          by_cases h : (m0 ((pfx >>> (level - cl)) ^^^ 1, cl)).isSome = true
          · have h' := h
            rw [hpair.1 _] at h'
            rw [if_pos h] at h0'
            rw [if_pos h'] at h1'
            exact hpair.2 _ _ _ h0' h1'
          · have h' := h
            rw [hpair.1 _] at h'
            rw [if_neg h] at h0'
            rw [if_neg h'] at h1'
            injection h0' with hh0
            injection h1' with hh1
            rw [← hh0, ← hh1]
            exact hins _ (Or.inr rfl) hsib_lt
        · rw [hfr0 k hk1 hk2] at h0'
          rw [hfr1 k hk1 hk2] at h1'
          exact hpair.2 _ _ _ h0' h1'
  have hpieq : pi0' = pi1' := by
    rw [hpi0, hpi1]
    exact hpairnew.2 _ _ _ he0 he1
  refine ⟨m0', m1', pi0', hok0, ?_, hmp0', hmp1', hpairnew⟩
  rw [hpieq]
  exact hok1

theorem pairWalk {F : Type} [CommRing F] (P : VidpfParams F) (alpha : Nat)
    (beta : List F) (binder rand : Bytes) (hb2 : beta.length = P.VALUE_LEN)
    (ha : alpha < 2 ^ P.BITS) (level pfx : Nat) (hlev : level < P.BITS)
    (hpfx : pfx < 2 ^ (level + 1)) :
    ∀ (cnt cl : Nat) (m0 m1 : Memo F) (s0 : Bytes) (c0 : Bool) (s1 : Bytes)
    (c1 : Bool) (pi : Bytes),
    cl + cnt = level + 1 →
    memoPure P binder (genCWs P alpha beta binder rand) (rand.take P.seedSize)
      false m0 →
    memoPure P binder (genCWs P alpha beta binder rand) (rand.drop P.seedSize)
      true m1 →
    pairMemo m0 m1 →
    (s0, c0) = runState P binder (genCWs P alpha beta binder rand)
      (rand.take P.seedSize) false level pfx cl →
    (s1, c1) = runState P binder (genCWs P alpha beta binder rand)
      (rand.drop P.seedSize) true level pfx cl →
    ∃ m0' s0' c0' m1' s1' c1' pi',
      walkLevels P binder (genCWs P alpha beta binder rand)
          (genCsps P alpha beta binder rand) level pfx cnt cl (m0, s0, c0, pi)
        = .ok (m0', s0', c0', pi') ∧
      walkLevels P binder (genCWs P alpha beta binder rand)
          (genCsps P alpha beta binder rand) level pfx cnt cl (m1, s1, c1, pi)
        = .ok (m1', s1', c1', pi') ∧
      memoPure P binder (genCWs P alpha beta binder rand) (rand.take P.seedSize)
        false m0' ∧
      memoPure P binder (genCWs P alpha beta binder rand) (rand.drop P.seedSize)
        true m1' ∧
      pairMemo m0' m1'
  | 0, cl, m0, m1, s0, c0, s1, c1, pi, hcnt, hmp0, hmp1, hpair, hr0, hr1 =>
    ⟨m0, s0, c0, m1, s1, c1, pi, rfl, rfl, hmp0, hmp1, hpair⟩
  | cnt + 1, cl, m0, m1, s0, c0, s1, c1, pi, hcnt, hmp0, hmp1, hpair, hr0, hr1 => by
    obtain ⟨m0x, m1x, pix, hok0, hok1, hmp0x, hmp1x, hpairx⟩ :=
      pairStep P alpha beta binder rand hb2 ha level pfx cl (by omega) hlev hpfx
        m0 m1 s0 c0 s1 c1 pi hmp0 hmp1 hpair hr0 hr1
    obtain ⟨m0', s0', c0', m1', s1', c1', pi', hw0, hw1, hmp0', hmp1', hpair'⟩ :=
      pairWalk P alpha beta binder rand hb2 ha level pfx hlev hpfx cnt (cl + 1)
        m0x m1x _ _ _ _ pix (by omega) hmp0x hmp1x hpairx rfl rfl
    refine ⟨m0', s0', c0', m1', s1', c1', pi', ?_, ?_, hmp0', hmp1', hpair'⟩
    · rw [walkLevels, hok0]
      simp only [exceptBind_ok]
      exact hw0
    · rw [walkLevels, hok1]
      simp only [exceptBind_ok]
      exact hw1

theorem pairMemo_empty {F : Type} :
    pairMemo (F := F) (fun _ => none) (fun _ => none) :=
  ⟨fun _ => rfl, fun _ _ _ h => Option.noConfusion h⟩

theorem pairPrefixLoop {F : Type} [CommRing F] (P : VidpfParams F) (alpha : Nat)
    (beta : List F) (binder rand : Bytes) (hb2 : beta.length = P.VALUE_LEN)
    (ha : alpha < 2 ^ P.BITS) (level : Nat) (hlev : level < P.BITS) :
    ∀ (prefixes : List Nat) (m0 m1 : Memo F) (pi : Bytes),
    (∀ x ∈ prefixes, x < 2 ^ (level + 1)) →
    memoPure P binder (genCWs P alpha beta binder rand) (rand.take P.seedSize)
      false m0 →
    memoPure P binder (genCWs P alpha beta binder rand) (rand.drop P.seedSize)
      true m1 →
    pairMemo m0 m1 →
    ∃ m0' m1' pi',
      evalPrefixLoop P binder (genCWs P alpha beta binder rand)
          (genCsps P alpha beta binder rand) level (rand.take P.seedSize) false
          prefixes (m0, pi)
        = .ok (m0', pi') ∧
      evalPrefixLoop P binder (genCWs P alpha beta binder rand)
          (genCsps P alpha beta binder rand) level (rand.drop P.seedSize) true
          prefixes (m1, pi)
        = .ok (m1', pi') ∧
      memoPure P binder (genCWs P alpha beta binder rand) (rand.take P.seedSize)
        false m0' ∧
      memoPure P binder (genCWs P alpha beta binder rand) (rand.drop P.seedSize)
        true m1' ∧
      pairMemo m0' m1'
  | [], m0, m1, pi, hbound, hmp0, hmp1, hpair =>
    ⟨m0, m1, pi, rfl, rfl, hmp0, hmp1, hpair⟩
  | pfx :: rest, m0, m1, pi, hbound, hmp0, hmp1, hpair => by
    have hb : pfx < 2 ^ (level + 1) := hbound pfx (by simp)
    obtain ⟨m0x, s0x, c0x, m1x, s1x, c1x, pix, hw0, hw1, hmp0x, hmp1x, hpairx⟩ :=
      pairWalk P alpha beta binder rand hb2 ha level pfx hlev hb (level + 1) 0
        m0 m1 (rand.take P.seedSize) false (rand.drop P.seedSize) true pi
        (by omega) hmp0 hmp1 hpair rfl rfl
    obtain ⟨m0', m1', pi', hl0, hl1, hmp0', hmp1', hpair'⟩ :=
      pairPrefixLoop P alpha beta binder rand hb2 ha level hlev rest m0x m1x pix
        (fun x hx => hbound x (by simp [hx])) hmp0x hmp1x hpairx
    refine ⟨m0', m1', pi', ?_, ?_, hmp0', hmp1', hpair'⟩
    · rw [evalPrefixLoop, if_neg (by omega), hw0]
      simp only [exceptBind_ok]
      exact hl0
    · rw [evalPrefixLoop, if_neg (by omega), hw1]
      simp only [exceptBind_ok]
      exact hl1

theorem xor_one_invol (n : Nat) : (n ^^^ 1) ^^^ 1 = n := by
  rw [Nat.xor_assoc]
  simp

theorem seg_vec_eq {F : Type} [CommRing F] (P : VidpfParams F) (alpha : Nat)
    (beta : List F) (binder rand : Bytes) (hb2 : beta.length = P.VALUE_LEN)
    (ha : alpha < 2 ^ P.BITS) (cl : Nat) (hcl1 : cl + 1 < P.BITS) (u v : Nat)
    (hu : u < 2 ^ (cl + 1)) (hv : v >>> 1 = u) (hvb : v < 2 ^ (cl + 2)) :
    vecSub
      (nodeValC P binder (genCWs P alpha beta binder rand) (rand.take P.seedSize)
        false cl u).2.2
      (vecAdd
        (nodeValC P binder (genCWs P alpha beta binder rand) (rand.take P.seedSize)
          false (cl + 1) v).2.2
        (nodeValC P binder (genCWs P alpha beta binder rand) (rand.take P.seedSize)
          false (cl + 1) (v ^^^ 1)).2.2)
      = vecSub
          (nodeValC P binder (genCWs P alpha beta binder rand)
            (rand.drop P.seedSize) true cl u).2.2
          (vecAdd
            (nodeValC P binder (genCWs P alpha beta binder rand)
              (rand.drop P.seedSize) true (cl + 1) v).2.2
            (nodeValC P binder (genCWs P alpha beta binder rand)
              (rand.drop P.seedSize) true (cl + 1) (v ^^^ 1)).2.2) := by
  have hcwl : (((genCWs P alpha beta binder rand)[cl]?.getD default).2.2).length
      = P.VALUE_LEN := by
    rw [genCWs_getD P alpha beta binder rand cl (by omega)]
    exact genCW_w_len P alpha beta binder rand cl hb2
  have hcwl1 : (((genCWs P alpha beta binder rand)[cl + 1]?.getD default).2.2).length
      = P.VALUE_LEN := by
    rw [genCWs_getD P alpha beta binder rand (cl + 1) hcl1]
    exact genCW_w_len P alpha beta binder rand (cl + 1) hb2
  have hvb1 : v ^^^ 1 < 2 ^ (cl + 2) := by
    have h2p : (2 : Nat) ^ (cl + 2) = 2 * 2 ^ (cl + 1) := by
      rw [pow_succ]
      ring
    have hx := xor_one_char v
    omega
  have hvs : (v ^^^ 1) >>> 1 = u := by
    rw [xor_one_shiftRight]
    exact hv
  have honp1 : (alpha >>> (P.BITS - (cl + 1) - 1)) >>> 1
      = alpha >>> (P.BITS - cl - 1) := by
    rw [← Nat.shiftRight_add]
    congr 1
    omega
  by_cases hop : u = alpha >>> (P.BITS - cl - 1)
  · subst hop
    by_cases hvo : v = alpha >>> (P.BITS - (cl + 1) - 1)
    · have hso : (alpha >>> (P.BITS - (cl + 1) - 1)) ^^^ 1
          ≠ alpha >>> (P.BITS - (cl + 1) - 1) := xor_one_ne _
      have hvb1a : (alpha >>> (P.BITS - (cl + 1) - 1)) ^^^ 1 < 2 ^ (cl + 2) := by
        rw [← hvo]
        exact hvb1
      rw [hvo]
      obtain ⟨_, _, _, _, hpy⟩ :=
        nodeValC_onpath P alpha beta binder rand hb2 cl (by omega)
      obtain ⟨_, _, _, _, hcy⟩ :=
        nodeValC_onpath P alpha beta binder rand hb2 (cl + 1) hcl1
      have hsy := nodeValC_offpath P alpha beta binder rand hb2 ha (cl + 1) hcl1
        ((alpha >>> (P.BITS - (cl + 1) - 1)) ^^^ 1) hvb1a hso
      have hp' := eq_vecAdd_of_vecSub _ _ _ (by
        rw [nodeValC_y_len P binder _ _ _ cl _ hcwl,
          nodeValC_y_len P binder _ _ _ cl _ hcwl]) hpy
      have hc' := eq_vecAdd_of_vecSub _ _ _ (by
        rw [nodeValC_y_len P binder _ _ _ (cl + 1) _ hcwl1,
          nodeValC_y_len P binder _ _ _ (cl + 1) _ hcwl1]) hcy
      rw [hp', hc', hsy]
      exact vec_shift_cancel_left _ _ _ _
        (by rw [nodeValC_y_len P binder _ _ _ cl _ hcwl,
          nodeValC_y_len P binder _ _ _ (cl + 1) _ hcwl1])
        (by rw [nodeValC_y_len P binder _ _ _ (cl + 1) _ hcwl1,
          nodeValC_y_len P binder _ _ _ (cl + 1) _ hcwl1])
        (by rw [nodeValC_y_len P binder _ _ _ (cl + 1) _ hcwl1, hb2])
    · have hd1 : v / 2 = (alpha >>> (P.BITS - (cl + 1) - 1)) / 2 := by
        rw [← shiftRight_one_div, ← shiftRight_one_div, hv, honp1]
      have hvo1 : v ^^^ 1 = alpha >>> (P.BITS - (cl + 1) - 1) := by
        have hxv := xor_one_char v
        generalize hgo : alpha >>> (P.BITS - (cl + 1) - 1) = o at hd1 hvo ⊢
        omega
      rw [hvo1]
      obtain ⟨_, _, _, _, hpy⟩ :=
        nodeValC_onpath P alpha beta binder rand hb2 cl (by omega)
      obtain ⟨_, _, _, _, hcy⟩ :=
        nodeValC_onpath P alpha beta binder rand hb2 (cl + 1) hcl1
      have hsy := nodeValC_offpath P alpha beta binder rand hb2 ha (cl + 1) hcl1
        v hvb hvo
      have hp' := eq_vecAdd_of_vecSub _ _ _ (by
        rw [nodeValC_y_len P binder _ _ _ cl _ hcwl,
          nodeValC_y_len P binder _ _ _ cl _ hcwl]) hpy
      have hc' := eq_vecAdd_of_vecSub _ _ _ (by
        rw [nodeValC_y_len P binder _ _ _ (cl + 1) _ hcwl1,
          nodeValC_y_len P binder _ _ _ (cl + 1) _ hcwl1]) hcy
      rw [hp', hc', hsy]
      exact vec_shift_cancel_right _ _ _ _
        (by rw [nodeValC_y_len P binder _ _ _ cl _ hcwl,
          nodeValC_y_len P binder _ _ _ (cl + 1) _ hcwl1])
        (by rw [nodeValC_y_len P binder _ _ _ (cl + 1) _ hcwl1,
          nodeValC_y_len P binder _ _ _ (cl + 1) _ hcwl1])
        (by rw [nodeValC_y_len P binder _ _ _ (cl + 1) _ hcwl1, hb2])
  · have hvno : v ≠ alpha >>> (P.BITS - (cl + 1) - 1) := by
      intro hc
      apply hop
      rw [← hv, hc, honp1]
    have hsno : v ^^^ 1 ≠ alpha >>> (P.BITS - (cl + 1) - 1) := by
      intro hc
      apply hop
      rw [← hvs, hc, honp1]
    rw [nodeValC_offpath P alpha beta binder rand hb2 ha cl (by omega) u hu hop,
      nodeValC_offpath P alpha beta binder rand hb2 ha (cl + 1) hcl1 v hvb hvno,
      nodeValC_offpath P alpha beta binder rand hb2 ha (cl + 1) hcl1 (v ^^^ 1)
        hvb1 hsno]

theorem pathSegment_sync {F : Type} [CommRing F] (P : VidpfParams F) (alpha : Nat)
    (beta : List F) (binder rand : Bytes) (hb2 : beta.length = P.VALUE_LEN)
    (ha : alpha < 2 ^ P.BITS) (level : Nat) (hlev : level < P.BITS) (pfx : Nat)
    (hpfx : pfx < 2 ^ (level + 1)) (m0 m1 : Memo F)
    (hmp0 : memoPure P binder (genCWs P alpha beta binder rand)
      (rand.take P.seedSize) false m0)
    (hmp1 : memoPure P binder (genCWs P alpha beta binder rand)
      (rand.drop P.seedSize) true m1)
    (hcov0 : ∀ j, j ≤ level → (m0 (pfx >>> (level - j), j)).isSome = true ∧
      (m0 ((pfx >>> (level - j)) ^^^ 1, j)).isSome = true)
    (hcov1 : ∀ j, j ≤ level → (m1 (pfx >>> (level - j), j)).isSome = true ∧
      (m1 ((pfx >>> (level - j)) ^^^ 1, j)).isSome = true) :
    ∀ (cnt cl : Nat), cl + cnt = level →
    ∃ bs, pathSegment P m0 level pfx cnt cl = .ok bs ∧
      pathSegment P m1 level pfx cnt cl = .ok bs
  | 0, cl, _ => ⟨[], rfl, rfl⟩
  | cnt + 1, cl, hsum => by
    have hcl : cl ≤ level := by omega
    have hpar : (pfx >>> (level - (cl + 1))) >>> 1 = pfx >>> (level - cl) :=
      node_parent level pfx cl (by omega)
    have hnode_lt : pfx >>> (level - cl) < 2 ^ (cl + 1) := by
      have h1 := shiftRight_lt_pow pfx (level + 1) (level - cl) hpfx (by omega)
      have h2 : level + 1 - (level - cl) = cl + 1 := by omega
      rwa [h2] at h1
    have hchild_lt : pfx >>> (level - (cl + 1)) < 2 ^ (cl + 2) := by
      have h1 := shiftRight_lt_pow pfx (level + 1) (level - (cl + 1)) hpfx (by omega)
      have h2 : level + 1 - (level - (cl + 1)) = cl + 2 := by omega
      rwa [h2] at h1
    obtain ⟨hp0, _⟩ := hcov0 cl hcl
    obtain ⟨hc0a, hc0b⟩ := hcov0 (cl + 1) (by omega)
    obtain ⟨hp1, _⟩ := hcov1 cl hcl
    obtain ⟨hc1a, hc1b⟩ := hcov1 (cl + 1) (by omega)
    obtain ⟨ep0, hep0⟩ := Option.isSome_iff_exists.mp hp0
    obtain ⟨ep1, hep1⟩ := Option.isSome_iff_exists.mp hp1
    obtain ⟨ec0, hec0⟩ := Option.isSome_iff_exists.mp hc0a
    obtain ⟨es0, hes0⟩ := Option.isSome_iff_exists.mp hc0b
    obtain ⟨ec1, hec1⟩ := Option.isSome_iff_exists.mp hc1a
    obtain ⟨es1, hes1⟩ := Option.isSome_iff_exists.mp hc1b
    obtain ⟨bs, hbs0, hbs1⟩ := pathSegment_sync P alpha beta binder rand hb2 ha level
      hlev pfx hpfx m0 m1 hmp0 hmp1 hcov0 hcov1 cnt (cl + 1) (by omega)
    have hyp0 := congrArg (fun z => z.2.2) (hmp0 _ _ _ hep0)
    have hyp1 := congrArg (fun z => z.2.2) (hmp1 _ _ _ hep1)
    have hyc0 := congrArg (fun z => z.2.2) (hmp0 _ _ _ hec0)
    have hyc1 := congrArg (fun z => z.2.2) (hmp1 _ _ _ hec1)
    have hys0 := congrArg (fun z => z.2.2) (hmp0 _ _ _ hes0)
    have hys1 := congrArg (fun z => z.2.2) (hmp1 _ _ _ hes1)
    simp only at hyp0 hyp1 hyc0 hyc1 hys0 hys1
    rcases children_eq (pfx >>> (level - cl)) (pfx >>> (level - (cl + 1))) hpar with
      ⟨hl, hr⟩ | ⟨hl, hr⟩
    · have hv : vecSub ep0.2.2.1 (vecAdd ec0.2.2.1 es0.2.2.1)
          = vecSub ep1.2.2.1 (vecAdd ec1.2.2.1 es1.2.2.1) := by
        rw [hyp0, hyp1, hyc0, hyc1, hys0, hys1]
        exact seg_vec_eq P alpha beta binder rand hb2 ha cl (by omega)
          (pfx >>> (level - cl)) (pfx >>> (level - (cl + 1))) hnode_lt hpar hchild_lt
      refine ⟨P.encodeVec (vecSub ep0.2.2.1 (vecAdd ec0.2.2.1 es0.2.2.1)) ++ bs,
        ?_, ?_⟩
      · rw [pathSegment]
        unfold getMemo
        rw [hr, hl, hep0, hec0, hes0]
        simp only [exceptBind_ok]
        rw [hbs0]
        simp only [exceptBind_ok]
      · rw [hv, pathSegment]
        unfold getMemo
        rw [hr, hl, hep1, hec1, hes1]
        simp only [exceptBind_ok]
        rw [hbs1]
        simp only [exceptBind_ok]
    · have hxs : ((pfx >>> (level - (cl + 1))) ^^^ 1) >>> 1 = pfx >>> (level - cl) := by
        rw [xor_one_shiftRight]
        exact hpar
      have hxb : (pfx >>> (level - (cl + 1))) ^^^ 1 < 2 ^ (cl + 2) := by
        have h2p : (2 : Nat) ^ (cl + 2) = 2 * 2 ^ (cl + 1) := by
          rw [pow_succ]
          ring
        generalize hg : pfx >>> (level - (cl + 1)) = nd at hchild_lt ⊢
        have hx := xor_one_char nd
        omega
      have hv : vecSub ep0.2.2.1 (vecAdd es0.2.2.1 ec0.2.2.1)
          = vecSub ep1.2.2.1 (vecAdd es1.2.2.1 ec1.2.2.1) := by
        rw [hyp0, hyp1, hyc0, hyc1, hys0, hys1]
        have := seg_vec_eq P alpha beta binder rand hb2 ha cl (by omega)
          (pfx >>> (level - cl)) ((pfx >>> (level - (cl + 1))) ^^^ 1) hnode_lt hxs hxb
        rwa [xor_one_invol] at this
      refine ⟨P.encodeVec (vecSub ep0.2.2.1 (vecAdd es0.2.2.1 ec0.2.2.1)) ++ bs,
        ?_, ?_⟩
      · rw [pathSegment]
        unfold getMemo
        rw [hr, hl, hep0, hes0, hec0]
        simp only [exceptBind_ok]
        rw [hbs0]
        simp only [exceptBind_ok]
      · rw [hv, pathSegment]
        unfold getMemo
        rw [hr, hl, hep1, hes1, hec1]
        simp only [exceptBind_ok]
        rw [hbs1]
        simp only [exceptBind_ok]

theorem pathBytesLoop_sync {F : Type} [CommRing F] (P : VidpfParams F) (alpha : Nat)
    (beta : List F) (binder rand : Bytes) (hb2 : beta.length = P.VALUE_LEN)
    (ha : alpha < 2 ^ P.BITS) (level : Nat) (hlev : level < P.BITS)
    (m0 m1 : Memo F)
    (hmp0 : memoPure P binder (genCWs P alpha beta binder rand)
      (rand.take P.seedSize) false m0)
    (hmp1 : memoPure P binder (genCWs P alpha beta binder rand)
      (rand.drop P.seedSize) true m1) :
    ∀ (prefixes : List Nat),
    (∀ x ∈ prefixes, x < 2 ^ (level + 1)) →
    (∀ x ∈ prefixes, ∀ j, j ≤ level →
      (m0 (x >>> (level - j), j)).isSome = true ∧
      (m0 ((x >>> (level - j)) ^^^ 1, j)).isSome = true) →
    (∀ x ∈ prefixes, ∀ j, j ≤ level →
      (m1 (x >>> (level - j), j)).isSome = true ∧
      (m1 ((x >>> (level - j)) ^^^ 1, j)).isSome = true) →
    ∃ bs, pathBytesLoop P m0 level prefixes = .ok bs ∧
      pathBytesLoop P m1 level prefixes = .ok bs
  | [], _, _, _ => ⟨[], rfl, rfl⟩
  | pfx :: rest, hbound, hcov0, hcov1 => by
    obtain ⟨seg, hseg0, hseg1⟩ := pathSegment_sync P alpha beta binder rand hb2 ha
      level hlev pfx (hbound pfx (by simp)) m0 m1 hmp0 hmp1
      (fun j hj => hcov0 pfx (by simp) j hj) (fun j hj => hcov1 pfx (by simp) j hj)
      level 0 (by omega)
    obtain ⟨bs, hbs0, hbs1⟩ := pathBytesLoop_sync P alpha beta binder rand hb2 ha
      level hlev m0 m1 hmp0 hmp1 rest (fun x hx => hbound x (by simp [hx]))
      (fun x hx => hcov0 x (by simp [hx])) (fun x hx => hcov1 x (by simp [hx]))
    refine ⟨seg ++ bs, ?_, ?_⟩
    · rw [pathBytesLoop, hseg0]
      simp only [exceptBind_ok]
      rw [hbs0]
      simp only [exceptBind_ok]
    · rw [pathBytesLoop, hseg1]
      simp only [exceptBind_ok]
      rw [hbs1]
      simp only [exceptBind_ok]

theorem honest_eval_spec {F : Type} [CommRing F] (P : VidpfParams F) (alpha : Nat)
    (beta : List F) (binder rand : Bytes) (level : Nat) (prefixes : List Nat)
    (hb2 : beta.length = P.VALUE_LEN) (ha : alpha < 2 ^ P.BITS)
    (hlev : level < P.BITS) (hnodup : prefixes.Nodup) (hne : prefixes ≠ [])
    (hbound : ∀ x ∈ prefixes, x < 2 ^ (level + 1)) :
    ∃ r0 r1,
      vidpfEval P 0 (genCWs P alpha beta binder rand)
          (genCsps P alpha beta binder rand) (rand.take P.seedSize) level prefixes
          binder
        = .ok r0 ∧
      vidpfEval P 1 (genCWs P alpha beta binder rand)
          (genCsps P alpha beta binder rand) (rand.drop P.seedSize) level prefixes
          binder
        = .ok r1 ∧
      List.zipWith vecAdd r0.2.1 r1.2.1
        = prefixes.map (fun p =>
            if p = alpha >>> (P.BITS - level - 1) then beta
            else List.replicate P.VALUE_LEN 0) ∧
      r0.2.2 = r1.2.2 := by
  have hlenw : level < (genCWs P alpha beta binder rand).length := by
    rw [genCWs_length]
    omega
  have hlens : level < (genCsps P alpha beta binder rand).length := by
    rw [genCsps_length]
    omega
  have hcwlev : (((genCWs P alpha beta binder rand)[level]?.getD default).2.2).length
      = P.VALUE_LEN := by
    rw [genCWs_getD P alpha beta binder rand level hlev]
    exact genCW_w_len P alpha beta binder rand level hb2
  obtain ⟨m0, m1, pi', hloop0, hloop1, hmp0, hmp1, hpair⟩ :=
    pairPrefixLoop P alpha beta binder rand hb2 ha level hlev prefixes
      (fun _ => none) (fun _ => none) (P.hashF []) hbound
      (memoPure_empty P binder _ _ _) (memoPure_empty P binder _ _ _)
      pairMemo_empty
  obtain ⟨m0x, pi0x, hloop0x, hmp0x, hle0x, hcov0x⟩ :=
    evalPrefixLoop_ok P binder (genCWs P alpha beta binder rand)
      (genCsps P alpha beta binder rand) (rand.take P.seedSize) false level hlenw
      hlens prefixes (fun _ => none) (P.hashF []) hbound
      (memoPure_empty P binder _ _ _)
  obtain ⟨m1x, pi1x, hloop1x, hmp1x, hle1x, hcov1x⟩ :=
    evalPrefixLoop_ok P binder (genCWs P alpha beta binder rand)
      (genCsps P alpha beta binder rand) (rand.drop P.seedSize) true level hlenw
      hlens prefixes (fun _ => none) (P.hashF []) hbound
      (memoPure_empty P binder _ _ _)
  have heq0 : m0x = m0 ∧ pi0x = pi' := by
    have h := hloop0x.symm.trans hloop0
    simp only [Except.ok.injEq, Prod.mk.injEq] at h
    exact h
  have heq1 : m1x = m1 ∧ pi1x = pi' := by
    have h := hloop1x.symm.trans hloop1
    simp only [Except.ok.injEq, Prod.mk.injEq] at h
    exact h
  obtain ⟨rfl, -⟩ := heq0
  obtain ⟨rfl, -⟩ := heq1
  obtain ⟨pb, hpb0, hpb1⟩ := pathBytesLoop_sync P alpha beta binder rand hb2 ha
    level hlev m0x m1x hmp0 hmp1 prefixes hbound hcov0x hcov1x
  obtain ⟨os0, hos0, hlen0, hval0⟩ := outShareLoop_ok P m0x level 0 prefixes
    (fun x hx => by
      have h := (hcov0x x hx level (le_refl level)).1
      rwa [Nat.sub_self, Nat.shiftRight_zero] at h)
  obtain ⟨os1, hos1, hlen1, hval1⟩ := outShareLoop_ok P m1x level 1 prefixes
    (fun x hx => by
      have h := (hcov1x x hx level (le_refl level)).1
      rwa [Nat.sub_self, Nat.shiftRight_zero] at h)
  obtain ⟨p0, rest, rfl⟩ := List.exists_cons_of_ne_nil hne
  have hn0 : p0 >>> (level - 0) < 2 := by
    have h := shiftRight_lt_pow p0 (level + 1) (level - 0) (hbound p0 (by simp))
      (by omega)
    have h2 : level + 1 - (level - 0) = 1 := by omega
    rw [h2] at h
    omega
  have hboth0 : (m0x (0, 0)).isSome = true ∧ (m0x (1, 0)).isSome = true := by
    obtain ⟨hha, hhb⟩ := hcov0x p0 (by simp) 0 (by omega)
    have h01 : p0 >>> (level - 0) = 0 ∨ p0 >>> (level - 0) = 1 := by
      rcases Nat.eq_zero_or_pos (p0 >>> (level - 0)) with h | h
      · exact Or.inl h
      · right
        omega
    rcases h01 with h | h <;> rw [h] at hha hhb
    · rw [(by decide : (0 : Nat) ^^^ 1 = 1)] at hhb
      exact ⟨hha, hhb⟩
    · rw [(by decide : (1 : Nat) ^^^ 1 = 0)] at hhb
      exact ⟨hhb, hha⟩
  have hboth1 : (m1x (0, 0)).isSome = true ∧ (m1x (1, 0)).isSome = true := by
    obtain ⟨hha, hhb⟩ := hcov1x p0 (by simp) 0 (by omega)
    have h01 : p0 >>> (level - 0) = 0 ∨ p0 >>> (level - 0) = 1 := by
      rcases Nat.eq_zero_or_pos (p0 >>> (level - 0)) with h | h
      · exact Or.inl h
      · right
        omega
    rcases h01 with h | h <;> rw [h] at hha hhb
    · rw [(by decide : (0 : Nat) ^^^ 1 = 1)] at hhb
      exact ⟨hha, hhb⟩
    · rw [(by decide : (1 : Nat) ^^^ 1 = 0)] at hhb
      exact ⟨hhb, hha⟩
  obtain ⟨e00, he00⟩ := Option.isSome_iff_exists.mp hboth0.1
  obtain ⟨e01, he01⟩ := Option.isSome_iff_exists.mp hboth0.2
  obtain ⟨e10, he10⟩ := Option.isSome_iff_exists.mp hboth1.1
  obtain ⟨e11, he11⟩ := Option.isSome_iff_exists.mp hboth1.2
  refine ⟨(vecAdd e00.2.2.1 e01.2.2.1, os0, pi' ++ P.hashF pb),
    (vecNeg (vecAdd e10.2.2.1 e11.2.2.1), os1, pi' ++ P.hashF pb), ?_, ?_, ?_, rfl⟩
  · rw [vidpfEval, if_neg (by omega), if_neg (by omega),
      if_neg (not_not_intro hnodup)]
    simp only [show ((0 : Nat) == 1) = false from rfl]
    rw [hloop0]
    simp only [exceptBind_ok]
    rw [hpb0]
    simp only [exceptBind_ok]
    rw [hos0]
    simp only [exceptBind_ok]
    unfold getMemo
    rw [he00, he01]
    simp only [exceptBind_ok, if_neg Bool.false_ne_true]
  · rw [vidpfEval, if_neg (by omega), if_neg (by omega),
      if_neg (not_not_intro hnodup)]
    simp only [show ((1 : Nat) == 1) = true from rfl]
    rw [hloop1]
    simp only [exceptBind_ok]
    rw [hpb1]
    simp only [exceptBind_ok]
    rw [hos1]
    simp only [exceptBind_ok]
    unfold getMemo
    rw [he10, he11]
    simp only [exceptBind_ok, if_pos (rfl : true = true), if_true]
  · apply list_eq_of_getD _ _ ([] : List F)
    · rw [List.length_zipWith, hlen0, hlen1, List.length_map]
      omega
    · intro i hi
      rw [List.length_zipWith, hlen0, hlen1] at hi
      have hi' : i < (p0 :: rest).length := by omega
      have hz : (List.zipWith vecAdd os0 os1).getD i []
          = vecAdd (os0.getD i []) (os1.getD i []) := by
        rw [List.getD_eq_getElem _ _ (by rw [List.length_zipWith, hlen0, hlen1]; omega),
          List.getElem_zipWith,
          List.getD_eq_getElem _ _ (by rw [hlen0]; omega),
          List.getD_eq_getElem _ _ (by rw [hlen1]; omega)]
      have hm : ((p0 :: rest).map (fun p =>
            if p = alpha >>> (P.BITS - level - 1) then beta
            else List.replicate P.VALUE_LEN 0)).getD i []
          = (if (p0 :: rest).getD i 0 = alpha >>> (P.BITS - level - 1) then beta
              else List.replicate P.VALUE_LEN 0) := by
        rw [List.getD_eq_getElem _ _ (by rw [List.length_map]; exact hi'),
          List.getElem_map, List.getD_eq_getElem _ _ hi']
      rw [hz, hm]
      obtain ⟨e0x, he0x, hv0⟩ := hval0 i hi'
      obtain ⟨e1x, he1x, hv1⟩ := hval1 i hi'
      rw [hv0, hv1]
      rw [show ((0 : Nat) == 0) = true from rfl, show ((1 : Nat) == 0) = false from rfl,
        if_pos (rfl : true = true), if_neg Bool.false_ne_true]
      have hy0 := congrArg (fun z => z.2.2) (hmp0 _ _ _ he0x)
      have hy1 := congrArg (fun z => z.2.2) (hmp1 _ _ _ he1x)
      simp only at hy0 hy1
      rw [hy0, hy1, vecAdd_vecNeg]
      by_cases hp : (p0 :: rest).getD i 0 = alpha >>> (P.BITS - level - 1)
      · rw [if_pos hp, hp]
        exact (nodeValC_onpath P alpha beta binder rand hb2 level hlev).2.2.2.2
      · rw [if_neg hp]
        have hmem : (p0 :: rest).getD i 0 ∈ (p0 :: rest) := by
          rw [List.getD_eq_getElem _ _ hi']
          exact List.getElem_mem hi'
        have hplt : (p0 :: rest).getD i 0 < 2 ^ (level + 1) := hbound _ hmem
        rw [nodeValC_offpath P alpha beta binder rand hb2 ha level hlev _ hplt hp,
          vecSub_self_eq, nodeValC_y_len P binder _ _ _ level _ hcwlev]

/-- C1: for every `alpha` of `BITS` bits, `beta` of length `VALUE_LEN`, any
binder, and `rand` of `RAND_SIZE = 2·seedSize` bytes, an honest `Vidpf.gen`
followed by both aggregators' `Vidpf.eval` at the same valid `level` and
(non-empty, unique, in-range) prefix list yields out-shares whose
componentwise sums are `beta` at the prefix matching the length-`(level+1)`
prefix of `alpha` and the zero vector at every other prefix. -/
theorem vidpf_gen_eval_out_share_sum {F : Type} [CommRing F] (P : VidpfParams F)
    (alpha : Nat) (beta : List F) (binder rand : Bytes) (level : Nat)
    (prefixes : List Nat) (ha : alpha < 2 ^ P.BITS)
    (hb2 : beta.length = P.VALUE_LEN) (hr : rand.length = 2 * P.seedSize)
    (hlev : level < P.BITS) (hnodup : prefixes.Nodup) (hne : prefixes ≠ [])
    (hbound : ∀ x ∈ prefixes, x < 2 ^ (level + 1)) :
    ∃ ks cws csps r0 r1,
      vidpfGen P alpha beta binder rand = .ok (ks, cws, csps) ∧
      vidpfEval P 0 cws csps ks.1 level prefixes binder = .ok r0 ∧
      vidpfEval P 1 cws csps ks.2 level prefixes binder = .ok r1 ∧
      List.zipWith vecAdd r0.2.1 r1.2.1
        = prefixes.map (fun p =>
            if p = alpha >>> (P.BITS - level - 1) then beta
            else List.replicate P.VALUE_LEN 0) := by
  obtain ⟨r0, r1, h0, h1, hsum, hpi⟩ := honest_eval_spec P alpha beta binder rand
    level prefixes hb2 ha hlev hnodup hne hbound
  exact ⟨(rand.take P.seedSize, rand.drop P.seedSize), _, _, r0, r1,
    vidpfGen_eq P alpha beta binder rand ha hr, h0, h1, hsum⟩

/-- C1 (witness): a concrete honest run over `VP`. -/
theorem vidpf_gen_eval_out_share_sum_witness :
    ∃ ks cws csps r0 r1,
      vidpfGen VP 2 [3] [1] [4, 9] = .ok (ks, cws, csps) ∧
      vidpfEval VP 0 cws csps ks.1 1 [2, 1] [1] = .ok r0 ∧
      vidpfEval VP 1 cws csps ks.2 1 [2, 1] [1] = .ok r1 ∧
      List.zipWith vecAdd r0.2.1 r1.2.1
        = [2, 1].map (fun p =>
            if p = 2 >>> (VP.BITS - 1 - 1) then [3]
            else List.replicate VP.VALUE_LEN 0) :=
  vidpf_gen_eval_out_share_sum VP 2 [3] [1] [4, 9] 1 [2, 1] (by decide) (by decide)
    (by decide) (by decide) (by decide) (by decide) (by decide)

/-- C2: for every honest report and every valid `level` and non-empty,
unique, in-range prefix list, the proof bytes returned by `Vidpf.eval` for
Aggregator 0 equal those returned for Aggregator 1, so `Vidpf.verify`
accepts. -/
theorem vidpf_gen_eval_proof_eq {F : Type} [CommRing F] (P : VidpfParams F)
    (alpha : Nat) (beta : List F) (binder rand : Bytes) (level : Nat)
    (prefixes : List Nat) (ha : alpha < 2 ^ P.BITS)
    (hb2 : beta.length = P.VALUE_LEN) (hr : rand.length = 2 * P.seedSize)
    (hlev : level < P.BITS) (hnodup : prefixes.Nodup) (hne : prefixes ≠ [])
    (hbound : ∀ x ∈ prefixes, x < 2 ^ (level + 1)) :
    ∃ ks cws csps r0 r1,
      vidpfGen P alpha beta binder rand = .ok (ks, cws, csps) ∧
      vidpfEval P 0 cws csps ks.1 level prefixes binder = .ok r0 ∧
      vidpfEval P 1 cws csps ks.2 level prefixes binder = .ok r1 ∧
      r0.2.2 = r1.2.2 ∧ vidpfVerify r0.2.2 r1.2.2 = true := by
  obtain ⟨r0, r1, h0, h1, hsum, hpi⟩ := honest_eval_spec P alpha beta binder rand
    level prefixes hb2 ha hlev hnodup hne hbound
  refine ⟨(rand.take P.seedSize, rand.drop P.seedSize), _, _, r0, r1,
    vidpfGen_eq P alpha beta binder rand ha hr, h0, h1, hpi, ?_⟩
  show (r0.2.2 == r1.2.2) = true
  rw [hpi]
  exact beq_self_eq_true _

/-- C2 (witness): a concrete honest run over `VP`. -/
theorem vidpf_gen_eval_proof_eq_witness :
    ∃ ks cws csps r0 r1,
      vidpfGen VP 2 [3] [1] [4, 9] = .ok (ks, cws, csps) ∧
      vidpfEval VP 0 cws csps ks.1 1 [1, 3] [1] = .ok r0 ∧
      vidpfEval VP 1 cws csps ks.2 1 [1, 3] [1] = .ok r1 ∧
      r0.2.2 = r1.2.2 ∧ vidpfVerify r0.2.2 r1.2.2 = true :=
  vidpf_gen_eval_proof_eq VP 2 [3] [1] [4, 9] 1 [1, 3] (by decide) (by decide)
    (by decide) (by decide) (by decide) (by decide) (by decide)
